import Mathlib

/-!
# Bitmap steganography: the bit-packing codec

A shallow embedding of `bitmap_steganography.c` / `bitmap_steganography.h`.

Modelling conventions.

* A byte buffer (`uint8_t *`) is a `List Nat`; every store truncates the stored
  value to 8 bits (`% 256`).  An access outside the buffer is undefined
  behaviour in C and is `none` here, so every function that touches memory
  returns an `Option`.
* The byte cursor (`dataIndex`, `encodedDataIndex`) is a `uint64_t`.  Every
  value of the cursor that is used for an access is checked against the length
  of the buffer, itself a `uint64_t`, so the cursor is a `Nat` without
  wrap-around.
* `visited` is a ghost field: the list of cursor values at which a pixel was
  accessed, in order.  It does not influence any other field.
* `int` is 32 bits wide.
* The files and the outcome of every library call that can fail are the
  fields of a `World`; header fields are read from the file bytes as on a
  little-endian host with packed structures.
-/

namespace BitmapSteganography

/-! ## Constants of `bitmap_steganography.h` -/

/-- Number of bytes of the stored file extension. -/
def EXTENSION_SIZE : Nat := 3

/-- Number of bytes of the stored length field. -/
def DATA_SIZE : Nat := 8

/-- Bound of the encoder's length loop (compared with the byte cursor). -/
def PIXELS_TO_STORE_DATA_LEN : Nat := 24

/-- Bytes per pixel. -/
def BYTES_IN_PIXEL : Nat := 3

/-- Offset of the blue byte in a pixel. -/
def BLUE : Nat := 0

/-- Offset of the green byte in a pixel. -/
def GREEN : Nat := 1

/-- Offset of the red byte in a pixel. -/
def RED : Nat := 2

/-- Bitmask used when encoding / decoding data to a blue byte. -/
def BLUE_BITMASK : Nat := 0x07

/-- Bitmask used when encoding / decoding data to a green byte. -/
def GREEN_BITMASK : Nat := 0x07

/-- Bitmask used when encoding / decoding data to a red byte. -/
def RED_BITMASK : Nat := 0x03

/-- Number of bits used to store data in a blue byte. -/
def BLUE_BITS : Nat := 3

/-- Number of bits used to store data in a green byte. -/
def GREEN_BITS : Nat := 3

/-- Number of bits used to store data in a red byte. -/
def RED_BITS : Nat := 2

/-- Size of the packed `tBitmapFileHeader` (2 + 4 + 2 + 2 + 4 bytes). -/
def sizeofBitmapFileHeader : Nat := 14

/-- Size of the packed `tBitmapInfoHeader` (3 * 4 + 2 * 2 + 6 * 4 bytes). -/
def sizeofBitmapInfoHeader : Nat := 40

/-- The error codes of `enum eErrors`, in declaration order. -/
inductive tError where
  | success
  | errorDefault
  | errorFopen
  | errorFclose
  | errorMalloc
  | errorFread
  | errorFwrite
  | errorSize
  | errorNull
  | errorFileType
  | errorFseek
  deriving DecidableEq, Repr

/-! ## Machine arithmetic -/

/-- Bit pattern of `~m` for an `int` operand `m` (32 bits, two's complement). -/
def bitNot (m : Nat) : Nat := 0xFFFFFFFF ^^^ m

/-- Product of two operands in `unsigned int` (32 bits). -/
def mul32 (a b : Nat) : Nat := (a * b) % 2 ^ 32

/-- Difference of two operands in `uint64_t` (wraps below zero). -/
def sub64 (a b : Nat) : Nat := (a % 2 ^ 64 + (2 ^ 64 - b % 2 ^ 64)) % 2 ^ 64

/-- Value of `v << s` for a non-negative `int` operand `v`, converted to
`uint64_t` as the `|=` of `parseEncodedData` does.  For `s < 32` and
`v * 2 ^ s < 2 ^ 31` C defines the value, `v * 2 ^ s`.  Outside that range C
leaves the shift undefined; the model takes the 32-bit shift instruction of
the usual targets (count modulo 32, result kept to 32 bits) and the
sign-extending conversion of a negative `int` to `uint64_t`. -/
def shlInt (v s : Nat) : Nat :=
  let r := (v <<< (s % 32)) % 2 ^ 32
  if r < 2 ^ 31 then r else r + (2 ^ 64 - 2 ^ 32)

/-! ## Cursor -/

/-- The function `checkPadding`: the new value of `*pIndex`.  The C function
takes `(*pIndex + 1) % width`; with `width = 0` that is a division by zero,
`none` here.  (Its return value, never assigned after `errorDefault`, is
ignored by every caller.) -/
def checkPadding (index width padding : Nat) : Option Nat :=
  if width = 0 then none
  else if (index + 1) % width = 0 then some (index + padding)
  else some index

/-! ## Byte stores -/

/-- The statement `pData[i] &= m` on a `uint8_t` buffer. -/
def andAssign (pData : List Nat) (i m : Nat) : Option (List Nat) :=
  match pData[i]? with
  | some b => some (pData.set i ((b &&& m) % 256))
  | none => none

/-- The statement `pData[i] |= v` on a `uint8_t` buffer. -/
def orAssign (pData : List Nat) (i v : Nat) : Option (List Nat) :=
  match pData[i]? with
  | some b => some (pData.set i ((b ||| v) % 256))
  | none => none

/-- The three statements that zero the data bits of the pixel at `dataIndex`:
`pData[dataIndex + BLUE] &= ~BLUE_BITMASK`, then green, then red. -/
def zeroPixel (pData : List Nat) (dataIndex : Nat) : Option (List Nat) := do
  let pData ← andAssign pData (dataIndex + BLUE) (bitNot BLUE_BITMASK)
  let pData ← andAssign pData (dataIndex + GREEN) (bitNot GREEN_BITMASK)
  andAssign pData (dataIndex + RED) (bitNot RED_BITMASK)

/-- The three statements that OR the fragments `b`, `g`, `r` into the blue,
green and red byte of the pixel at `dataIndex`. -/
def orPixel (pData : List Nat) (dataIndex b g r : Nat) : Option (List Nat) := do
  let pData ← orAssign pData (dataIndex + BLUE) b
  let pData ← orAssign pData (dataIndex + GREEN) g
  orAssign pData (dataIndex + RED) r

/-! ## Embedding: the loops of `encodeDataFileContents` -/

/-- State of the embedding loops: the pixel buffer, the byte cursor and the
ghost list of visited pixel offsets. -/
structure EncState where
  /-- The pixel buffer `pData`. -/
  pData : List Nat
  /-- The byte cursor `dataIndex`. -/
  dataIndex : Nat
  /-- Ghost: offsets of the pixels written so far. -/
  visited : List Nat
  deriving DecidableEq, Repr

/-- The first loop of `encodeDataFileContents`,
`while (dataIndex < PIXELS_TO_STORE_DATA_LEN)`, which stores the length.
Every iteration adds at least `BYTES_IN_PIXEL` to the cursor, so 8 units of
fuel let the loop reach its exit test (`lengthLoop_exit`).  `bitShift` is a
`uint8_t` that stays below 65. -/
def lengthLoop (sizeOfDataToEncode width padding : Nat) :
    Nat → EncState → Nat → Option EncState
  | 0, s, _ => some s
  | fuel + 1, s, bitShift =>
    if s.dataIndex < PIXELS_TO_STORE_DATA_LEN then do
      let dataIndex ← checkPadding s.dataIndex width padding
      let pData ← zeroPixel s.pData dataIndex
      let b := (sizeOfDataToEncode >>> bitShift) &&& BLUE_BITMASK
      let bitShift := bitShift + BLUE_BITS
      let g := (sizeOfDataToEncode >>> bitShift) &&& GREEN_BITMASK
      let bitShift := bitShift + GREEN_BITS
      let r := (sizeOfDataToEncode >>> bitShift) &&& RED_BITMASK
      let bitShift := bitShift + RED_BITS
      let pData ← orPixel pData dataIndex b g r
      lengthLoop sizeOfDataToEncode width padding fuel
        ⟨pData, dataIndex + BYTES_IN_PIXEL, s.visited ++ [dataIndex]⟩ bitShift
    else some s

/-- The second loop of `encodeDataFileContents`,
`while (encodedBytes < EXTENSION_SIZE)`; the first argument is
`EXTENSION_SIZE - encodedBytes`.  `extension` is the C string that follows
the last dot of the file name, terminator included; reading it past its end
is `none`. -/
def extensionLoop (extension : List Nat) (width padding : Nat) :
    Nat → EncState → Nat → Option EncState
  | 0, s, _ => some s
  | n + 1, s, extensionIndex => do
    let dataIndex ← checkPadding s.dataIndex width padding
    let pData ← zeroPixel s.pData dataIndex
    let c ← extension[extensionIndex]?
    let pData ←
      if c ≠ 0 then
        orPixel pData dataIndex (c &&& BLUE_BITMASK)
          ((c >>> BLUE_BITS) &&& GREEN_BITMASK)
          ((c >>> (BLUE_BITS + GREEN_BITS)) &&& RED_BITMASK)
      else some pData
    extensionLoop extension width padding n
      ⟨pData, dataIndex + BYTES_IN_PIXEL, s.visited ++ [dataIndex]⟩
      (extensionIndex + 1)

/-- The third loop of `encodeDataFileContents`,
`while (encodedBytes < sizeOfDataToEncode)`; the list is the part of the data
file from `pDataToEncode` on. -/
def payloadLoop (width padding : Nat) : List Nat → EncState → Option EncState
  | [], s => some s
  | d :: rest, s => do
    let dataIndex ← checkPadding s.dataIndex width padding
    let pData ← zeroPixel s.pData dataIndex
    let pData ← orPixel pData dataIndex (d &&& BLUE_BITMASK)
      ((d >>> BLUE_BITS) &&& GREEN_BITMASK)
      ((d >>> (BLUE_BITS + GREEN_BITS)) &&& RED_BITMASK)
    payloadLoop width padding rest
      ⟨pData, dataIndex + BYTES_IN_PIXEL, s.visited ++ [dataIndex]⟩

/-- The embedding loops of `encodeDataFileContents` (the final `else` branch,
after the file has been read): `extension` is the string after the dot,
`dataToEncode` the content of the data file, whose length is
`sizeOfDataToEncode`. -/
def encodeDataFileContentsLoops (extension : List Nat) (pData : List Nat)
    (dataToEncode : List Nat) (width padding : Nat) : Option EncState := do
  let s ← lengthLoop dataToEncode.length width padding 8 ⟨pData, 0, []⟩ 0
  let s ← extensionLoop extension width padding EXTENSION_SIZE s 0
  payloadLoop width padding dataToEncode s

/-! ## Extraction: `parseEncodedData` and `decodeData` -/

/-- State of the loop of `parseEncodedData` that reads the length. -/
structure SizeState where
  /-- The byte cursor `dataIndex`. -/
  dataIndex : Nat
  /-- The shift count `bitShift`. -/
  bitShift : Nat
  /-- The accumulated `*pEncodedDataSize`. -/
  encodedDataSize : Nat
  /-- Ghost: offsets of the pixels read so far. -/
  visited : List Nat
  deriving DecidableEq, Repr

/-- State of a loop that reads one byte per pixel. -/
structure DecState where
  /-- The bytes decoded so far. -/
  decoded : List Nat
  /-- The byte cursor. -/
  index : Nat
  /-- Ghost: offsets of the pixels read so far. -/
  visited : List Nat
  deriving DecidableEq, Repr

/-- The first loop of `parseEncodedData`, `while (decodedBytes < DATA_SIZE)`;
the first argument is `DATA_SIZE - decodedBytes`.  Each operand of `<<` is an
`int`; the result is converted to `uint64_t` for the `|=`. -/
def sizeLoop (pImageData : List Nat) (width padding : Nat) :
    Nat → SizeState → Option SizeState
  | 0, s => some s
  | n + 1, s => do
    let dataIndex ← checkPadding s.dataIndex width padding
    let b ← pImageData[dataIndex + BLUE]?
    let size := s.encodedDataSize ||| shlInt (b &&& BLUE_BITMASK) s.bitShift
    let bitShift := s.bitShift + BLUE_BITS
    let g ← pImageData[dataIndex + GREEN]?
    let size := size ||| shlInt (g &&& GREEN_BITMASK) bitShift
    let bitShift := bitShift + GREEN_BITS
    let r ← pImageData[dataIndex + RED]?
    let size := size ||| shlInt (r &&& RED_BITMASK) bitShift
    let bitShift := bitShift + RED_BITS
    sizeLoop pImageData width padding n
      ⟨dataIndex + BYTES_IN_PIXEL, bitShift, size, s.visited ++ [dataIndex]⟩

/-- The three assignments that rebuild one byte from the pixel at `index`:
`x = blue & BLUE_BITMASK; x |= (green & GREEN_BITMASK) << BLUE_BITS;
x |= (red & RED_BITMASK) << (BLUE_BITS + GREEN_BITS)`, each stored in 8 bits. -/
def readPixel (pImageData : List Nat) (index : Nat) : Option Nat := do
  let b ← pImageData[index + BLUE]?
  let x := (b &&& BLUE_BITMASK) % 256
  let g ← pImageData[index + GREEN]?
  let x := (x ||| ((g &&& GREEN_BITMASK) <<< BLUE_BITS)) % 256
  let r ← pImageData[index + RED]?
  some ((x ||| ((r &&& RED_BITMASK) <<< (BLUE_BITS + GREEN_BITS))) % 256)

/-- The second loop of `parseEncodedData`,
`while (decodedBytes < EXTENSION_SIZE)`, and the loop of `decodeData`,
`while (decodedDataIndex < encodedDataSize)`: both read one byte per pixel;
the first argument is the number of bytes still to read. -/
def byteLoop (pImageData : List Nat) (width padding : Nat) :
    Nat → DecState → Option DecState
  | 0, s => some s
  | n + 1, s => do
    let index ← checkPadding s.index width padding
    let x ← readPixel pImageData index
    byteLoop pImageData width padding n
      ⟨s.decoded ++ [x], index + BYTES_IN_PIXEL, s.visited ++ [index]⟩

/-- Result of `parseEncodedData`: the returned status and the three
out-parameters. -/
structure ParseOut where
  /-- The returned status. -/
  errRtn : tError
  /-- The value stored in `*pStartOfEncodedDataIndex`. -/
  startOfEncodedDataIndex : Nat
  /-- The three bytes stored in `pExtension`. -/
  extension : List Nat
  /-- The value stored in `*pEncodedDataSize`. -/
  encodedDataSize : Nat
  /-- Ghost: offsets of the pixels read. -/
  visited : List Nat
  deriving DecidableEq, Repr

/-- The function `parseEncodedData`.  In the `errorSize` branch only the start
index is written; `pExtension` and `*pEncodedDataSize` keep the zeros that
`decoding` initialised them with. -/
def parseEncodedData (pImageData : List Nat) (imageDataSize padding width : Nat) :
    Option ParseOut :=
  if imageDataSize <
      sizeofBitmapFileHeader + sizeofBitmapInfoHeader + DATA_SIZE + EXTENSION_SIZE then
    some ⟨tError.errorSize, 0, [0, 0, 0], 0, []⟩
  else do
    let s ← sizeLoop pImageData width padding DATA_SIZE ⟨0, 0, 0, []⟩
    let e ← byteLoop pImageData width padding EXTENSION_SIZE ⟨[], s.dataIndex, s.visited⟩
    some ⟨tError.success, e.index, e.decoded, s.encodedDataSize, e.visited⟩

/-- The function `decodeData` (both pointers non-null): the decoded bytes, the
final cursor and the pixels read. -/
def decodeData (encodedData : List Nat)
    (encodedDataSize startOfEncodedDataIndex width padding : Nat) : Option DecState :=
  byteLoop encodedData width padding encodedDataSize ⟨[], startOfEncodedDataIndex, []⟩

/-! ## The capacity check of `encoding` -/

/-- The test `(imageDataSize - (padding * infoHeader.height) - EXTENSION_SIZE
- DATA_SIZE) < dataToEncodeSize` of `encoding`.  The product is taken in
`unsigned int`, the differences in `uint64_t`. -/
def capacityExceeded (imageDataSize padding height dataToEncodeSize : Nat) : Bool :=
  decide (sub64 (sub64 (sub64 imageDataSize (mul32 padding height)) EXTENSION_SIZE)
    DATA_SIZE < dataToEncodeSize)

/-- The two steps of `encoding` from the capacity check to the call of
`encodeDataFileContents`: the status, and the pixel buffer afterwards.  When
the check rejects, `encodeDataFileContents` is not called and the buffer is
the carrier's.  `none` is an access outside the buffer. -/
def encodingEmbedStep (extension pImageData dataToEncode : List Nat)
    (imageDataSize width height padding : Nat) : Option (tError × List Nat) :=
  if capacityExceeded imageDataSize padding height dataToEncode.length then
    some (tError.errorSize, pImageData)
  else do
    let s ← encodeDataFileContentsLoops extension pImageData dataToEncode width padding
    some (tError.success, s.pData)

/-! ## Geometry: the arithmetic of `parseBitmap` -/

/-- Sum of two operands in `unsigned int` (32 bits). -/
def add32 (a b : Nat) : Nat := (a + b) % 2 ^ 32

/-- Difference of two operands in `unsigned int` (32 bits, wraps below zero). -/
def sub32 (a b : Nat) : Nat := (a % 2 ^ 32 + (2 ^ 32 - b % 2 ^ 32)) % 2 ^ 32

/-- The local `widthBytes` of `parseBitmap` after the rounding step:
`widthBytes = width * BYTES_IN_PIXEL; if (widthBytes % 4 != 0) widthBytes +=
4 - (widthBytes % 4)`, all in `uint32_t`. -/
def widthBytes (width : Nat) : Nat :=
  let wb := mul32 width BYTES_IN_PIXEL
  if wb % 4 ≠ 0 then add32 wb (4 - wb % 4) else wb

/-- The value `parseBitmap` stores in `*pPadding`:
`widthBytes - (width * BYTES_IN_PIXEL)` in `uint32_t`, kept to 8 bits. -/
def rowPadding (width : Nat) : Nat :=
  sub32 (widthBytes width) (mul32 width BYTES_IN_PIXEL) % 256

/-- The value `parseBitmap` stores in `*pSizeOfData`: `widthBytes * height`,
a product of two `uint32_t`, widened to `uint64_t` afterwards. -/
def sizeOfData (width height : Nat) : Nat := mul32 (widthBytes width) height

/-- The row-alignment rule of the specification: `n` rounded up to the next
multiple of 4, in exact arithmetic. -/
def roundUpTo4 (n : Nat) : Nat := (n + 3) / 4 * 4

/-! ## Files and library calls -/

/-- Everything outside the program that an invocation depends on: the two
files, the name of the data file, and whether each library call that can fail
independently of the file contents succeeds. -/
structure World where
  /-- Content of `argv[BITMAP_FILE]`; `none` when its `fopen` fails. -/
  bitmapFile : Option (List Nat)
  /-- The string `argv[ENCODE_FILE]`, without its terminator. -/
  dataFileName : List Nat
  /-- Content of `argv[ENCODE_FILE]`; `none` when its `fopen` fails. -/
  dataFile : Option (List Nat)
  /-- The `fseek` of `parseBitmap` succeeds. -/
  parseBitmapFseek : Bool
  /-- The `malloc` of `copyBitmapData` succeeds. -/
  copyMalloc : Bool
  /-- The `fseek` of `copyBitmapData` succeeds. -/
  copyFseek : Bool
  /-- The `malloc(encodedDataSize)` of `decoding` succeeds. -/
  decodeMalloc : Bool
  /-- The `fseek` of `encodeDataFileContents` succeeds. -/
  encodeFseek : Bool
  /-- The `malloc` of `encodeDataFileContents` succeeds. -/
  encodeMalloc : Bool
  /-- The `fopen` of the output file succeeds. -/
  outFopen : Bool
  /-- The `fseek` on the output file succeeds. -/
  outFseek : Bool
  /-- Every `fwrite` of a non-empty item to the output file writes it. -/
  outFwrite : Bool
  /-- The `fclose` of the output file succeeds. -/
  outFclose : Bool
  /-- The `fclose` of the bitmap file succeeds. -/
  bitmapFclose : Bool
  /-- The `fclose` of the data file succeeds. -/
  dataFclose : Bool
  deriving DecidableEq, Repr

/-- Numeric value of an `enum eErrors` constant, the `int` that `main`
returns. -/
def tError.code : tError → Nat
  | .success => 0
  | .errorDefault => 1
  | .errorFopen => 2
  | .errorFclose => 3
  | .errorMalloc => 4
  | .errorFread => 5
  | .errorFwrite => 6
  | .errorSize => 7
  | .errorNull => 8
  | .errorFileType => 9
  | .errorFseek => 10

/-- A 16-bit field of a packed header, read at byte offset `off` of the file
(little-endian host). -/
def le16 (file : List Nat) (off : Nat) : Nat :=
  file.getD off 0 + 256 * file.getD (off + 1) 0

/-- A 32-bit field of a packed header, read at byte offset `off` of the file
(little-endian host). -/
def le32 (file : List Nat) (off : Nat) : Nat :=
  le16 file off + 65536 * le16 file (off + 2)

/-- The test `fgetc(fpBitmap) != 'B' || fgetc(fpBitmap) != 'M'` on a freshly
opened file. -/
def magicMismatch (file : List Nat) : Bool :=
  decide (file[0]? ≠ some 66) || decide (file[1]? ≠ some 77)

/-- What `parseBitmap` hands back: its status, the header fields the program
uses afterwards, the row padding and the size of the pixel data. -/
structure ParsedBitmap where
  /-- The returned status. -/
  errRtn : tError
  /-- The field `pInfoHeader->width`. -/
  width : Nat
  /-- The field `pInfoHeader->height`. -/
  height : Nat
  /-- The field `pInfoHeader->bitsPerPixel`. -/
  bitsPerPixel : Nat
  /-- The value of `*pPadding`. -/
  padding : Nat
  /-- The value of `*pSizeOfData`. -/
  sizeOfData : Nat
  deriving DecidableEq, Repr

/-- The function `parseBitmap` (non-null arguments).  The first `fread` takes
the 14 bytes of the file header, the second the 40 bytes of the info header,
whose `width`, `height` and `bitsPerPixel` lie at file offsets 18, 22 and 28.
On failure the outputs keep their initial zeros. -/
def parseBitmap (file : List Nat) (fseekOk : Bool) : ParsedBitmap :=
  if ¬ fseekOk then ⟨tError.errorFseek, 0, 0, 0, 0, 0⟩
  else if file.length < sizeofBitmapFileHeader then ⟨tError.errorFread, 0, 0, 0, 0, 0⟩
  else if file.length < sizeofBitmapFileHeader + sizeofBitmapInfoHeader then
    ⟨tError.errorFread, 0, 0, 0, 0, 0⟩
  else
    let width := le32 file 18
    let height := le32 file 22
    ⟨tError.success, width, height, le16 file 28, rowPadding width, sizeOfData width height⟩

/-- The function `copyBitmapData`: its status and, on success, the `dataSize`
bytes that follow the two headers. -/
def copyBitmapData (file : List Nat) (dataSize : Nat) (mallocOk fseekOk : Bool) :
    tError × Option (List Nat) :=
  if ¬ mallocOk then (tError.errorNull, none)
  else if ¬ fseekOk then (tError.errorFseek, none)
  else if file.length < sizeofBitmapInfoHeader + sizeofBitmapFileHeader + dataSize then
    (tError.errorFread, none)
  else
    (tError.success,
      some ((file.drop (sizeofBitmapInfoHeader + sizeofBitmapFileHeader)).take dataSize))

/-- The function `validateSizes`; `total` is a sum in `uint64_t`. -/
def validateSizes (bitmapFileSizeBytes pixelSizeBytes filePaddingSizeBytes : Nat) : tError :=
  let total := (pixelSizeBytes + sizeofBitmapFileHeader + sizeofBitmapInfoHeader
    + filePaddingSizeBytes) % 2 ^ 64
  if bitmapFileSizeBytes ≠ total then tError.errorSize else tError.success

/-- The string a `char *` points to: the bytes before the first NUL. -/
def cString (buf : List Nat) : List Nat := buf.takeWhile (· ≠ 0)

/-- The call `strrchr(s, c)` on the bytes `s` of a string, terminator
included: the bytes from the last occurrence of `c` on, or `none`. -/
def strrchr : List Nat → Nat → Option (List Nat)
  | [], _ => none
  | x :: xs, c =>
    match strrchr xs c with
    | some r => some r
    | none => if x = c then some (x :: xs) else none

/-- The pointer `extension` of `encodeDataFileContents` when the loops start:
the bytes after the last dot of the file name up to and including its
terminator, or the four NULs after the dot of the literal `".\0\0\0"`. -/
def extensionOf (dataFileName : List Nat) : List Nat :=
  match strrchr (dataFileName ++ [0]) 46 with
  | some e => e.drop 1
  | none => ([46, 0, 0, 0, 0] : List Nat).drop 1

/-- The function `encodeDataFileContents` (non-null arguments): its status and
the pixel buffer afterwards.  `dataToEncode` is the content of the data file;
`fread` copies it to a block of `dataSize` bytes, so a longer file overruns
the block (`none`), as does any access outside the pixel buffer. -/
def encodeDataFileContents (dataToEncode dataFileName pData : List Nat)
    (dataSize width padding : Nat) (fseekOk mallocOk : Bool) :
    Option (tError × List Nat) :=
  if ¬ fseekOk then some (tError.errorFseek, pData)
  else if ¬ mallocOk then some (tError.errorMalloc, pData)
  else if dataSize < dataToEncode.length then none
  else do
    let s ← encodeDataFileContentsLoops (extensionOf dataFileName) pData dataToEncode
      width padding
    some (tError.success, s.pData)

/-- The bytes of `"decoded"`. -/
def decodedName : List Nat := [100, 101, 99, 111, 100, 101, 100]

/-- Size of the name buffer of `createOutputFile`. -/
def OUTPUT_NAME_SIZE : Nat := 15

/-- The name `createOutputFile` opens: the buffer starts as `"decoded"` and,
when `strlen(extension)` is not zero, receives
`snprintf(_, OUTPUT_NAME_SIZE, "decoded.%s", extension)`, which keeps at most
`OUTPUT_NAME_SIZE - 1` characters. -/
def outputFileName (extension : List Nat) : List Nat :=
  if (cString extension).length ≠ 0 then
    (decodedName ++ [46] ++ cString extension).take (OUTPUT_NAME_SIZE - 1)
  else decodedName

/-- The function `createOutputFile` (non-null data pointer): the status after
`fopen`, `fwrite(pFileData, dataSizeBytes, 1, _)`, which returns 0 for an
empty item, and `fclose`. -/
def createOutputFile (dataSizeBytes : Nat) (w : World) : tError :=
  if ¬ w.outFopen then tError.errorFopen
  else if ¬ w.outFclose then tError.errorFclose
  else if ¬ w.outFwrite ∨ dataSizeBytes = 0 then tError.errorFwrite
  else tError.success

/-- The function `createOutputBitmap` (non-null arguments): the status after
`fopen`, `fseek`, the three `fwrite` and `fclose`. -/
def createOutputBitmap (dataSize : Nat) (w : World) : tError :=
  if ¬ w.outFopen then tError.errorFopen
  else if ¬ w.outFclose then tError.errorFclose
  else if ¬ w.outFseek then tError.errorFseek
  else if ¬ w.outFwrite ∨ dataSize = 0 then tError.errorFwrite
  else tError.success

/-- State at the end of the `if` / `else if` chain of `decoding` or
`encoding`. -/
structure ChainOut where
  /-- The value of `errRtn`, the status that was printed. -/
  errRtn : tError
  /-- Ghost: `parseEncodedData` or `encodeDataFileContents` was called. -/
  codecRan : Bool
  /-- The data file was opened (`fpDataFile != NULL`). -/
  dataFileOpen : Bool
  /-- The output file and its content, when the chain reached its end. -/
  output : Option (List Nat × List Nat)
  deriving DecidableEq, Repr

/-- The `if` / `else if` chain of `decoding`.  `none` is an access outside the
pixel buffer. -/
def decodingChain (w : World) : Option ChainOut :=
  match w.bitmapFile with
  | none => some ⟨tError.errorFopen, false, false, none⟩
  | some file =>
    if magicMismatch file then some ⟨tError.errorFileType, false, false, none⟩
    else
      let b := parseBitmap file w.parseBitmapFseek
      if b.errRtn ≠ tError.success then some ⟨b.errRtn, false, false, none⟩
      else if b.bitsPerPixel ≠ 24 then some ⟨tError.errorFileType, false, false, none⟩
      else
        match copyBitmapData file b.sizeOfData w.copyMalloc w.copyFseek with
        | (err, none) => some ⟨err, false, false, none⟩
        | (_, some pImageData) => do
          let r ← parseEncodedData pImageData b.sizeOfData b.padding b.width
          if r.errRtn ≠ tError.success then some ⟨r.errRtn, true, false, none⟩
          else if ¬ w.decodeMalloc then some ⟨tError.errorMalloc, true, false, none⟩
          else do
            let d ← decodeData pImageData r.encodedDataSize r.startOfEncodedDataIndex
              b.width b.padding
            let errRtn := createOutputFile r.encodedDataSize w
            some ⟨errRtn, true, false,
              if errRtn = tError.success then some (outputFileName r.extension, d.decoded)
              else none⟩

/-- The function `decoding`: the chain, then `fclose(fpBitmap)` when the file
was opened; the function returns `errRtn`. -/
def decoding (w : World) : Option tError := do
  let c ← decodingChain w
  if w.bitmapFile.isSome ∧ ¬ w.bitmapFclose then some tError.errorFclose
  else some c.errRtn

/-- The `if` / `else if` chain of `encoding`.  `none` is an access outside a
buffer. -/
def encodingChain (w : World) : Option ChainOut :=
  match w.bitmapFile with
  | none => some ⟨tError.errorFopen, false, false, none⟩
  | some file =>
    if magicMismatch file then some ⟨tError.errorFileType, false, false, none⟩
    else
      match w.dataFile with
      | none => some ⟨tError.errorFopen, false, false, none⟩
      | some dataToEncode =>
        let b := parseBitmap file w.parseBitmapFseek
        if b.errRtn ≠ tError.success then some ⟨b.errRtn, false, true, none⟩
        else if b.bitsPerPixel ≠ 24 then some ⟨tError.errorFileType, false, true, none⟩
        else
          match copyBitmapData file b.sizeOfData w.copyMalloc w.copyFseek with
          | (err, none) => some ⟨err, false, true, none⟩
          | (_, some pImageData) =>
            if validateSizes file.length (mul32 (mul32 b.width b.height) 3)
                (mul32 b.padding b.height) ≠ tError.success then
              some ⟨tError.errorSize, false, true, none⟩
            else if capacityExceeded b.sizeOfData b.padding b.height dataToEncode.length then
              some ⟨tError.errorSize, false, true, none⟩
            else do
              let e ← encodeDataFileContents dataToEncode w.dataFileName pImageData
                b.sizeOfData b.width b.padding w.encodeFseek w.encodeMalloc
              if e.1 ≠ tError.success then some ⟨e.1, true, true, none⟩
              else
                let errRtn := createOutputBitmap b.sizeOfData w
                some ⟨errRtn, true, true,
                  if errRtn = tError.success then
                    some ([111, 117, 116, 46, 98, 109, 112], file.take 54 ++ e.2)
                  else none⟩

/-- The function `encoding`: the chain, then the two `fclose`, both guarded
by `fpBitmap != NULL`, so that the second is `fclose(NULL)`, undefined
(`none`), when the bitmap was opened and the data file was not.  The function
ends with `return success;`. -/
def encoding (w : World) : Option tError := do
  let c ← encodingChain w
  if w.bitmapFile.isSome ∧ ¬ c.dataFileOpen then none
  else some tError.success

/-- The function `main`: the `int` it returns for `argc` arguments. -/
def main (argc : Nat) (w : World) : Option Nat :=
  if argc = 2 then (decoding w).map tError.code
  else if argc = 3 then (encoding w).map tError.code
  else some tError.errorDefault.code

/-! ## Auxiliary definitions for the proofs -/

/-- A blue or green byte `b` whose 3 data bits are replaced by `f`. -/
def put3 (b f : Nat) : Nat := 8 * (b / 8 % 32) + f

/-- A red byte `r` whose 2 data bits are replaced by `f`. -/
def put2 (r f : Nat) : Nat := 4 * (r / 4 % 64) + f

/-- One pixel store as all three loops perform it: zero the data bits of the
pixel at `c`, then OR in the three fragments of `d`. -/
def writeByte (pData : List Nat) (c d : Nat) : Option (List Nat) :=
  (zeroPixel pData c).bind fun z =>
    orPixel z c (d &&& BLUE_BITMASK) ((d >>> BLUE_BITS) &&& GREEN_BITMASK)
      ((d >>> (BLUE_BITS + GREEN_BITS)) &&& RED_BITMASK)

/-- The buffer after the pixel at `c` has received the byte `d`. -/
def putPixel (pData : List Nat) (c d : Nat) : List Nat :=
  ((pData.set c (put3 (pData.getD c 0) (d % 8))).set (c + 1)
    (put3 (pData.getD (c + 1) 0) (d / 8 % 8))).set (c + 2)
    (put2 (pData.getD (c + 2) 0) (d / 64 % 4))

/-- One iteration as all three embedding loops perform it: move the cursor
with `checkPadding`, store `d` in the pixel there, advance by one pixel. -/
def stepByte (width padding : Nat) (s : EncState) (d : Nat) : Option EncState :=
  (checkPadding s.dataIndex width padding).bind fun c =>
    (writeByte s.pData c d).bind fun q =>
      some ⟨q, c + BYTES_IN_PIXEL, s.visited ++ [c]⟩

/-- The pixel at `c` has, in `q`, the same bits outside the data masks as in
`orig`: `~0x07` for blue and green, `~0x03` for red, as 8-bit masks. -/
def KeepsHighBits (orig q : List Nat) (c : Nat) : Prop :=
  q.getD c 0 &&& 0xF8 = orig.getD c 0 &&& 0xF8 ∧
  q.getD (c + 1) 0 &&& 0xF8 = orig.getD (c + 1) 0 &&& 0xF8 ∧
  q.getD (c + 2) 0 &&& 0xFC = orig.getD (c + 2) 0 &&& 0xFC

instance (orig q : List Nat) (c : Nat) : Decidable (KeepsHighBits orig q c) := by
  unfold KeepsHighBits
  infer_instance

/-- The pixel at `c` of `q` carries the byte `d` in the 3/3/2 split: the low
3 bits of blue are bits 0-2 of `d`, the low 3 bits of green bits 3-5, the low
2 bits of red bits 6-7. -/
def HoldsByte (q : List Nat) (c d : Nat) : Prop :=
  q.getD (c + BLUE) 0 &&& BLUE_BITMASK = d &&& 0x07 ∧
  q.getD (c + GREEN) 0 &&& GREEN_BITMASK = (d >>> 3) &&& 0x07 ∧
  q.getD (c + RED) 0 &&& RED_BITMASK = (d >>> 6) &&& 0x03

instance (q : List Nat) (c d : Nat) : Decidable (HoldsByte q c d) := by
  unfold HoldsByte
  infer_instance

/-- The state `t` is reached from `s` by pixel stores at and after the cursor
of `s`: same length, nothing changed below the old cursor or from the new
cursor on, bytes stay bytes, and every pixel visited in between lies in the
buffer, between the two cursors, with its high bits kept. -/
def Extends (s t : EncState) : Prop :=
  t.pData.length = s.pData.length ∧
  s.dataIndex ≤ t.dataIndex ∧
  (∀ j, j < s.dataIndex → t.pData[j]? = s.pData[j]?) ∧
  (∀ j, t.dataIndex ≤ j → t.pData[j]? = s.pData[j]?) ∧
  ((∀ b ∈ s.pData, b < 256) → ∀ b ∈ t.pData, b < 256) ∧
  ∃ offs, t.visited = s.visited ++ offs ∧
    ∀ c ∈ offs, s.dataIndex ≤ c ∧ c + 3 ≤ t.dataIndex ∧ c + 2 < s.pData.length ∧
      KeepsHighBits s.pData t.pData c

/-! ## Example data -/

/-- A carrier of `n` bytes `0xFF`. -/
def whiteCarrier (n : Nat) : List Nat := List.replicate n 255

/-- The state after `whiteCarrier 36`, 4 pixels wide, has received the payload `0xAB` with
extension `txt`. -/
def exampleEmbedded : EncState :=
  ⟨[249, 248, 252, 248, 248, 252, 248, 248, 252, 248, 248, 252, 248, 248, 252,
    248, 248, 252, 248, 248, 252, 248, 248, 252, 252, 254, 253, 248, 255, 253,
    252, 254, 253, 251, 253, 254], 36, [0, 3, 6, 9, 12, 15, 18, 21, 24, 27, 30, 33]⟩

/-! ## Auxiliary definitions for the round trip -/

/-- The values `L >> bitShift`, `L >> (bitShift + 8)`, ... whose low bytes
the length loop stores, `n` of them. -/
def lengthBytes (L : Nat) : Nat → Nat → List Nat
  | _, 0 => []
  | bitShift, n + 1 => (L >>> bitShift) :: lengthBytes L (bitShift + 8) n

/-- The value `*pEncodedDataSize` after the length loop of `parseEncodedData`
has read pixels that hold the bytes `ds`, starting with the given
accumulator and shift count. -/
def sizeFold : Nat → Nat → List Nat → Nat
  | acc, _, [] => acc
  | acc, bitShift, d :: ds =>
    sizeFold (((acc ||| shlInt (d &&& 0x07) bitShift)
      ||| shlInt ((d >>> 3) &&& 0x07) (bitShift + 3))
      ||| shlInt ((d >>> 6) &&& 0x03) (bitShift + 6)) (bitShift + 8) ds

/-! ## Auxiliary definitions for extraction -/

/-- The unsigned little-endian value of a list of bytes:
`sum over k of byte_k * 2 ^ (8 * k)`. -/
def littleEndianValue : List Nat → Nat
  | [] => 0
  | b :: rest => b + 256 * littleEndianValue rest

/-- A 72-byte pixel buffer (4 x 6 pixels) whose data bits are all zero except
bit 1 of the red byte of the fourth pixel, at byte offset 11: the eight length
pixels carry the bytes `0, 0, 0, 0x80, 0, 0, 0, 0`, the field value `2 ^ 31`. -/
def bit31Buffer : List Nat := List.replicate 11 0 ++ [2] ++ List.replicate 60 0

/-- A 72-byte pixel buffer (4 x 6 pixels) of zeros except the blue and green
byte of the first pixel, which carry the length byte 14: the length field
asks for 14 payload pixels where 13 remain after the 11 header pixels. -/
def length14Buffer : List Nat := [6, 1] ++ List.replicate 70 0

/-- The four bytes of a 32-bit header field, least significant first. -/
def bytesLE32 (n : Nat) : List Nat :=
  [n % 256, n / 256 % 256, n / 65536 % 256, n / 16777216 % 256]

/-- The 54 bytes of the two headers of a bitmap file: the two magic bytes,
the file size, `offsetbits = 54`, the info header size 40, width, height,
one plane, the bit depth, and zeros for the remaining fields. -/
def exampleHeader (magic0 magic1 fileSize width height bitsPerPixel : Nat) : List Nat :=
  [magic0, magic1] ++ bytesLE32 fileSize ++ [0, 0, 0, 0] ++ bytesLE32 54 ++ bytesLE32 40
    ++ bytesLE32 width ++ bytesLE32 height ++ [1, 0]
    ++ [bitsPerPixel % 256, bitsPerPixel / 256 % 256] ++ List.replicate 24 0

/-- A world with the given files in which every library call succeeds. -/
def exampleWorld (bitmapFile : Option (List Nat)) (dataFileName : List Nat)
    (dataFile : Option (List Nat)) : World :=
  ⟨bitmapFile, dataFileName, dataFile, true, true, true, true, true, true, true, true, true,
    true, true, true⟩

/-- A well-formed 4 x 6 bitmap file (54 + 72 bytes) with the given magic bytes
and bit depth, all pixel bytes `0xFF`. -/
def exampleBitmap (magic0 magic1 bitsPerPixel : Nat) : List Nat :=
  exampleHeader magic0 magic1 126 4 6 bitsPerPixel ++ whiteCarrier 72

/-- The offsets `visited` are in cursor order below `cursor`: each is at
least 3 above every earlier one, and the cursor is at least 3 above all of
them. -/
def CursorOrdered (visited : List Nat) (cursor : Nat) : Prop :=
  visited.Pairwise (fun a b => a + 3 ≤ b) ∧ ∀ c ∈ visited, c + 3 ≤ cursor

/-- The buffer after `whiteCarrier 48`, 2 pixels wide with 2 bytes of row
padding, has received the payload `0xAB 0xCD` of the file `a.txt`. -/
def examplePaddedEmbedded : List Nat :=
  [250, 248, 252, 255, 255, 248, 248, 252, 248, 248, 252, 255, 255, 248, 248, 252,
   248, 248, 252, 255, 255, 248, 248, 252, 252, 254, 253, 255, 255, 248, 255, 253,
   252, 254, 253, 255, 255, 251, 253, 254, 253, 249, 255, 255, 255, 255, 255, 255]

/-- The pixel at offset `c` carries the same data bits in `q1` and `q2`: the
bytes agree under `BLUE_BITMASK`, `GREEN_BITMASK` and `RED_BITMASK`. -/
def LowBitsAgree (q1 q2 : List Nat) (c : Nat) : Prop :=
  q1.getD (c + BLUE) 0 &&& BLUE_BITMASK = q2.getD (c + BLUE) 0 &&& BLUE_BITMASK ∧
  q1.getD (c + GREEN) 0 &&& GREEN_BITMASK = q2.getD (c + GREEN) 0 &&& GREEN_BITMASK ∧
  q1.getD (c + RED) 0 &&& RED_BITMASK = q2.getD (c + RED) 0 &&& RED_BITMASK

instance (q1 q2 : List Nat) (c : Nat) : Decidable (LowBitsAgree q1 q2 c) := by
  unfold LowBitsAgree
  infer_instance

/-- The buffer after `whiteCarrier 72`, 4 pixels wide without row padding, has
received the payload `0xAB 0xCD` with extension `txt`. -/
def exampleEmbedded72 : List Nat :=
  [250, 248, 252, 248, 248, 252, 248, 248, 252, 248, 248, 252, 248, 248, 252, 248, 248, 252,
   248, 248, 252, 248, 248, 252, 252, 254, 253, 248, 255, 253, 252, 254, 253, 251, 253, 254,
   253, 249, 255] ++ List.replicate 33 255

/-- A buffer with the data bits of `exampleEmbedded72` in its first 13 pixels
and every other bit zero. -/
def exampleDataBits72 : List Nat :=
  [2, 0, 0, 0, 0, 0, 0, 0, 0, 0, 0, 0, 0, 0, 0, 0, 0, 0,
   0, 0, 0, 0, 0, 0, 4, 6, 1, 0, 7, 1, 4, 6, 1, 3, 5, 2,
   5, 1, 3] ++ List.replicate 33 0

/-! ## Byte arithmetic -/

theorem and_low_byte (b m : Nat) (hm : m < 256) : b &&& m = (b % 256) &&& m := by
  have h1 : (b % 256) = b &&& (2 ^ 8 - 1) := (Nat.and_pow_two_sub_one_eq_mod b 8).symm
  have h2 : (2 ^ 8 - 1) &&& m = m := by
    rw [Nat.and_comm]
    exact Nat.and_pow_two_sub_one_of_lt_two_pow (by norm_num; exact hm)
  rw [h1, Nat.and_assoc, h2]

set_option maxRecDepth 8000 in
theorem and_248_byte : ∀ y < 256, y &&& 248 = 8 * (y / 8 % 32) := by decide

set_option maxRecDepth 8000 in
theorem and_252_byte : ∀ y < 256, y &&& 252 = 4 * (y / 4 % 64) := by decide

theorem and_248 (b : Nat) : b &&& 248 = 8 * (b / 8 % 32) := by
  have key := and_248_byte
  rw [and_low_byte b 248 (by norm_num), key _ (Nat.mod_lt _ (by norm_num))]
  omega

theorem and_252 (b : Nat) : b &&& 252 = 4 * (b / 4 % 64) := by
  have key := and_252_byte
  rw [and_low_byte b 252 (by norm_num), key _ (Nat.mod_lt _ (by norm_num))]
  omega

theorem and_7 (b : Nat) : b &&& 7 = b % 8 := Nat.and_pow_two_sub_one_eq_mod b 3

theorem and_3 (b : Nat) : b &&& 3 = b % 4 := Nat.and_pow_two_sub_one_eq_mod b 2

theorem and_255 (b : Nat) : b &&& 255 = b % 256 := Nat.and_pow_two_sub_one_eq_mod b 8

theorem clear_blue (b : Nat) : (b &&& bitNot BLUE_BITMASK) % 256 = 8 * (b / 8 % 32) := by
  have h : (4294967288 : Nat) &&& 255 = 248 := by decide
  show (b &&& 4294967288) % 256 = _
  rw [← and_255, Nat.and_assoc, h, and_248]

theorem clear_red (b : Nat) : (b &&& bitNot RED_BITMASK) % 256 = 4 * (b / 4 % 64) := by
  have h : (4294967292 : Nat) &&& 255 = 252 := by decide
  show (b &&& 4294967292) % 256 = _
  rw [← and_255, Nat.and_assoc, h, and_252]

theorem or_low (a f : Nat) (k : Nat) (hf : f < 2 ^ k) : 2 ^ k * a ||| f = 2 ^ k * a + f :=
  (Nat.mul_add_lt_is_or hf a).symm

theorem or_frag8 (a f : Nat) (hf : f < 8) : (8 * a ||| f) = 8 * a + f :=
  or_low a f 3 hf

theorem or_frag4 (a f : Nat) (hf : f < 4) : (4 * a ||| f) = 4 * a + f :=
  or_low a f 2 hf

/-! ## Pixel stores -/

theorem andAssign_of_lt (pData : List Nat) (i m : Nat) (h : i < pData.length) :
    andAssign pData i m = some (pData.set i ((pData.getD i 0 &&& m) % 256)) := by
  simp [andAssign, List.getD_eq_getElem?_getD, List.getElem?_eq_getElem h]

theorem andAssign_of_le (pData : List Nat) (i m : Nat) (h : pData.length ≤ i) :
    andAssign pData i m = none := by
  simp [andAssign, List.getElem?_eq_none h]

theorem orAssign_of_lt (pData : List Nat) (i v : Nat) (h : i < pData.length) :
    orAssign pData i v = some (pData.set i ((pData.getD i 0 ||| v) % 256)) := by
  simp [orAssign, List.getD_eq_getElem?_getD, List.getElem?_eq_getElem h]

theorem orAssign_of_le (pData : List Nat) (i v : Nat) (h : pData.length ≤ i) :
    orAssign pData i v = none := by
  simp [orAssign, List.getElem?_eq_none h]

theorem getD_set_self (l : List Nat) (i v : Nat) (h : i < l.length) :
    (l.set i v).getD i 0 = v := by
  simp [List.getD_eq_getElem?_getD, List.getElem?_set, h]

theorem getD_set_ne (l : List Nat) (i j v : Nat) (h : i ≠ j) :
    (l.set i v).getD j 0 = l.getD j 0 := by
  simp [List.getD_eq_getElem?_getD, List.getElem?_set, h]

theorem zeroPixel_of_lt (pData : List Nat) (c : Nat) (h : c + 2 < pData.length) :
    zeroPixel pData c =
      some (((pData.set c (8 * (pData.getD c 0 / 8 % 32))).set (c + 1)
        (8 * (pData.getD (c + 1) 0 / 8 % 32))).set (c + 2)
        (4 * (pData.getD (c + 2) 0 / 4 % 64))) := by
  have h0 : c < pData.length := by omega
  have h1 : c + 1 < pData.length := by omega
  simp only [zeroPixel, BLUE, GREEN, RED, Nat.add_zero, bind, Option.bind]
  rw [andAssign_of_lt _ _ _ h0]
  simp only []
  rw [andAssign_of_lt _ _ _ (by simpa using h1)]
  simp only []
  rw [andAssign_of_lt _ _ _ (by simpa using h)]
  rw [getD_set_ne _ _ _ _ (by omega), getD_set_ne _ _ _ _ (by omega),
    getD_set_ne _ _ _ _ (by omega), clear_blue, clear_red]
  have := clear_blue (pData.getD (c + 1) 0)
  simp only [BLUE_BITMASK, GREEN_BITMASK] at this ⊢
  rw [this]

theorem zeroPixel_of_le (pData : List Nat) (c : Nat) (h : pData.length ≤ c + 2) :
    zeroPixel pData c = none := by
  simp only [zeroPixel, BLUE, GREEN, RED, Nat.add_zero, bind, Option.bind]
  by_cases h0 : c < pData.length
  · rw [andAssign_of_lt _ _ _ h0]
    simp only []
    by_cases h1 : c + 1 < pData.length
    · rw [andAssign_of_lt _ _ _ (by simpa using h1)]
      simp only []
      rw [andAssign_of_le _ _ _ (by simpa using h)]
    · rw [andAssign_of_le _ _ _ (by simp; omega)]
  · rw [andAssign_of_le _ _ _ (by omega)]

theorem orPixel_of_lt (z : List Nat) (c b g r : Nat) (h : c + 2 < z.length) :
    orPixel z c b g r =
      some (((z.set c ((z.getD c 0 ||| b) % 256)).set (c + 1)
        ((z.getD (c + 1) 0 ||| g) % 256)).set (c + 2)
        ((z.getD (c + 2) 0 ||| r) % 256)) := by
  have h0 : c < z.length := by omega
  have h1 : c + 1 < z.length := by omega
  simp only [orPixel, BLUE, GREEN, RED, Nat.add_zero, bind, Option.bind]
  rw [orAssign_of_lt _ _ _ h0]
  simp only []
  rw [orAssign_of_lt _ _ _ (by simpa using h1)]
  simp only []
  rw [orAssign_of_lt _ _ _ (by simpa using h)]
  rw [getD_set_ne _ _ _ _ (by omega), getD_set_ne _ _ _ _ (by omega),
    getD_set_ne _ _ _ _ (by omega)]

theorem put3_or (b f : Nat) (hf : f < 8) :
    (8 * (b / 8 % 32) ||| f) % 256 = put3 b f := by
  rw [or_frag8 _ _ hf]
  unfold put3
  omega

theorem put2_or (b f : Nat) (hf : f < 4) :
    (4 * (b / 4 % 64) ||| f) % 256 = put2 b f := by
  rw [or_frag4 _ _ hf]
  unfold put2
  omega

theorem frag_blue (d : Nat) : d &&& BLUE_BITMASK = d % 8 := and_7 d

theorem frag_green (d : Nat) : (d >>> BLUE_BITS) &&& GREEN_BITMASK = d / 8 % 8 := by
  show (d >>> 3) &&& 7 = _
  rw [and_7, Nat.shiftRight_eq_div_pow]

theorem frag_red (d : Nat) : (d >>> (BLUE_BITS + GREEN_BITS)) &&& RED_BITMASK = d / 64 % 4 := by
  show (d >>> 6) &&& 3 = _
  rw [and_3, Nat.shiftRight_eq_div_pow]

theorem writeByte_of_lt (pData : List Nat) (c d : Nat) (h : c + 2 < pData.length) :
    writeByte pData c d = some (putPixel pData c d) := by
  unfold writeByte
  rw [zeroPixel_of_lt _ _ h]
  simp only [Option.bind]
  rw [orPixel_of_lt _ _ _ _ _ (by simpa using h), frag_blue, frag_green, frag_red]
  unfold putPixel
  have h0 : c < pData.length := by omega
  have h1 : c + 1 < pData.length := by omega
  congr 1
  apply List.ext_getElem?
  intro j
  simp only [List.getElem?_set, List.length_set, List.getD_eq_getElem?_getD]
  by_cases e2 : c + 2 = j
  · subst e2
    simp [h, put2_or _ _ (Nat.mod_lt _ (by norm_num : 4 > 0))]
  · by_cases e1 : c + 1 = j
    · subst e1
      simp [h1, put3_or _ _ (Nat.mod_lt _ (by norm_num : 8 > 0))]
    · by_cases e0 : c = j
      · subst e0
        simp [h0, put3_or _ _ (Nat.mod_lt _ (by norm_num : 8 > 0))]
      · simp [e0, e1, e2]

theorem writeByte_of_le (pData : List Nat) (c d : Nat) (h : pData.length ≤ c + 2) :
    writeByte pData c d = none := by
  unfold writeByte
  rw [zeroPixel_of_le _ _ h]
  rfl

theorem writeByte_some {pData q : List Nat} {c d : Nat} (h : writeByte pData c d = some q) :
    c + 2 < pData.length ∧ q = putPixel pData c d := by
  by_cases hc : c + 2 < pData.length
  · rw [writeByte_of_lt _ _ _ hc] at h
    exact ⟨hc, (Option.some.inj h).symm⟩
  · rw [writeByte_of_le _ _ _ (by omega)] at h
    exact absurd h (by simp)

theorem putPixel_length (pData : List Nat) (c d : Nat) :
    (putPixel pData c d).length = pData.length := by
  simp [putPixel]

theorem putPixel_getElem?_of_ne (pData : List Nat) (c d j : Nat) (h : j < c ∨ c + 3 ≤ j) :
    (putPixel pData c d)[j]? = pData[j]? := by
  unfold putPixel
  rw [List.getElem?_set_ne (by omega), List.getElem?_set_ne (by omega),
    List.getElem?_set_ne (by omega)]

theorem putPixel_getD_of_ne (pData : List Nat) (c d j : Nat) (h : j < c ∨ c + 3 ≤ j) :
    (putPixel pData c d).getD j 0 = pData.getD j 0 := by
  simp only [List.getD_eq_getElem?_getD, putPixel_getElem?_of_ne _ _ _ _ h]

theorem putPixel_blue (pData : List Nat) (c d : Nat) (h : c + 2 < pData.length) :
    (putPixel pData c d).getD c 0 = put3 (pData.getD c 0) (d % 8) := by
  unfold putPixel
  rw [getD_set_ne _ _ _ _ (by omega), getD_set_ne _ _ _ _ (by omega),
    getD_set_self _ _ _ (by omega)]

theorem putPixel_green (pData : List Nat) (c d : Nat) (h : c + 2 < pData.length) :
    (putPixel pData c d).getD (c + 1) 0 = put3 (pData.getD (c + 1) 0) (d / 8 % 8) := by
  unfold putPixel
  rw [getD_set_ne _ _ _ _ (by omega), getD_set_self _ _ _ (by simp; omega)]

theorem putPixel_red (pData : List Nat) (c d : Nat) (h : c + 2 < pData.length) :
    (putPixel pData c d).getD (c + 2) 0 = put2 (pData.getD (c + 2) 0) (d / 64 % 4) := by
  unfold putPixel
  rw [getD_set_self _ _ _ (by simp; omega)]

/-! ## The loops as sequences of pixel stores -/

theorem checkPadding_some {i w p c : Nat} (h : checkPadding i w p = some c) :
    w ≠ 0 ∧ i ≤ c ∧ (c = i ∨ c = i + p) := by
  unfold checkPadding at h
  split at h
  · exact absurd h (by simp)
  · split at h
    · have := Option.some.inj h
      omega
    · have := Option.some.inj h
      omega

theorem checkPadding_zero_padding (i w : Nat) (hw : 1 ≤ w) : checkPadding i w 0 = some i := by
  unfold checkPadding
  have : w ≠ 0 := by omega
  simp [this]

theorem payloadLoop_cons (w p d : Nat) (ds : List Nat) (s : EncState) :
    payloadLoop w p (d :: ds) s = (stepByte w p s d).bind (payloadLoop w p ds) := by
  simp only [payloadLoop, stepByte, writeByte, bind, Option.bind]
  cases checkPadding s.dataIndex w p with
  | none => rfl
  | some c =>
    simp only []
    cases zeroPixel s.pData c with
    | none => rfl
    | some z =>
      simp only []
      cases orPixel z c (d &&& BLUE_BITMASK) ((d >>> BLUE_BITS) &&& GREEN_BITMASK)
        ((d >>> (BLUE_BITS + GREEN_BITS)) &&& RED_BITMASK) with
      | none => rfl
      | some q => rfl

theorem lengthLoop_succ (L w p fuel bs : Nat) (s : EncState) :
    lengthLoop L w p (fuel + 1) s bs =
      if s.dataIndex < PIXELS_TO_STORE_DATA_LEN then
        (stepByte w p s (L >>> bs)).bind fun t => lengthLoop L w p fuel t (bs + 8)
      else some s := by
  simp only [lengthLoop, stepByte, writeByte, bind, Option.bind]
  split
  · cases checkPadding s.dataIndex w p with
    | none => rfl
    | some c =>
      simp only []
      cases zeroPixel s.pData c with
      | none => rfl
      | some z =>
        simp only [BLUE_BITS, GREEN_BITS, RED_BITS, Nat.shiftRight_add]
        cases orPixel z c ((L >>> bs) &&& BLUE_BITMASK) (((L >>> bs) >>> 3) &&& GREEN_BITMASK)
          ((((L >>> bs) >>> 3) >>> 3) &&& RED_BITMASK) with
        | none => rfl
        | some q => rfl
  · rfl

theorem writeByte_zero (pData : List Nat) (c : Nat) : writeByte pData c 0 = zeroPixel pData c := by
  by_cases h : c + 2 < pData.length
  · rw [writeByte_of_lt _ _ _ h, zeroPixel_of_lt _ _ h]
    simp [putPixel, put3, put2]
  · rw [writeByte_of_le _ _ _ (by omega), zeroPixel_of_le _ _ (by omega)]

theorem extensionLoop_succ (ext : List Nat) (w p n i : Nat) (s : EncState) :
    extensionLoop ext w p (n + 1) s i =
      (ext[i]?).bind fun c =>
        (stepByte w p s c).bind fun t => extensionLoop ext w p n t (i + 1) := by
  simp only [extensionLoop, stepByte, bind, Option.bind]
  cases hc : checkPadding s.dataIndex w p with
  | none => cases ext[i]? <;> rfl
  | some c =>
    simp only []
    cases he : ext[i]? with
    | none => cases zeroPixel s.pData c <;> rfl
    | some e =>
      simp only []
      by_cases h0 : e = 0
      · subst h0
        rw [writeByte_zero]
        cases zeroPixel s.pData c with
        | none => rfl
        | some z => simp
      · unfold writeByte
        cases zeroPixel s.pData c with
        | none => rfl
        | some z =>
          simp only [ne_eq, h0, not_false_eq_true, if_true, Option.bind]
          cases orPixel z c (e &&& BLUE_BITMASK) ((e >>> BLUE_BITS) &&& GREEN_BITMASK)
            ((e >>> (BLUE_BITS + GREEN_BITS)) &&& RED_BITMASK) <;> rfl

/-! ## Frame of the embedding loops -/

theorem getD_congr {a b : List Nat} {j : Nat} (h : a[j]? = b[j]?) : a.getD j 0 = b.getD j 0 := by
  simp only [List.getD_eq_getElem?_getD, h]

theorem put3_high (b f : Nat) (hf : f < 8) : put3 b f &&& 0xF8 = b &&& 0xF8 := by
  rw [and_248, and_248]
  unfold put3
  omega

theorem put2_high (b f : Nat) (hf : f < 4) : put2 b f &&& 0xFC = b &&& 0xFC := by
  rw [and_252, and_252]
  unfold put2
  omega

theorem put3_low (b f : Nat) (hf : f < 8) : put3 b f % 8 = f := by
  unfold put3
  omega

theorem put2_low (b f : Nat) (hf : f < 4) : put2 b f % 4 = f := by
  unfold put2
  omega

theorem put3_lt (b f : Nat) (hf : f < 8) : put3 b f < 256 := by
  unfold put3
  omega

theorem put2_lt (b f : Nat) (hf : f < 4) : put2 b f < 256 := by
  unfold put2
  omega

theorem putPixel_keeps (pData : List Nat) (c d : Nat) (h : c + 2 < pData.length) :
    KeepsHighBits pData (putPixel pData c d) c := by
  refine ⟨?_, ?_, ?_⟩
  · rw [putPixel_blue _ _ _ h]
    exact put3_high _ _ (Nat.mod_lt _ (by norm_num))
  · rw [putPixel_green _ _ _ h]
    exact put3_high _ _ (Nat.mod_lt _ (by norm_num))
  · rw [putPixel_red _ _ _ h]
    exact put2_high _ _ (Nat.mod_lt _ (by norm_num))

theorem putPixel_bytes (pData : List Nat) (c d : Nat) (h : ∀ b ∈ pData, b < 256) :
    ∀ b ∈ putPixel pData c d, b < 256 := by
  intro b hb
  unfold putPixel at hb
  rcases List.mem_or_eq_of_mem_set hb with hb | rfl
  · rcases List.mem_or_eq_of_mem_set hb with hb | rfl
    · rcases List.mem_or_eq_of_mem_set hb with hb | rfl
      · exact h b hb
      · exact put3_lt _ _ (Nat.mod_lt _ (by norm_num))
    · exact put3_lt _ _ (Nat.mod_lt _ (by norm_num))
  · exact put2_lt _ _ (Nat.mod_lt _ (by norm_num))

theorem stepByte_some {w p d : Nat} {s t : EncState} (h : stepByte w p s d = some t) :
    ∃ c, checkPadding s.dataIndex w p = some c ∧ c + 2 < s.pData.length ∧
      t = ⟨putPixel s.pData c d, c + 3, s.visited ++ [c]⟩ := by
  unfold stepByte at h
  cases hc : checkPadding s.dataIndex w p with
  | none => rw [hc] at h; exact absurd h (by simp)
  | some c =>
    rw [hc] at h
    simp only [Option.bind] at h
    cases hq : writeByte s.pData c d with
    | none => rw [hq] at h; exact absurd h (by simp)
    | some q =>
      rw [hq] at h
      obtain ⟨hlt, rfl⟩ := writeByte_some hq
      exact ⟨c, rfl, hlt, (Option.some.inj h).symm⟩

theorem stepByte_of_lt {w p d c : Nat} {s : EncState}
    (hc : checkPadding s.dataIndex w p = some c) (h : c + 2 < s.pData.length) :
    stepByte w p s d = some ⟨putPixel s.pData c d, c + 3, s.visited ++ [c]⟩ := by
  unfold stepByte
  rw [hc]
  simp only [Option.bind]
  rw [writeByte_of_lt _ _ _ h]
  rfl

theorem Extends.refl (s : EncState) : Extends s s :=
  ⟨rfl, le_refl _, fun _ _ => rfl, fun _ _ => rfl, fun h => h, [], by simp, by simp⟩

theorem Extends.trans {s t u : EncState} (h1 : Extends s t) (h2 : Extends t u) :
    Extends s u := by
  obtain ⟨l1, i1, lo1, hi1, b1, o1, v1, k1⟩ := h1
  obtain ⟨l2, i2, lo2, hi2, b2, o2, v2, k2⟩ := h2
  refine ⟨l2.trans l1, le_trans i1 i2, ?_, ?_, fun h => b2 (b1 h), o1 ++ o2, ?_, ?_⟩
  · intro j hj
    rw [lo2 j (by omega), lo1 j hj]
  · intro j hj
    rw [hi2 j hj, hi1 j (by omega)]
  · rw [v2, v1, List.append_assoc]
  · intro c hc
    rcases List.mem_append.1 hc with hc | hc
    · obtain ⟨a, b, cc, kb, kg, kr⟩ := k1 c hc
      refine ⟨a, by omega, cc, ?_, ?_, ?_⟩
      · rw [getD_congr (lo2 c (by omega))]; exact kb
      · rw [getD_congr (lo2 (c + 1) (by omega))]; exact kg
      · rw [getD_congr (lo2 (c + 2) (by omega))]; exact kr
    · obtain ⟨a, b, cc, kb, kg, kr⟩ := k2 c hc
      refine ⟨by omega, b, by omega, ?_, ?_, ?_⟩
      · rw [kb, getD_congr (hi1 c (by omega))]
      · rw [kg, getD_congr (hi1 (c + 1) (by omega))]
      · rw [kr, getD_congr (hi1 (c + 2) (by omega))]

theorem stepByte_extends {w p d : Nat} {s t : EncState} (h : stepByte w p s d = some t) :
    Extends s t := by
  obtain ⟨c, hc, hlt, rfl⟩ := stepByte_some h
  obtain ⟨_, hle, _⟩ := checkPadding_some hc
  refine ⟨putPixel_length _ _ _, by simp; omega, ?_, ?_, putPixel_bytes _ _ _, [c], rfl, ?_⟩
  · intro j hj
    exact putPixel_getElem?_of_ne _ _ _ _ (Or.inl (by omega))
  · intro j hj
    exact putPixel_getElem?_of_ne _ _ _ _ (Or.inr (by simpa using hj))
  · intro c1 hc1
    rw [List.mem_singleton] at hc1
    subst hc1
    exact ⟨hle, le_refl _, hlt, putPixel_keeps _ _ _ hlt⟩

theorem payloadLoop_extends (w p : Nat) (ds : List Nat) :
    ∀ (s t : EncState), payloadLoop w p ds s = some t → Extends s t := by
  induction ds with
  | nil =>
    intro s t h
    simp only [payloadLoop] at h
    rw [← Option.some.inj h]
    exact Extends.refl s
  | cons d ds ih =>
    intro s t h
    rw [payloadLoop_cons] at h
    cases h1 : stepByte w p s d with
    | none => rw [h1] at h; exact absurd h (by simp)
    | some s1 =>
      rw [h1] at h
      exact (stepByte_extends h1).trans (ih s1 t h)

theorem lengthLoop_extends (L w p : Nat) (fuel : Nat) :
    ∀ (s t : EncState) (bs : Nat), lengthLoop L w p fuel s bs = some t → Extends s t := by
  induction fuel with
  | zero =>
    intro s t bs h
    simp only [lengthLoop] at h
    rw [← Option.some.inj h]
    exact Extends.refl s
  | succ fuel ih =>
    intro s t bs h
    rw [lengthLoop_succ] at h
    split at h
    · cases h1 : stepByte w p s (L >>> bs) with
      | none => rw [h1] at h; exact absurd h (by simp)
      | some s1 =>
        rw [h1] at h
        exact (stepByte_extends h1).trans (ih s1 t _ h)
    · rw [← Option.some.inj h]
      exact Extends.refl s

theorem extensionLoop_extends (ext : List Nat) (w p : Nat) (n : Nat) :
    ∀ (s t : EncState) (i : Nat), extensionLoop ext w p n s i = some t → Extends s t := by
  induction n with
  | zero =>
    intro s t i h
    simp only [extensionLoop] at h
    rw [← Option.some.inj h]
    exact Extends.refl s
  | succ n ih =>
    intro s t i h
    rw [extensionLoop_succ] at h
    cases he : ext[i]? with
    | none => rw [he] at h; exact absurd h (by simp)
    | some e =>
      rw [he] at h
      simp only [Option.bind] at h
      cases h1 : stepByte w p s e with
      | none => rw [h1] at h; exact absurd h (by simp)
      | some s1 =>
        rw [h1] at h
        exact (stepByte_extends h1).trans (ih s1 t _ h)

theorem encodeLoops_extends {ext pData P : List Nat} {w p : Nat} {out : EncState}
    (h : encodeDataFileContentsLoops ext pData P w p = some out) :
    Extends ⟨pData, 0, []⟩ out := by
  unfold encodeDataFileContentsLoops at h
  simp only [bind, Option.bind] at h
  cases h1 : lengthLoop P.length w p 8 ⟨pData, 0, []⟩ 0 with
  | none => rw [h1] at h; exact absurd h (by simp)
  | some s1 =>
    rw [h1] at h
    simp only [] at h
    cases h2 : extensionLoop ext w p EXTENSION_SIZE s1 0 with
    | none => rw [h2] at h; exact absurd h (by simp)
    | some s2 =>
      rw [h2] at h
      exact ((lengthLoop_extends _ _ _ _ _ _ _ h1).trans
        (extensionLoop_extends _ _ _ _ _ _ _ h2)).trans (payloadLoop_extends _ _ _ _ _ h)

theorem putPixel_holds (pData : List Nat) (c d : Nat) (h : c + 2 < pData.length) :
    HoldsByte (putPixel pData c d) c d := by
  have e3 : (d >>> 3) &&& 7 = d / 8 % 8 := frag_green d
  have e6 : (d >>> 6) &&& 3 = d / 64 % 4 := frag_red d
  unfold HoldsByte
  simp only [BLUE, GREEN, RED, BLUE_BITMASK, GREEN_BITMASK, RED_BITMASK, Nat.add_zero]
  rw [putPixel_blue _ _ _ h, putPixel_green _ _ _ h, putPixel_red _ _ _ h, e3, e6,
    and_7, and_7, and_7, and_3]
  exact ⟨put3_low _ _ (Nat.mod_lt _ (by norm_num)), put3_low _ _ (Nat.mod_lt _ (by norm_num)),
    put2_low _ _ (Nat.mod_lt _ (by norm_num))⟩

theorem HoldsByte.congr {q q1 : List Nat} {c d : Nat} (h : HoldsByte q c d)
    (e : ∀ j, j < c + 3 → q1[j]? = q[j]?) : HoldsByte q1 c d := by
  unfold HoldsByte at h ⊢
  simp only [BLUE, GREEN, RED, Nat.add_zero] at h ⊢
  rw [getD_congr (e c (by omega)), getD_congr (e (c + 1) (by omega)),
    getD_congr (e (c + 2) (by omega))]
  exact h

/-- The fuel of the length loop is enough: started with `fuel` units and
`24 ≤ dataIndex + 3 * fuel`, the loop ends by its own exit test. -/
theorem lengthLoop_exit (L w p : Nat) (fuel : Nat) :
    ∀ (s t : EncState) (bs : Nat), lengthLoop L w p fuel s bs = some t →
      PIXELS_TO_STORE_DATA_LEN ≤ s.dataIndex + 3 * fuel →
      PIXELS_TO_STORE_DATA_LEN ≤ t.dataIndex := by
  induction fuel with
  | zero =>
    intro s t bs h hf
    simp only [lengthLoop] at h
    rw [← Option.some.inj h]
    simpa using hf
  | succ fuel ih =>
    intro s t bs h hf
    rw [lengthLoop_succ] at h
    split at h
    · cases h1 : stepByte w p s (L >>> bs) with
      | none => rw [h1] at h; exact absurd h (by simp)
      | some s1 =>
        rw [h1] at h
        obtain ⟨c, hc, _, rfl⟩ := stepByte_some h1
        obtain ⟨_, hle, _⟩ := checkPadding_some hc
        exact ih _ t _ h (by simp only []; omega)
    · rw [← Option.some.inj h]
      omega

/-! ## Round trip of a sequence of pixel stores -/

theorem payloadLoop_append (w p : Nat) (xs ys : List Nat) :
    ∀ (s : EncState), payloadLoop w p (xs ++ ys) s =
      (payloadLoop w p xs s).bind (payloadLoop w p ys) := by
  induction xs with
  | nil => intro s; rfl
  | cons x xs ih =>
    intro s
    rw [List.cons_append, payloadLoop_cons, payloadLoop_cons]
    cases stepByte w p s x with
    | none => rfl
    | some s1 => exact ih s1

theorem lengthLoop_eq_payloadLoop (L w : Nat) (fuel : Nat) :
    ∀ (s : EncState) (bs : Nat), s.dataIndex + 3 * fuel = 24 →
      lengthLoop L w 0 fuel s bs = payloadLoop w 0 (lengthBytes L bs fuel) s := by
  induction fuel with
  | zero => intro s bs _; rfl
  | succ fuel ih =>
    intro s bs hs
    rw [lengthLoop_succ, lengthBytes, payloadLoop_cons]
    have hlt : s.dataIndex < PIXELS_TO_STORE_DATA_LEN := by
      show s.dataIndex < 24
      omega
    rw [if_pos hlt]
    cases h1 : stepByte w 0 s (L >>> bs) with
    | none => rfl
    | some s1 =>
      obtain ⟨c, hc, _, rfl⟩ := stepByte_some h1
      obtain ⟨_, _, hcc⟩ := checkPadding_some hc
      exact ih _ _ (by simp only []; omega)

theorem extensionLoop_eq_payloadLoop (ext : List Nat) (w p : Nat) (n : Nat) :
    ∀ (s : EncState) (i : Nat), i + n ≤ ext.length →
      extensionLoop ext w p n s i = payloadLoop w p ((ext.drop i).take n) s := by
  induction n with
  | zero => intro s i _; simp [extensionLoop, payloadLoop]
  | succ n ih =>
    intro s i hi
    rw [extensionLoop_succ]
    have hlt : i < ext.length := by omega
    rw [List.getElem?_eq_getElem hlt, List.drop_eq_getElem_cons hlt, List.take_succ_cons,
      payloadLoop_cons]
    simp only [Option.bind]
    cases stepByte w p s ext[i] with
    | none => rfl
    | some s1 => exact ih s1 (i + 1) (by omega)

theorem payloadLoop_succeeds (w : Nat) (hw : 1 ≤ w) (ds : List Nat) :
    ∀ (s : EncState), s.dataIndex + 3 * ds.length ≤ s.pData.length →
      ∃ t, payloadLoop w 0 ds s = some t ∧ t.dataIndex = s.dataIndex + 3 * ds.length := by
  induction ds with
  | nil => intro s _; exact ⟨s, rfl, by simp⟩
  | cons d ds ih =>
    intro s hs
    simp only [List.length_cons] at hs
    rw [payloadLoop_cons, stepByte_of_lt (checkPadding_zero_padding _ _ hw) (by omega)]
    simp only [Option.bind]
    obtain ⟨t, ht, hi⟩ := ih ⟨putPixel s.pData s.dataIndex d, s.dataIndex + 3,
      s.visited ++ [s.dataIndex]⟩ (by simp only [putPixel_length]; omega)
    exact ⟨t, ht, by simp only [List.length_cons] at hi ⊢; omega⟩

theorem readPixel_of_holds (q : List Nat) (c d : Nat) (hlt : c + 2 < q.length)
    (h : HoldsByte q c d) : readPixel q c = some (d % 256) := by
  unfold HoldsByte at h
  simp only [BLUE, GREEN, RED, Nat.add_zero, BLUE_BITMASK, GREEN_BITMASK, RED_BITMASK] at h
  obtain ⟨hb, hg, hr⟩ := h
  have e3 : (d >>> 3) &&& 7 = d / 8 % 8 := frag_green d
  have e6 : (d >>> 6) &&& 3 = d / 64 % 4 := frag_red d
  rw [e3] at hg
  rw [e6] at hr
  rw [and_7 d] at hb
  have g0 : q[c]? = some (q.getD c 0) := by
    simp [List.getD_eq_getElem?_getD, List.getElem?_eq_getElem (by omega : c < q.length)]
  have g1 : q[c + 1]? = some (q.getD (c + 1) 0) := by
    simp [List.getD_eq_getElem?_getD, List.getElem?_eq_getElem (by omega : c + 1 < q.length)]
  have g2 : q[c + 2]? = some (q.getD (c + 2) 0) := by
    simp [List.getD_eq_getElem?_getD, List.getElem?_eq_getElem hlt]
  simp only [readPixel, BLUE, GREEN, RED, Nat.add_zero, BLUE_BITMASK, GREEN_BITMASK,
    RED_BITMASK, BLUE_BITS, GREEN_BITS, bind, Option.bind, g0, g1, g2, hb, hg, hr,
    Nat.shiftLeft_eq]
  have m8 : d % 8 < 8 := Nat.mod_lt _ (by norm_num)
  have m8g : d / 8 % 8 < 8 := Nat.mod_lt _ (by norm_num)
  have m4 : d / 64 % 4 < 4 := Nat.mod_lt _ (by norm_num)
  have s1 : d % 8 % 256 ||| d / 8 % 8 * 2 ^ 3 = 8 * (d / 8 % 8) + d % 8 := by
    rw [Nat.mod_eq_of_lt (by omega : d % 8 < 256), Nat.or_comm]
    have := or_low (d / 8 % 8) (d % 8) 3 (by norm_num; exact m8)
    norm_num at this ⊢
    rw [Nat.mul_comm]
    exact this
  rw [s1]
  have s2 : (8 * (d / 8 % 8) + d % 8) % 256 ||| d / 64 % 4 * 2 ^ (3 + 3)
      = 64 * (d / 64 % 4) + (8 * (d / 8 % 8) + d % 8) := by
    rw [Nat.mod_eq_of_lt (by omega), Nat.or_comm]
    have := or_low (d / 64 % 4) (8 * (d / 8 % 8) + d % 8) 6 (by norm_num; omega)
    norm_num at this ⊢
    rw [Nat.mul_comm]
    exact this
  rw [s2]
  congr 1
  omega

theorem getElem?_eq_some_getD (q : List Nat) (j : Nat) (h : j < q.length) :
    q[j]? = some (q.getD j 0) := by
  simp [List.getD_eq_getElem?_getD, List.getElem?_eq_getElem h]

/-- What a later reader sees of a pixel just stored: the byte stored, as long
as the reader's buffer agrees with the final buffer below the final cursor. -/
theorem holds_after_step {w p d : Nat} {ds : List Nat} {s t : EncState} {q : List Nat} {c : Nat}
    (hlt : c + 2 < s.pData.length)
    (h : payloadLoop w p ds ⟨putPixel s.pData c d, c + 3, s.visited ++ [c]⟩ = some t)
    (hq : q.length = t.pData.length) (he : ∀ j, j < t.dataIndex → q[j]? = t.pData[j]?) :
    c + 2 < q.length ∧ HoldsByte q c d := by
  obtain ⟨hl, hi, lo, _, _, _, _, _⟩ := payloadLoop_extends _ _ _ _ _ h
  simp only [putPixel_length] at hl hi lo
  refine ⟨by omega, (putPixel_holds s.pData c d hlt).congr ?_⟩
  intro j hj
  rw [he j (by omega), lo j hj]

theorem byteLoop_roundtrip (w p : Nat) (ds : List Nat) :
    ∀ (s t : EncState) (q acc vis : List Nat), payloadLoop w p ds s = some t →
      q.length = t.pData.length → (∀ j, j < t.dataIndex → q[j]? = t.pData[j]?) →
      ∃ vis1, byteLoop q w p ds.length ⟨acc, s.dataIndex, vis⟩ =
        some ⟨acc ++ ds.map (· % 256), t.dataIndex, vis1⟩ := by
  induction ds with
  | nil =>
    intro s t q acc vis h _ _
    simp only [payloadLoop] at h
    rw [← Option.some.inj h]
    exact ⟨vis, by simp [byteLoop]⟩
  | cons d ds ih =>
    intro s t q acc vis h hq he
    rw [payloadLoop_cons] at h
    cases h1 : stepByte w p s d with
    | none => rw [h1] at h; exact absurd h (by simp)
    | some s1 =>
      rw [h1] at h
      simp only [Option.bind] at h
      obtain ⟨c, hc, hlt, rfl⟩ := stepByte_some h1
      obtain ⟨hcq, hold⟩ := holds_after_step hlt h hq he
      obtain ⟨vis1, hv⟩ := ih _ t q (acc ++ [d % 256]) (vis ++ [c]) h hq he
      refine ⟨vis1, ?_⟩
      simp only [List.length_cons, byteLoop, hc, readPixel_of_holds q c d hcq hold, bind,
        Option.bind, BYTES_IN_PIXEL]
      rw [hv]
      simp

theorem sizeLoop_roundtrip (w p : Nat) (ds : List Nat) :
    ∀ (s t : EncState) (q : List Nat) (bs acc : Nat) (vis : List Nat),
      payloadLoop w p ds s = some t →
      q.length = t.pData.length → (∀ j, j < t.dataIndex → q[j]? = t.pData[j]?) →
      ∃ vis1, sizeLoop q w p ds.length ⟨s.dataIndex, bs, acc, vis⟩ =
        some ⟨t.dataIndex, bs + 8 * ds.length, sizeFold acc bs ds, vis1⟩ := by
  induction ds with
  | nil =>
    intro s t q bs acc vis h _ _
    simp only [payloadLoop] at h
    rw [← Option.some.inj h]
    exact ⟨vis, by simp [sizeLoop, sizeFold]⟩
  | cons d ds ih =>
    intro s t q bs acc vis h hq he
    rw [payloadLoop_cons] at h
    cases h1 : stepByte w p s d with
    | none => rw [h1] at h; exact absurd h (by simp)
    | some s1 =>
      rw [h1] at h
      simp only [Option.bind] at h
      obtain ⟨c, hc, hlt, rfl⟩ := stepByte_some h1
      obtain ⟨hcq, hb, hg, hr⟩ := holds_after_step hlt h hq he
      obtain ⟨vis1, hv⟩ := ih _ t q (bs + 8)
        (((acc ||| shlInt (d &&& 0x07) bs) ||| shlInt ((d >>> 3) &&& 0x07) (bs + 3))
          ||| shlInt ((d >>> 6) &&& 0x03) (bs + 6)) (vis ++ [c]) h hq he
      refine ⟨vis1, ?_⟩
      have g0 := getElem?_eq_some_getD q (c + BLUE) (by simp only [BLUE]; omega)
      have g1 := getElem?_eq_some_getD q (c + GREEN) (by simp only [GREEN]; omega)
      have g2 := getElem?_eq_some_getD q (c + RED) (by simp only [RED]; omega)
      simp only [List.length_cons, sizeLoop, hc, g0, g1, g2, hb, hg, hr, bind, Option.bind,
        sizeFold]
      simp only [BLUE_BITS, GREEN_BITS, RED_BITS, BYTES_IN_PIXEL, Nat.add_assoc] at hv ⊢
      rw [hv]
      congr 2
      omega

/-! ## The length field read back -/

theorem shlInt_zero (s : Nat) : shlInt 0 s = 0 := by
  simp [shlInt]

theorem shlInt_of_small (v s : Nat) (hs : s < 32) (hv : v * 2 ^ s < 2 ^ 31) :
    shlInt v s = v * 2 ^ s := by
  unfold shlInt
  simp only [Nat.mod_eq_of_lt hs, Nat.shiftLeft_eq]
  have h32 : v * 2 ^ s < 2 ^ 32 := lt_trans hv (by norm_num)
  rw [Nat.mod_eq_of_lt h32, if_pos hv]

theorem frag_mul_le (L s w : Nat) : ((L >>> s) &&& (2 ^ w - 1)) * 2 ^ s ≤ L := by
  rw [Nat.and_pow_two_sub_one_eq_mod, Nat.shiftRight_eq_div_pow]
  calc L / 2 ^ s % 2 ^ w * 2 ^ s ≤ L / 2 ^ s * 2 ^ s :=
        Nat.mul_le_mul_right _ (Nat.mod_le _ _)
    _ ≤ L := Nat.div_mul_le_self _ _

theorem or_frag (L s w : Nat) :
    (L % 2 ^ s) ||| (((L >>> s) &&& (2 ^ w - 1)) * 2 ^ s) = L % 2 ^ (s + w) := by
  rw [Nat.and_pow_two_sub_one_eq_mod, Nat.shiftRight_eq_div_pow, Nat.or_comm, Nat.mul_comm,
    ← Nat.mul_add_lt_is_or (Nat.mod_lt _ (Nat.pow_pos (by norm_num))), pow_add, Nat.mod_mul]
  omega

theorem or_shl_frag (L s w : Nat) (hs : s < 32) (hL : L < 2 ^ 31) :
    (L % 2 ^ s) ||| shlInt ((L >>> s) &&& (2 ^ w - 1)) s = L % 2 ^ (s + w) := by
  rw [shlInt_of_small _ _ hs (lt_of_le_of_lt (frag_mul_le L s w) hL), or_frag]

theorem fold_byte (L bs : Nat) (hbs : bs + 6 < 32) (hL : L < 2 ^ 31) :
    ((L % 2 ^ bs ||| shlInt ((L >>> bs) &&& 0x07) bs)
      ||| shlInt (((L >>> bs) >>> 3) &&& 0x07) (bs + 3))
      ||| shlInt (((L >>> bs) >>> 6) &&& 0x03) (bs + 6) = L % 2 ^ (bs + 8) := by
  have e1 := or_shl_frag L bs 3 (by omega) hL
  have e2 := or_shl_frag L (bs + 3) 3 (by omega) hL
  have e3 := or_shl_frag L (bs + 6) 2 (by omega) hL
  rw [← Nat.shiftRight_add, ← Nat.shiftRight_add]
  norm_num at e1 e2 e3 ⊢
  rw [e1, e2]
  have a1 : bs + 3 + 3 = bs + 6 := by omega
  have a2 : bs + 6 + 2 = bs + 8 := by omega
  rw [a1, e3, a2]

theorem fold_byte_high (L bs : Nat) (hbs : 31 ≤ bs) (hL : L < 2 ^ 31) :
    ((L % 2 ^ bs ||| shlInt ((L >>> bs) &&& 0x07) bs)
      ||| shlInt (((L >>> bs) >>> 3) &&& 0x07) (bs + 3))
      ||| shlInt (((L >>> bs) >>> 6) &&& 0x03) (bs + 6) = L % 2 ^ (bs + 8) := by
  have hlt : L < 2 ^ bs := lt_of_lt_of_le hL (Nat.pow_le_pow_right (by norm_num) hbs)
  have hlt8 : L < 2 ^ (bs + 8) :=
    lt_of_lt_of_le hL (Nat.pow_le_pow_right (by norm_num) (by omega))
  have hz : L >>> bs = 0 := by
    rw [Nat.shiftRight_eq_div_pow]
    exact Nat.div_eq_of_lt hlt
  rw [hz, Nat.mod_eq_of_lt hlt, Nat.mod_eq_of_lt hlt8]
  simp [shlInt_zero]

theorem sizeFold_lengthBytes (L : Nat) (hL : L < 2 ^ 31) (n : Nat) :
    ∀ k, sizeFold (L % 2 ^ (8 * k)) (8 * k) (lengthBytes L (8 * k) n)
      = L % 2 ^ (8 * (k + n)) := by
  induction n with
  | zero => intro k; rfl
  | succ n ih =>
    intro k
    simp only [lengthBytes, sizeFold]
    have hstep : ((L % 2 ^ (8 * k) ||| shlInt ((L >>> (8 * k)) &&& 0x07) (8 * k))
        ||| shlInt (((L >>> (8 * k)) >>> 3) &&& 0x07) (8 * k + 3))
        ||| shlInt (((L >>> (8 * k)) >>> 6) &&& 0x03) (8 * k + 6)
        = L % 2 ^ (8 * (k + 1)) := by
      have e : 8 * (k + 1) = 8 * k + 8 := by omega
      rw [e]
      by_cases hk : k < 4
      · exact fold_byte L (8 * k) (by omega) hL
      · exact fold_byte_high L (8 * k) (by omega) hL
    rw [hstep]
    have e : 8 * k + 8 = 8 * (k + 1) := by omega
    rw [e, ih (k + 1)]
    congr 2
    omega

theorem sizeFold_length (L : Nat) (hL : L < 2 ^ 31) :
    sizeFold 0 0 (lengthBytes L 0 8) = L := by
  have h := sizeFold_lengthBytes L hL 8 0
  simp only [Nat.mul_zero, pow_zero, Nat.mod_one, Nat.zero_add] at h
  rw [h]
  exact Nat.mod_eq_of_lt (lt_trans hL (by norm_num))

/-! ## Round trip of the whole record -/

theorem lengthBytes_length (L : Nat) (n : Nat) : ∀ bs, (lengthBytes L bs n).length = n := by
  induction n with
  | zero => intro bs; rfl
  | succ n ih => intro bs; simp [lengthBytes, ih]

theorem map_mod_of_bytes (l : List Nat) (h : ∀ b ∈ l, b < 256) : l.map (· % 256) = l := by
  induction l with
  | nil => rfl
  | cons a l ih =>
    simp only [List.map_cons]
    rw [ih (fun b hb => h b (List.mem_cons_of_mem _ hb)),
      Nat.mod_eq_of_lt (h a (List.mem_cons_self _ _))]

/-- The three segments of an embedding without row padding: the states after
the length, the extension and the payload. -/
theorem encodeLoops_segments (width : Nat) (pData extension payload : List Nat)
    (hw : 1 ≤ width) (hext : extension.length = 3)
    (hfit : 3 * (payload.length + 11) ≤ pData.length) :
    ∃ s1 s2 out,
      payloadLoop width 0 (lengthBytes payload.length 0 8) ⟨pData, 0, []⟩ = some s1 ∧
      payloadLoop width 0 extension s1 = some s2 ∧
      payloadLoop width 0 payload s2 = some out ∧
      encodeDataFileContentsLoops extension pData payload width 0 = some out ∧
      s1.dataIndex = 24 ∧ s2.dataIndex = 33 := by
  obtain ⟨s1, h1, i1⟩ := payloadLoop_succeeds width hw (lengthBytes payload.length 0 8)
    ⟨pData, 0, []⟩ (by simp only [lengthBytes_length]; omega)
  have l1 := (payloadLoop_extends _ _ _ _ _ h1).1
  simp only [lengthBytes_length] at i1 l1
  obtain ⟨s2, h2, i2⟩ := payloadLoop_succeeds width hw extension s1 (by omega)
  have l2 := (payloadLoop_extends _ _ _ _ _ h2).1
  obtain ⟨out, h3, _⟩ := payloadLoop_succeeds width hw payload s2 (by omega)
  refine ⟨s1, s2, out, h1, h2, h3, ?_, by omega, by omega⟩
  unfold encodeDataFileContentsLoops
  rw [lengthLoop_eq_payloadLoop _ _ _ _ _ (by simp), h1]
  simp only [bind, Option.bind, EXTENSION_SIZE]
  rw [extensionLoop_eq_payloadLoop _ _ _ _ _ _ (by omega)]
  have e : (List.drop 0 extension).take 3 = extension := by
    rw [List.drop_zero, ← hext, List.take_length]
  rw [e, h2]
  exact h3

/-! ## Masks on bytes -/

theorem and_bitNot_blue_of_lt (x : Nat) (hx : x < 256) :
    x &&& bitNot BLUE_BITMASK = x &&& 0xF8 := by
  have h1 := clear_blue x
  have h2 : x &&& bitNot BLUE_BITMASK ≤ x := Nat.and_le_left
  rw [Nat.mod_eq_of_lt (by omega)] at h1
  rw [h1, and_248]

theorem and_bitNot_red_of_lt (x : Nat) (hx : x < 256) :
    x &&& bitNot RED_BITMASK = x &&& 0xFC := by
  have h1 := clear_red x
  have h2 : x &&& bitNot RED_BITMASK ≤ x := Nat.and_le_left
  rw [Nat.mod_eq_of_lt (by omega)] at h1
  rw [h1, and_252]

theorem getD_lt_of_bytes (l : List Nat) (h : ∀ b ∈ l, b < 256) (j : Nat) : l.getD j 0 < 256 := by
  rw [List.getD_eq_getElem?_getD]
  cases hj : l[j]? with
  | none => simp
  | some b => exact h b (List.getElem?_mem hj)

/-! ## Bounds of the reading loops -/

theorem readPixel_some {q : List Nat} {c x : Nat} (h : readPixel q c = some x) :
    c + 2 < q.length := by
  by_contra hc
  have : q[c + RED]? = none := List.getElem?_eq_none (by simp only [RED]; omega)
  simp only [readPixel, bind, Option.bind, this] at h
  cases h0 : q[c + BLUE]? with
  | none => simp [h0] at h
  | some b =>
    cases h1 : q[c + GREEN]? with
    | none => simp [h0, h1] at h
    | some g => simp [h0, h1] at h

theorem readPixel_of_lt (q : List Nat) (c : Nat) (h : c + 2 < q.length) :
    ∃ x, readPixel q c = some x := by
  have g0 := getElem?_eq_some_getD q (c + BLUE) (by simp only [BLUE]; omega)
  have g1 := getElem?_eq_some_getD q (c + GREEN) (by simp only [GREEN]; omega)
  have g2 := getElem?_eq_some_getD q (c + RED) (by simp only [RED]; omega)
  simp only [readPixel, bind, Option.bind, g0, g1, g2]
  exact ⟨_, rfl⟩

theorem byteLoop_succ (q : List Nat) (w p n : Nat) (s : DecState) :
    byteLoop q w p (n + 1) s =
      (checkPadding s.index w p).bind fun c =>
        (readPixel q c).bind fun x =>
          byteLoop q w p n ⟨s.decoded ++ [x], c + 3, s.visited ++ [c]⟩ := by
  simp only [byteLoop, bind, BYTES_IN_PIXEL]

/-- A completed run of the byte-reading loop stayed inside the buffer: the
cursor advanced by at least 3 per byte and, if a byte was read, ended at or
below the end of the buffer. -/
theorem byteLoop_bounds (q : List Nat) (w p : Nat) (n : Nat) :
    ∀ (s t : DecState), byteLoop q w p n s = some t →
      s.index + 3 * n ≤ t.index ∧ (n = 0 ∨ t.index ≤ q.length) ∧
      t.decoded.length = s.decoded.length + n := by
  induction n with
  | zero =>
    intro s t h
    simp only [byteLoop] at h
    rw [← Option.some.inj h]
    simp
  | succ n ih =>
    intro s t h
    rw [byteLoop_succ] at h
    cases hc : checkPadding s.index w p with
    | none => rw [hc] at h; exact absurd h (by simp)
    | some c =>
      rw [hc] at h
      simp only [Option.bind] at h
      cases hx : readPixel q c with
      | none => rw [hx] at h; exact absurd h (by simp)
      | some x =>
        rw [hx] at h
        simp only [] at h
        obtain ⟨_, hle, _⟩ := checkPadding_some hc
        have hb := readPixel_some hx
        obtain ⟨h1, h2, h3⟩ := ih _ t h
        simp only [List.length_append, List.length_cons, List.length_nil] at h1 h2 h3
        refine ⟨by omega, Or.inr ?_, by omega⟩
        rcases h2 with h2 | h2
        · subst h2
          simp only [byteLoop] at h
          rw [← Option.some.inj h]
          simp only []
          omega
        · exact h2

theorem sizeLoop_succ (q : List Nat) (w p n : Nat) (s : SizeState) :
    sizeLoop q w p (n + 1) s =
      (checkPadding s.dataIndex w p).bind fun c =>
        (q[c + BLUE]?).bind fun b =>
          (q[c + GREEN]?).bind fun g =>
            (q[c + RED]?).bind fun r =>
              sizeLoop q w p n ⟨c + 3, s.bitShift + 8,
                ((s.encodedDataSize ||| shlInt (b &&& BLUE_BITMASK) s.bitShift)
                  ||| shlInt (g &&& GREEN_BITMASK) (s.bitShift + 3))
                  ||| shlInt (r &&& RED_BITMASK) (s.bitShift + 6), s.visited ++ [c]⟩ := by
  simp only [sizeLoop, bind, BYTES_IN_PIXEL, BLUE_BITS, GREEN_BITS, RED_BITS, Nat.add_assoc]

theorem sizeLoop_bounds (q : List Nat) (w p : Nat) (n : Nat) :
    ∀ (s t : SizeState), sizeLoop q w p n s = some t →
      s.dataIndex + 3 * n ≤ t.dataIndex ∧ (n = 0 ∨ t.dataIndex ≤ q.length) := by
  induction n with
  | zero =>
    intro s t h
    simp only [sizeLoop] at h
    rw [← Option.some.inj h]
    simp
  | succ n ih =>
    intro s t h
    rw [sizeLoop_succ] at h
    cases hc : checkPadding s.dataIndex w p with
    | none => rw [hc] at h; exact absurd h (by simp)
    | some c =>
      rw [hc] at h
      simp only [Option.bind] at h
      cases hb : q[c + BLUE]? with
      | none => rw [hb] at h; exact absurd h (by simp)
      | some b =>
        rw [hb] at h
        simp only [] at h
        cases hg : q[c + GREEN]? with
        | none => rw [hg] at h; exact absurd h (by simp)
        | some g =>
          rw [hg] at h
          simp only [] at h
          cases hr : q[c + RED]? with
          | none => rw [hr] at h; exact absurd h (by simp)
          | some r =>
            rw [hr] at h
            simp only [] at h
            obtain ⟨_, hle, _⟩ := checkPadding_some hc
            have hlt : c + RED < q.length := by
              by_contra hn
              rw [List.getElem?_eq_none (by omega)] at hr
              exact absurd hr (by simp)
            simp only [RED] at hlt
            obtain ⟨h1, h2⟩ := ih _ t h
            simp only [] at h1 h2
            refine ⟨by omega, Or.inr ?_⟩
            rcases h2 with h2 | h2
            · subst h2
              simp only [sizeLoop] at h
              rw [← Option.some.inj h]
              simp only []
              omega
            · exact h2

theorem checkPadding_of_pos (i w p : Nat) (hw : 1 ≤ w) :
    ∃ c, checkPadding i w p = some c ∧ i ≤ c ∧ c ≤ i + p := by
  unfold checkPadding
  have h0 : w ≠ 0 := by omega
  rw [if_neg h0]
  split
  · exact ⟨i + p, rfl, by omega, le_refl _⟩
  · exact ⟨i, rfl, le_refl _, by omega⟩

theorem byteLoop_succeeds (q : List Nat) (w p : Nat) (hw : 1 ≤ w) (n : Nat) :
    ∀ (s : DecState), s.index + n * (3 + p) ≤ q.length →
      ∃ t, byteLoop q w p n s = some t ∧ t.index ≤ s.index + n * (3 + p) ∧
        t.decoded.length = s.decoded.length + n ∧
        t.visited.length = s.visited.length + n := by
  induction n with
  | zero => intro s _; exact ⟨s, rfl, by simp, by simp, by simp⟩
  | succ n ih =>
    intro s hs
    obtain ⟨c, hc, h1, h2⟩ := checkPadding_of_pos s.index w p hw
    have hroom : (n + 1) * (3 + p) = n * (3 + p) + (3 + p) := by ring
    rw [hroom] at hs
    have hn : 0 ≤ n * (3 + p) := Nat.zero_le _
    obtain ⟨x, hx⟩ := readPixel_of_lt q c (by omega)
    obtain ⟨t, ht, hi, hd, hv⟩ := ih ⟨s.decoded ++ [x], c + 3, s.visited ++ [c]⟩
      (by simp only []; omega)
    simp only [List.length_append, List.length_cons, List.length_nil] at hi hd hv
    refine ⟨t, ?_, by rw [hroom]; omega, by omega, by omega⟩
    rw [byteLoop_succ, hc]
    simp only [Option.bind, hx]
    exact ht

theorem sizeLoop_succeeds (q : List Nat) (w p : Nat) (hw : 1 ≤ w) (n : Nat) :
    ∀ (s : SizeState), s.dataIndex + n * (3 + p) ≤ q.length →
      ∃ t, sizeLoop q w p n s = some t ∧ t.dataIndex ≤ s.dataIndex + n * (3 + p) ∧
        t.visited.length = s.visited.length + n := by
  induction n with
  | zero => intro s _; exact ⟨s, rfl, by simp, by simp⟩
  | succ n ih =>
    intro s hs
    obtain ⟨c, hc, h1, h2⟩ := checkPadding_of_pos s.dataIndex w p hw
    have hroom : (n + 1) * (3 + p) = n * (3 + p) + (3 + p) := by ring
    rw [hroom] at hs
    have g0 := getElem?_eq_some_getD q (c + BLUE) (by simp only [BLUE]; omega)
    have g1 := getElem?_eq_some_getD q (c + GREEN) (by simp only [GREEN]; omega)
    have g2 := getElem?_eq_some_getD q (c + RED) (by simp only [RED]; omega)
    obtain ⟨t, ht, hi, hv⟩ := ih ⟨c + 3, s.bitShift + 8,
      ((s.encodedDataSize ||| shlInt (q.getD (c + BLUE) 0 &&& BLUE_BITMASK) s.bitShift)
        ||| shlInt (q.getD (c + GREEN) 0 &&& GREEN_BITMASK) (s.bitShift + 3))
        ||| shlInt (q.getD (c + RED) 0 &&& RED_BITMASK) (s.bitShift + 6), s.visited ++ [c]⟩
      (by simp only []; omega)
    simp only [List.length_append, List.length_cons, List.length_nil] at hi hv
    refine ⟨t, ?_, by rw [hroom]; omega, by omega⟩
    rw [sizeLoop_succ, hc]
    simp only [Option.bind, g0, g1, g2]
    exact ht

theorem parseEncodedData_small (q : List Nat) (len p w : Nat) (h : len < 65) :
    parseEncodedData q len p w = some ⟨tError.errorSize, 0, [0, 0, 0], 0, []⟩ := by
  unfold parseEncodedData
  rw [if_pos (by
    simp only [sizeofBitmapFileHeader, sizeofBitmapInfoHeader, DATA_SIZE, EXTENSION_SIZE]
    omega)]

/-- A successful `parseEncodedData` is the two loops one after the other. -/
theorem parseEncodedData_success {q : List Nat} {len p w : Nat} {r : ParseOut}
    (h : parseEncodedData q len p w = some r) (hs : r.errRtn = tError.success) :
    65 ≤ len ∧ ∃ s e, sizeLoop q w p 8 ⟨0, 0, 0, []⟩ = some s ∧
      byteLoop q w p 3 ⟨[], s.dataIndex, s.visited⟩ = some e ∧
      r = ⟨tError.success, e.index, e.decoded, s.encodedDataSize, e.visited⟩ := by
  by_cases hlen : len < 65
  · rw [parseEncodedData_small q len p w hlen] at h
    rw [← Option.some.inj h] at hs
    exact absurd hs (by decide)
  · refine ⟨by omega, ?_⟩
    unfold parseEncodedData at h
    rw [if_neg (by
      simp only [sizeofBitmapFileHeader, sizeofBitmapInfoHeader, DATA_SIZE, EXTENSION_SIZE]
      omega)] at h
    simp only [DATA_SIZE, EXTENSION_SIZE, bind, Option.bind] at h
    cases h1 : sizeLoop q w p 8 ⟨0, 0, 0, []⟩ with
    | none => rw [h1] at h; exact absurd h (by simp)
    | some s =>
      rw [h1] at h
      simp only [] at h
      cases h2 : byteLoop q w p 3 ⟨[], s.dataIndex, s.visited⟩ with
      | none => rw [h2] at h; exact absurd h (by simp)
      | some e =>
        rw [h2] at h
        exact ⟨s, e, rfl, h2, (Option.some.inj h).symm⟩

theorem parseEncodedData_of_loops {q : List Nat} {len p w : Nat} {s : SizeState}
    {e : DecState} (hlen : 65 ≤ len) (h1 : sizeLoop q w p 8 ⟨0, 0, 0, []⟩ = some s)
    (h2 : byteLoop q w p 3 ⟨[], s.dataIndex, s.visited⟩ = some e) :
    parseEncodedData q len p w =
      some ⟨tError.success, e.index, e.decoded, s.encodedDataSize, e.visited⟩ := by
  unfold parseEncodedData
  rw [if_neg (by
    simp only [sizeofBitmapFileHeader, sizeofBitmapInfoHeader, DATA_SIZE, EXTENSION_SIZE]
    omega)]
  simp only [DATA_SIZE, EXTENSION_SIZE, bind, Option.bind, h1, h2]

/-! ## Arithmetic of `parseBitmap` -/

theorem wrap_sub (y x : Nat) (hx : x < 2 ^ 32) (hy : y < 2 ^ 32) :
    sub32 y x = if x ≤ y then y - x else y + 2 ^ 32 - x := by
  unfold sub32
  rw [Nat.mod_eq_of_lt hx, Nat.mod_eq_of_lt hy]
  split
  · have : y + (2 ^ 32 - x) = (y - x) + 2 ^ 32 := by omega
    rw [this, Nat.add_mod_right, Nat.mod_eq_of_lt (by omega)]
  · rw [Nat.mod_eq_of_lt (by omega)]
    omega

theorem mul32_lt (a b : Nat) : mul32 a b < 2 ^ 32 := Nat.mod_lt _ (by norm_num)

theorem widthBytes_lt (width : Nat) : widthBytes width < 2 ^ 32 := by
  unfold widthBytes
  simp only []
  split
  · exact Nat.mod_lt _ (by norm_num)
  · exact mul32_lt _ _

theorem widthBytes_cases (width : Nat) :
    (mul32 width 3 % 4 = 0 ∧ widthBytes width = mul32 width 3) ∨
    (mul32 width 3 % 4 ≠ 0 ∧ mul32 width 3 + (4 - mul32 width 3 % 4) < 2 ^ 32 ∧
      widthBytes width = mul32 width 3 + (4 - mul32 width 3 % 4)) ∨
    (mul32 width 3 % 4 ≠ 0 ∧ mul32 width 3 + (4 - mul32 width 3 % 4) = 2 ^ 32 ∧
      widthBytes width = 0) := by
  have hx := mul32_lt width 3
  unfold widthBytes
  simp only [BYTES_IN_PIXEL]
  generalize mul32 width 3 = x at hx ⊢
  by_cases h0 : x % 4 = 0
  · left
    exact ⟨h0, by rw [if_neg (by simpa using h0)]⟩
  · right
    rw [if_pos h0]
    unfold add32
    by_cases hlt : x + (4 - x % 4) < 2 ^ 32
    · left
      exact ⟨h0, hlt, Nat.mod_eq_of_lt hlt⟩
    · right
      have he : x + (4 - x % 4) = 2 ^ 32 := by omega
      exact ⟨h0, he, by rw [he, Nat.mod_self]⟩

theorem rowPadding_le (width : Nat) : rowPadding width ≤ 3 := by
  have hx := mul32_lt width 3
  unfold rowPadding
  simp only [BYTES_IN_PIXEL]
  rw [wrap_sub _ _ hx (widthBytes_lt width)]
  rcases widthBytes_cases width with ⟨h0, hw⟩ | ⟨h0, hlt, hw⟩ | ⟨h0, he, hw⟩
  · rw [hw, if_pos (le_refl _)]
    simp
  · rw [hw, if_pos (by omega)]
    omega
  · rw [hw]
    split <;> omega

theorem widthBytes_eq_roundUpTo4 (width : Nat) (h : roundUpTo4 (width * 3) < 2 ^ 32) :
    mul32 width 3 = width * 3 ∧ widthBytes width = roundUpTo4 (width * 3) := by
  unfold roundUpTo4 at h
  have hm : mul32 width 3 = width * 3 := Nat.mod_eq_of_lt (by omega)
  refine ⟨hm, ?_⟩
  unfold roundUpTo4
  rcases widthBytes_cases width with ⟨h0, hw⟩ | ⟨h0, hlt, hw⟩ | ⟨h0, he, hw⟩
  · rw [hw, hm]
    rw [hm] at h0
    omega
  · rw [hw, hm]
    rw [hm] at h0
    omega
  · rw [hm] at he h0
    omega

/-! ## Order of the visited offsets -/

theorem CursorOrdered.snoc {v : List Nat} {i c : Nat} (h : CursorOrdered v i) (hc : i ≤ c) :
    CursorOrdered (v ++ [c]) (c + 3) := by
  obtain ⟨hp, hb⟩ := h
  constructor
  · rw [List.pairwise_append]
    refine ⟨hp, List.pairwise_singleton _ _, ?_⟩
    intro a ha b hb1
    rw [List.mem_singleton] at hb1
    subst hb1
    have := hb a ha
    omega
  · intro a ha
    rcases List.mem_append.1 ha with ha | ha
    · have := hb a ha
      omega
    · rw [List.mem_singleton] at ha
      omega

theorem payloadLoop_invariant (I : EncState → Prop) (w p : Nat)
    (hstep : ∀ s d t, stepByte w p s d = some t → I s → I t) (ds : List Nat) :
    ∀ (s t : EncState), payloadLoop w p ds s = some t → I s → I t := by
  induction ds with
  | nil =>
    intro s t h hs
    simp only [payloadLoop] at h
    rw [← Option.some.inj h]
    exact hs
  | cons d ds ih =>
    intro s t h hs
    rw [payloadLoop_cons] at h
    cases h1 : stepByte w p s d with
    | none => rw [h1] at h; exact absurd h (by simp)
    | some s1 =>
      rw [h1] at h
      exact ih s1 t h (hstep s d s1 h1 hs)

theorem lengthLoop_invariant (I : EncState → Prop) (L w p : Nat)
    (hstep : ∀ s d t, stepByte w p s d = some t → I s → I t) (fuel : Nat) :
    ∀ (s t : EncState) (bs : Nat), lengthLoop L w p fuel s bs = some t → I s → I t := by
  induction fuel with
  | zero =>
    intro s t bs h hs
    simp only [lengthLoop] at h
    rw [← Option.some.inj h]
    exact hs
  | succ fuel ih =>
    intro s t bs h hs
    rw [lengthLoop_succ] at h
    split at h
    · cases h1 : stepByte w p s (L >>> bs) with
      | none => rw [h1] at h; exact absurd h (by simp)
      | some s1 =>
        rw [h1] at h
        exact ih s1 t _ h (hstep s _ s1 h1 hs)
    · rw [← Option.some.inj h]
      exact hs

theorem extensionLoop_invariant (I : EncState → Prop) (ext : List Nat) (w p : Nat)
    (hstep : ∀ s d t, stepByte w p s d = some t → I s → I t) (n : Nat) :
    ∀ (s t : EncState) (i : Nat), extensionLoop ext w p n s i = some t → I s → I t := by
  induction n with
  | zero =>
    intro s t i h hs
    simp only [extensionLoop] at h
    rw [← Option.some.inj h]
    exact hs
  | succ n ih =>
    intro s t i h hs
    rw [extensionLoop_succ] at h
    cases he : ext[i]? with
    | none => rw [he] at h; exact absurd h (by simp)
    | some e =>
      rw [he] at h
      simp only [Option.bind] at h
      cases h1 : stepByte w p s e with
      | none => rw [h1] at h; exact absurd h (by simp)
      | some s1 =>
        rw [h1] at h
        exact ih s1 t _ h (hstep s e s1 h1 hs)

/-- Every property of the state that one pixel store preserves is preserved
by the embedding loops as a whole. -/
theorem encodeLoops_invariant (I : EncState → Prop) (w p : Nat)
    (hstep : ∀ s d t, stepByte w p s d = some t → I s → I t)
    {ext pData P : List Nat} {out : EncState}
    (h : encodeDataFileContentsLoops ext pData P w p = some out) (h0 : I ⟨pData, 0, []⟩) :
    I out := by
  unfold encodeDataFileContentsLoops at h
  simp only [bind, Option.bind] at h
  cases h1 : lengthLoop P.length w p 8 ⟨pData, 0, []⟩ 0 with
  | none => rw [h1] at h; exact absurd h (by simp)
  | some s1 =>
    rw [h1] at h
    simp only [] at h
    cases h2 : extensionLoop ext w p EXTENSION_SIZE s1 0 with
    | none => rw [h2] at h; exact absurd h (by simp)
    | some s2 =>
      rw [h2] at h
      exact payloadLoop_invariant I w p hstep _ _ _ h
        (extensionLoop_invariant I ext w p hstep _ _ _ _ h2
          (lengthLoop_invariant I _ w p hstep _ _ _ _ h1 h0))

theorem stepByte_ordered (w p : Nat) (s : EncState) (d : Nat) (t : EncState)
    (h : stepByte w p s d = some t) (hs : CursorOrdered s.visited s.dataIndex) :
    CursorOrdered t.visited t.dataIndex := by
  obtain ⟨c, hc, _, rfl⟩ := stepByte_some h
  obtain ⟨_, hle, _⟩ := checkPadding_some hc
  exact hs.snoc hle

theorem byteLoop_ordered (q : List Nat) (w p : Nat) (pre : List Nat) (n : Nat) :
    ∀ (s t : DecState), byteLoop q w p n s = some t →
      CursorOrdered (pre ++ s.visited) s.index → CursorOrdered (pre ++ t.visited) t.index := by
  induction n with
  | zero =>
    intro s t h hs
    simp only [byteLoop] at h
    rw [← Option.some.inj h]
    exact hs
  | succ n ih =>
    intro s t h hs
    rw [byteLoop_succ] at h
    cases hc : checkPadding s.index w p with
    | none => rw [hc] at h; exact absurd h (by simp)
    | some c =>
      rw [hc] at h
      simp only [Option.bind] at h
      cases hx : readPixel q c with
      | none => rw [hx] at h; exact absurd h (by simp)
      | some x =>
        rw [hx] at h
        obtain ⟨_, hle, _⟩ := checkPadding_some hc
        refine ih _ t h ?_
        simp only [← List.append_assoc]
        exact hs.snoc hle

theorem sizeLoop_ordered (q : List Nat) (w p : Nat) (n : Nat) :
    ∀ (s t : SizeState), sizeLoop q w p n s = some t →
      CursorOrdered s.visited s.dataIndex → CursorOrdered t.visited t.dataIndex := by
  induction n with
  | zero =>
    intro s t h hs
    simp only [sizeLoop] at h
    rw [← Option.some.inj h]
    exact hs
  | succ n ih =>
    intro s t h hs
    rw [sizeLoop_succ] at h
    cases hc : checkPadding s.dataIndex w p with
    | none => rw [hc] at h; exact absurd h (by simp)
    | some c =>
      rw [hc] at h
      simp only [Option.bind] at h
      obtain ⟨_, hle, _⟩ := checkPadding_some hc
      cases hb : q[c + BLUE]? with
      | none => rw [hb] at h; exact absurd h (by simp)
      | some b =>
        rw [hb] at h
        simp only [] at h
        cases hg : q[c + GREEN]? with
        | none => rw [hg] at h; exact absurd h (by simp)
        | some g =>
          rw [hg] at h
          simp only [] at h
          cases hr : q[c + RED]? with
          | none => rw [hr] at h; exact absurd h (by simp)
          | some r =>
            rw [hr] at h
            exact ih _ t h (hs.snoc hle)

theorem parseEncodedData_ordered {q : List Nat} {len p w : Nat} {r : ParseOut}
    (h : parseEncodedData q len p w = some r) :
    CursorOrdered r.visited r.startOfEncodedDataIndex := by
  by_cases hs : r.errRtn = tError.success
  · obtain ⟨_, s, e, h1, h2, rfl⟩ := parseEncodedData_success h hs
    have o1 := sizeLoop_ordered _ _ _ _ _ _ h1 ⟨List.Pairwise.nil, by simp⟩
    have o2 := byteLoop_ordered q w p [] _ _ _ h2 (by simpa using o1)
    simpa using o2
  · by_cases hlen : len < 65
    · rw [parseEncodedData_small q len p w hlen] at h
      rw [← Option.some.inj h]
      exact ⟨List.Pairwise.nil, by simp⟩
    · exfalso
      apply hs
      unfold parseEncodedData at h
      rw [if_neg (by
        simp only [sizeofBitmapFileHeader, sizeofBitmapInfoHeader, DATA_SIZE, EXTENSION_SIZE]
        omega)] at h
      simp only [bind, Option.bind] at h
      cases h1 : sizeLoop q w p DATA_SIZE ⟨0, 0, 0, []⟩ with
      | none => rw [h1] at h; exact absurd h (by simp)
      | some s =>
        rw [h1] at h
        simp only [] at h
        cases h2 : byteLoop q w p EXTENSION_SIZE ⟨[], s.dataIndex, s.visited⟩ with
        | none => rw [h2] at h; exact absurd h (by simp)
        | some e =>
          rw [h2] at h
          rw [← Option.some.inj h]

theorem CursorOrdered.facts {v : List Nat} {i : Nat} (h : CursorOrdered v i) :
    v.Pairwise (· < ·) ∧ v.Chain' (fun a b => a + 3 ≤ b) ∧ v.Nodup := by
  refine ⟨h.1.imp (fun hab => by omega), List.Pairwise.chain' h.1, ?_⟩
  exact h.1.imp (fun hab => by omega)

/-! ## Round trip with the start index -/

/-- Round trip of the whole record without row padding, for a carrier in
which the record fits: the statuses, the three recovered fields and the
start index 33. -/
theorem round_trip_fit (width : Nat) (pData extension payload : List Nat) (hw : 1 ≤ width)
    (hmin : 65 ≤ pData.length) (hext : extension.length = 3)
    (hextb : ∀ b ∈ extension, b < 256) (hpay : ∀ b ∈ payload, b < 256)
    (hfit : 3 * (payload.length + 11) ≤ pData.length) (hL : payload.length < 2 ^ 31) :
    ∃ out r d,
      encodeDataFileContentsLoops extension pData payload width 0 = some out ∧
      parseEncodedData out.pData pData.length 0 width = some r ∧
      r.errRtn = tError.success ∧ r.extension = extension ∧
      r.encodedDataSize = payload.length ∧ r.startOfEncodedDataIndex = 33 ∧
      decodeData out.pData r.encodedDataSize r.startOfEncodedDataIndex width 0 = some d ∧
      d.decoded = payload := by
  obtain ⟨s1, s2, out, h1, h2, h3, henc, i1, i2⟩ :=
    encodeLoops_segments width pData extension payload hw hext hfit
  have x2 := payloadLoop_extends _ _ _ _ _ h2
  have x3 := payloadLoop_extends _ _ _ _ _ h3
  have x23 := x2.trans x3
  obtain ⟨vis1, hs⟩ := sizeLoop_roundtrip width 0 _ _ _ out.pData 0 0 [] h1 x23.1 x23.2.2.1
  obtain ⟨vis2, he⟩ := byteLoop_roundtrip width 0 _ _ _ out.pData [] vis1 h2 x3.1 x3.2.2.1
  obtain ⟨vis3, hd⟩ := byteLoop_roundtrip width 0 _ _ _ out.pData [] [] h3 rfl (fun _ _ => rfl)
  simp only [lengthBytes_length, sizeFold_length _ hL] at hs
  simp only [hext, List.nil_append, map_mod_of_bytes _ hextb] at he
  simp only [List.nil_append, map_mod_of_bytes _ hpay] at hd
  refine ⟨out, ⟨tError.success, s2.dataIndex, extension, payload.length, vis2⟩,
    ⟨payload, out.dataIndex, vis3⟩, henc, ?_, rfl, rfl, rfl, i2, ?_, rfl⟩
  · exact parseEncodedData_of_loops hmin hs he
  · exact hd

theorem rowPadding_of_multiple_of_4 (width : Nat) (h : width % 4 = 0) :
    rowPadding width = 0 := by
  have hx := mul32_lt width 3
  have h4 : mul32 width 3 % 4 = 0 := by
    unfold mul32
    rw [Nat.mod_mod_of_dvd _ (by norm_num : 4 ∣ 2 ^ 32)]
    omega
  unfold rowPadding
  simp only [BYTES_IN_PIXEL]
  rw [wrap_sub _ _ hx (widthBytes_lt width)]
  rcases widthBytes_cases width with ⟨_, hw⟩ | ⟨h0, _, _⟩ | ⟨h0, _, _⟩
  · rw [hw, if_pos (le_refl _)]
    simp
  · exact absurd h4 h0
  · exact absurd h4 h0

theorem cString_append_zeros (chars : List Nat) (k : Nat) (h : ∀ b ∈ chars, b ≠ 0) :
    cString (chars ++ List.replicate k 0) = chars := by
  unfold cString
  induction chars with
  | nil =>
    cases k with
    | zero => rfl
    | succ k => simp [List.replicate_succ]
  | cons a l ih =>
    have ha : a ≠ 0 := h a (List.mem_cons_self _ _)
    simp only [List.cons_append, List.takeWhile_cons, ha, ne_eq, not_false_eq_true,
      decide_True, if_true]
    rw [ih (fun b hb => h b (List.mem_cons_of_mem _ hb))]

/-! ### Frame of the embedding loops -/

theorem stepByte_frame (orig : List Nat) (w p : Nat) (s : EncState) (d : Nat) (t : EncState)
    (h : stepByte w p s d = some t)
    (hs : s.pData.length = orig.length ∧
      ∀ j, (∀ c ∈ s.visited, j < c ∨ c + 3 ≤ j) → s.pData[j]? = orig[j]?) :
    t.pData.length = orig.length ∧
      ∀ j, (∀ c ∈ t.visited, j < c ∨ c + 3 ≤ j) → t.pData[j]? = orig[j]? := by
  obtain ⟨c, _, _, rfl⟩ := stepByte_some h
  refine ⟨by simp only [putPixel_length]; exact hs.1, ?_⟩
  intro j hj
  simp only at hj ⊢
  rw [putPixel_getElem?_of_ne _ _ _ _ (hj c (by simp))]
  exact hs.2 j (fun c1 hc1 => hj c1 (List.mem_append_left _ hc1))

theorem encodeLoops_frame {ext pData P : List Nat} {w p : Nat} {out : EncState}
    (h : encodeDataFileContentsLoops ext pData P w p = some out) :
    out.pData.length = pData.length ∧
    (∀ j, (∀ c ∈ out.visited, j < c ∨ c + 3 ≤ j) → out.pData[j]? = pData[j]?) ∧
    (∀ c ∈ out.visited, c + 3 ≤ out.dataIndex) ∧
    (∀ j, out.dataIndex ≤ j → out.pData[j]? = pData[j]?) := by
  have h1 := encodeLoops_invariant
    (fun s => s.pData.length = pData.length ∧
      ∀ j, (∀ c ∈ s.visited, j < c ∨ c + 3 ≤ j) → s.pData[j]? = pData[j]?)
    w p (stepByte_frame pData w p) h ⟨rfl, fun _ _ => rfl⟩
  obtain ⟨_, _, _, hhi, _, offs, hv, hoffs⟩ := encodeLoops_extends h
  refine ⟨h1.1, h1.2, ?_, hhi⟩
  intro c hc
  rw [hv] at hc
  simp only [List.nil_append] at hc
  exact (hoffs c hc).2.1

/-! ### The size validation of `encoding` -/

theorem validateSizes_eq (a b c : Nat) :
    validateSizes a b c =
      if a ≠ (b + c + 54) % 2 ^ 64 then tError.errorSize else tError.success := by
  unfold validateSizes
  simp only [sizeofBitmapFileHeader, sizeofBitmapInfoHeader]
  have e : b + 14 + 40 + c = b + c + 54 := by omega
  simp only [e]

theorem validateSizes_success_iff (a b c : Nat) :
    validateSizes a b c = tError.success ↔ a = (b + c + 54) % 2 ^ 64 := by
  rw [validateSizes_eq]
  by_cases h : a = (b + c + 54) % 2 ^ 64
  · simp [h]
  · simp [h]

theorem copyBitmapData_none {file : List Nat} {n : Nat} {m f : Bool} {err : tError}
    (h : copyBitmapData file n m f = (err, none)) : err ≠ tError.success := by
  unfold copyBitmapData at h
  split at h
  · rw [← (Prod.mk.inj h).1]; decide
  · split at h
    · rw [← (Prod.mk.inj h).1]; decide
    · split at h
      · rw [← (Prod.mk.inj h).1]; decide
      · exact absurd (Prod.mk.inj h).2 (by simp)

theorem parseBitmap_padding (file : List Nat) (fseekOk : Bool) :
    (parseBitmap file fseekOk).padding = rowPadding (parseBitmap file fseekOk).width := by
  unfold parseBitmap
  split
  · decide
  · split
    · decide
    · split
      · decide
      · rfl

theorem encodingChain_rejects_size (w : World) (file : List Nat)
    (hfile : w.bitmapFile = some file)
    (hne : validateSizes file.length
      (mul32 (mul32 (parseBitmap file w.parseBitmapFseek).width
        (parseBitmap file w.parseBitmapFseek).height) 3)
      (mul32 (parseBitmap file w.parseBitmapFseek).padding
        (parseBitmap file w.parseBitmapFseek).height) ≠ tError.success) :
    ∃ ch, encodingChain w = some ch ∧ ch.codecRan = false ∧
      ch.errRtn ≠ tError.success ∧ ch.output = none := by
  unfold encodingChain
  rw [hfile]
  simp only []
  split
  · exact ⟨_, rfl, rfl, by decide, rfl⟩
  · split
    · exact ⟨_, rfl, rfl, by decide, rfl⟩
    · split
      · rename_i hb
        exact ⟨_, rfl, rfl, hb, rfl⟩
      · split
        · exact ⟨_, rfl, rfl, by decide, rfl⟩
        · split
          · rename_i err hcopy
            exact ⟨_, rfl, rfl, copyBitmapData_none hcopy, rfl⟩
          · exact ⟨_, rfl, rfl, by decide, rfl⟩

theorem geometry_products_exact (width height : Nat) (h : width * height * 3 < 2 ^ 32) :
    mul32 (mul32 width height) 3 = width * height * 3 ∧
    mul32 (rowPadding width) height = rowPadding width * height := by
  have hp := rowPadding_le width
  have hwh : width * height < 2 ^ 32 := by omega
  constructor
  · unfold mul32
    rw [Nat.mod_eq_of_lt hwh, Nat.mod_eq_of_lt h]
  · unfold mul32
    apply Nat.mod_eq_of_lt
    rcases Nat.eq_zero_or_pos width with h0 | h0
    · subst h0
      have : rowPadding 0 = 0 := by decide
      rw [this]
      norm_num
    · have h1 : 1 * (height * 3) ≤ width * (height * 3) := Nat.mul_le_mul_right _ h0
      have h2 : rowPadding width * height ≤ 3 * height := Nat.mul_le_mul_right _ hp
      have h3 : width * (height * 3) = width * height * 3 := by ring
      omega

/-! ### Headers with width 0 or height 0 in `decoding` -/

theorem sizeOfData_zero (width height : Nat) (h : width = 0 ∨ height = 0) :
    sizeOfData width height = 0 := by
  rcases h with h | h
  · subst h
    unfold sizeOfData mul32
    have : widthBytes 0 = 0 := by decide
    rw [this, Nat.zero_mul]
    rfl
  · subst h
    unfold sizeOfData mul32
    rw [Nat.mul_zero]
    rfl

theorem parseBitmap_sizeOfData (file : List Nat) (fseekOk : Bool) :
    (parseBitmap file fseekOk).sizeOfData =
      sizeOfData (parseBitmap file fseekOk).width (parseBitmap file fseekOk).height := by
  unfold parseBitmap
  split
  · decide
  · split
    · decide
    · split
      · decide
      · rfl

/-! ### Running the embedding loops again on their own result -/

theorem put3_idem (b f : Nat) (hf : f < 8) : put3 (put3 b f) f = put3 b f := by
  unfold put3
  omega

theorem put2_idem (b f : Nat) (hf : f < 4) : put2 (put2 b f) f = put2 b f := by
  unfold put2
  omega

/-- Storing `d` in a pixel that already is the result of storing `d` changes
nothing. -/
theorem putPixel_absorb (x q : List Nat) (c d : Nat) (hlt : c + 2 < x.length)
    (hlen : q.length = x.length)
    (hq : ∀ j, c ≤ j → j < c + 3 → q[j]? = (putPixel x c d)[j]?) :
    putPixel q c d = q := by
  have hlq : c + 2 < q.length := by omega
  have h8 : d % 8 < 8 := Nat.mod_lt _ (by norm_num)
  have h88 : d / 8 % 8 < 8 := Nat.mod_lt _ (by norm_num)
  have h4 : d / 64 % 4 < 4 := Nat.mod_lt _ (by norm_num)
  apply List.ext_getElem?
  intro j
  by_cases hj : j < c ∨ c + 3 ≤ j
  · exact putPixel_getElem?_of_ne _ _ _ _ hj
  · have hjl : j < q.length := by omega
    rw [getElem?_eq_some_getD _ _ (by rw [putPixel_length]; exact hjl),
      getElem?_eq_some_getD _ _ hjl]
    congr 1
    have hx := getD_congr (hq j (by omega) (by omega))
    have hcases : j = c ∨ j = c + 1 ∨ j = c + 2 := by omega
    rcases hcases with rfl | rfl | rfl
    · rw [putPixel_blue _ _ _ hlq, hx, putPixel_blue _ _ _ hlt, put3_idem _ _ h8]
    · rw [putPixel_green _ _ _ hlq, hx, putPixel_green _ _ _ hlt, put3_idem _ _ h88]
    · rw [putPixel_red _ _ _ hlq, hx, putPixel_red _ _ _ hlt, put2_idem _ _ h4]

theorem stepByte_replay {w p d : Nat} {s s1 t : EncState} {q : List Nat} (v : List Nat)
    (h1 : stepByte w p s d = some s1) (hext : Extends s1 t)
    (hlen : q.length = t.pData.length)
    (hq : ∀ j, s.dataIndex ≤ j → j < t.dataIndex → q[j]? = t.pData[j]?) :
    ∃ v1, stepByte w p ⟨q, s.dataIndex, v⟩ d = some ⟨q, s1.dataIndex, v1⟩ := by
  obtain ⟨c, hc, hlt, rfl⟩ := stepByte_some h1
  obtain ⟨_, hle, _⟩ := checkPadding_some hc
  obtain ⟨hl, hidx, hlo, _⟩ := hext
  simp only [putPixel_length] at hl
  simp only at hidx hlo
  have habs : putPixel q c d = q := by
    apply putPixel_absorb s.pData q c d hlt (by omega)
    intro j hj1 hj2
    rw [hq j (by omega) (by omega)]
    exact hlo j hj2
  have hstep := stepByte_of_lt (w := w) (p := p) (d := d) (c := c)
    (s := ⟨q, s.dataIndex, v⟩) hc (by simp only; omega)
  rw [habs] at hstep
  exact ⟨_, hstep⟩

theorem payloadLoop_replay (w p : Nat) (ds : List Nat) :
    ∀ (s t : EncState) (q v : List Nat), payloadLoop w p ds s = some t →
      q.length = t.pData.length →
      (∀ j, s.dataIndex ≤ j → j < t.dataIndex → q[j]? = t.pData[j]?) →
      ∃ v1, payloadLoop w p ds ⟨q, s.dataIndex, v⟩ = some ⟨q, t.dataIndex, v1⟩ := by
  induction ds with
  | nil =>
    intro s t q v h _ _
    simp only [payloadLoop] at h
    rw [← Option.some.inj h]
    exact ⟨v, rfl⟩
  | cons d ds ih =>
    intro s t q v h hlen hq
    rw [payloadLoop_cons] at h
    cases h1 : stepByte w p s d with
    | none => rw [h1] at h; exact absurd h (by simp)
    | some s1 =>
      rw [h1] at h
      simp only [Option.bind] at h
      obtain ⟨v1, hs⟩ := stepByte_replay v h1 (payloadLoop_extends w p ds s1 t h) hlen hq
      obtain ⟨v2, hr⟩ := ih s1 t q v1 h hlen
        (fun j hj1 hj2 => hq j (le_trans (stepByte_extends h1).2.1 hj1) hj2)
      rw [payloadLoop_cons, hs]
      exact ⟨v2, hr⟩

theorem lengthLoop_replay (L w p : Nat) (fuel : Nat) :
    ∀ (s t : EncState) (bs : Nat) (q v : List Nat), lengthLoop L w p fuel s bs = some t →
      q.length = t.pData.length →
      (∀ j, s.dataIndex ≤ j → j < t.dataIndex → q[j]? = t.pData[j]?) →
      ∃ v1, lengthLoop L w p fuel ⟨q, s.dataIndex, v⟩ bs = some ⟨q, t.dataIndex, v1⟩ := by
  induction fuel with
  | zero =>
    intro s t bs q v h _ _
    simp only [lengthLoop] at h
    rw [← Option.some.inj h]
    exact ⟨v, rfl⟩
  | succ fuel ih =>
    intro s t bs q v h hlen hq
    rw [lengthLoop_succ] at h
    rw [lengthLoop_succ]
    by_cases hc : s.dataIndex < PIXELS_TO_STORE_DATA_LEN
    · rw [if_pos hc] at h
      rw [if_pos hc]
      cases h1 : stepByte w p s (L >>> bs) with
      | none => rw [h1] at h; exact absurd h (by simp)
      | some s1 =>
        rw [h1] at h
        simp only [Option.bind] at h
        obtain ⟨v1, hs⟩ := stepByte_replay v h1 (lengthLoop_extends L w p fuel s1 t _ h) hlen hq
        obtain ⟨v2, hr⟩ := ih s1 t _ q v1 h hlen
          (fun j hj1 hj2 => hq j (le_trans (stepByte_extends h1).2.1 hj1) hj2)
        rw [hs]
        exact ⟨v2, hr⟩
    · rw [if_neg hc] at h
      rw [if_neg hc, ← Option.some.inj h]
      exact ⟨v, rfl⟩

theorem extensionLoop_replay (ext : List Nat) (w p : Nat) (n : Nat) :
    ∀ (s t : EncState) (i : Nat) (q v : List Nat), extensionLoop ext w p n s i = some t →
      q.length = t.pData.length →
      (∀ j, s.dataIndex ≤ j → j < t.dataIndex → q[j]? = t.pData[j]?) →
      ∃ v1, extensionLoop ext w p n ⟨q, s.dataIndex, v⟩ i = some ⟨q, t.dataIndex, v1⟩ := by
  induction n with
  | zero =>
    intro s t i q v h _ _
    simp only [extensionLoop] at h
    rw [← Option.some.inj h]
    exact ⟨v, rfl⟩
  | succ n ih =>
    intro s t i q v h hlen hq
    rw [extensionLoop_succ] at h
    rw [extensionLoop_succ]
    cases he : ext[i]? with
    | none => rw [he] at h; exact absurd h (by simp)
    | some e =>
      rw [he] at h
      simp only [Option.bind] at h
      cases h1 : stepByte w p s e with
      | none => rw [h1] at h; exact absurd h (by simp)
      | some s1 =>
        rw [h1] at h
        simp only [] at h
        obtain ⟨v1, hs⟩ := stepByte_replay v h1 (extensionLoop_extends ext w p n s1 t _ h) hlen hq
        obtain ⟨v2, hr⟩ := ih s1 t _ q v1 h hlen
          (fun j hj1 hj2 => hq j (le_trans (stepByte_extends h1).2.1 hj1) hj2)
        simp only [Option.bind]
        rw [hs]
        exact ⟨v2, hr⟩

theorem encodeLoops_replay {ext pData P : List Nat} {w p : Nat} {out : EncState}
    (h : encodeDataFileContentsLoops ext pData P w p = some out) :
    ∃ v, encodeDataFileContentsLoops ext out.pData P w p
      = some ⟨out.pData, out.dataIndex, v⟩ := by
  unfold encodeDataFileContentsLoops at h
  simp only [bind, Option.bind] at h
  cases h1 : lengthLoop P.length w p 8 ⟨pData, 0, []⟩ 0 with
  | none => rw [h1] at h; exact absurd h (by simp)
  | some s1 =>
    rw [h1] at h
    simp only [] at h
    cases h2 : extensionLoop ext w p EXTENSION_SIZE s1 0 with
    | none => rw [h2] at h; exact absurd h (by simp)
    | some s2 =>
      rw [h2] at h
      have e3 := payloadLoop_extends _ _ _ _ _ h
      have e2 := extensionLoop_extends _ _ _ _ _ _ _ h2
      have e23 := e2.trans e3
      obtain ⟨v1, r1⟩ := lengthLoop_replay P.length w p 8 ⟨pData, 0, []⟩ s1 0 out.pData []
        h1 e23.1 (fun j _ hj => e23.2.2.1 j hj)
      obtain ⟨v2, r2⟩ := extensionLoop_replay ext w p EXTENSION_SIZE s1 s2 0 out.pData v1
        h2 e3.1 (fun j _ hj => e3.2.2.1 j hj)
      obtain ⟨v3, r3⟩ := payloadLoop_replay w p P s2 out out.pData v2 h rfl (fun _ _ _ => rfl)
      refine ⟨v3, ?_⟩
      unfold encodeDataFileContentsLoops
      simp only [bind, Option.bind]
      simp only at r1
      rw [r1]
      simp only []
      rw [r2]
      exact r3

/-! ### The reading loops see only the data bits -/

theorem readPixel_of_le (q : List Nat) (c : Nat) (h : q.length ≤ c + 2) :
    readPixel q c = none := by
  cases hx : readPixel q c with
  | none => rfl
  | some x =>
    have := readPixel_some hx
    omega

theorem readPixel_eq (q : List Nat) (c : Nat) (h : c + 2 < q.length) :
    readPixel q c = some
      ((((q.getD (c + BLUE) 0 &&& BLUE_BITMASK) % 256 |||
        ((q.getD (c + GREEN) 0 &&& GREEN_BITMASK) <<< BLUE_BITS)) % 256 |||
        ((q.getD (c + RED) 0 &&& RED_BITMASK) <<< (BLUE_BITS + GREEN_BITS))) % 256) := by
  have g0 := getElem?_eq_some_getD q (c + BLUE) (by simp only [BLUE]; omega)
  have g1 := getElem?_eq_some_getD q (c + GREEN) (by simp only [GREEN]; omega)
  have g2 := getElem?_eq_some_getD q (c + RED) (by simp only [RED]; omega)
  simp only [readPixel, bind, Option.bind, g0, g1, g2]

theorem readPixel_congr {q1 q2 : List Nat} {c : Nat} (hlen : q1.length = q2.length)
    (h : LowBitsAgree q1 q2 c) : readPixel q1 c = readPixel q2 c := by
  by_cases hc : c + 2 < q1.length
  · rw [readPixel_eq q1 c hc, readPixel_eq q2 c (by omega), h.1, h.2.1, h.2.2]
  · rw [readPixel_of_le q1 c (by omega), readPixel_of_le q2 c (by omega)]

theorem byteLoop_visited (q : List Nat) (w p : Nat) (n : Nat) :
    ∀ (s t : DecState), byteLoop q w p n s = some t → ∀ c ∈ s.visited, c ∈ t.visited := by
  induction n with
  | zero =>
    intro s t h c hc
    simp only [byteLoop] at h
    rw [← Option.some.inj h]
    exact hc
  | succ n ih =>
    intro s t h c hc
    rw [byteLoop_succ] at h
    cases hcp : checkPadding s.index w p with
    | none => rw [hcp] at h; exact absurd h (by simp)
    | some c1 =>
      rw [hcp] at h
      simp only [Option.bind] at h
      cases hx : readPixel q c1 with
      | none => rw [hx] at h; exact absurd h (by simp)
      | some x =>
        rw [hx] at h
        exact ih _ t h c (List.mem_append_left _ hc)

theorem sizeLoop_visited (q : List Nat) (w p : Nat) (n : Nat) :
    ∀ (s t : SizeState), sizeLoop q w p n s = some t → ∀ c ∈ s.visited, c ∈ t.visited := by
  induction n with
  | zero =>
    intro s t h c hc
    simp only [sizeLoop] at h
    rw [← Option.some.inj h]
    exact hc
  | succ n ih =>
    intro s t h c hc
    rw [sizeLoop_succ] at h
    cases hcp : checkPadding s.dataIndex w p with
    | none => rw [hcp] at h; exact absurd h (by simp)
    | some c1 =>
      rw [hcp] at h
      simp only [Option.bind] at h
      cases hb : q[c1 + BLUE]? with
      | none => rw [hb] at h; exact absurd h (by simp)
      | some b =>
        rw [hb] at h
        simp only [] at h
        cases hg : q[c1 + GREEN]? with
        | none => rw [hg] at h; exact absurd h (by simp)
        | some g =>
          rw [hg] at h
          simp only [] at h
          cases hr : q[c1 + RED]? with
          | none => rw [hr] at h; exact absurd h (by simp)
          | some r =>
            rw [hr] at h
            exact ih _ t h c (List.mem_append_left _ hc)

theorem byteLoop_congr {q1 q2 : List Nat} (w p : Nat) (hlen : q1.length = q2.length)
    (n : Nat) :
    ∀ (s t : DecState), byteLoop q1 w p n s = some t →
      (∀ c ∈ t.visited, LowBitsAgree q1 q2 c) → byteLoop q2 w p n s = some t := by
  induction n with
  | zero =>
    intro s t h _
    simp only [byteLoop] at h ⊢
    exact h
  | succ n ih =>
    intro s t h ha
    rw [byteLoop_succ] at h ⊢
    cases hcp : checkPadding s.index w p with
    | none => rw [hcp] at h; exact absurd h (by simp)
    | some c1 =>
      rw [hcp] at h
      simp only [Option.bind] at h ⊢
      cases hx : readPixel q1 c1 with
      | none => rw [hx] at h; exact absurd h (by simp)
      | some x =>
        rw [hx] at h
        have hmem : c1 ∈ t.visited :=
          byteLoop_visited q1 w p n _ t h c1 (List.mem_append_right _ (by simp))
        rw [← readPixel_congr hlen (ha c1 hmem), hx]
        exact ih _ t h ha

theorem getElem?_low_bits {q1 q2 : List Nat} {j b : Nat} (hlen : q1.length = q2.length)
    (h : q1[j]? = some b) : q1.getD j 0 = b ∧ q2[j]? = some (q2.getD j 0) := by
  have hj : j < q1.length := by
    by_contra hc
    rw [List.getElem?_eq_none (by omega)] at h
    exact absurd h (by simp)
  constructor
  · rw [List.getD_eq_getElem?_getD, h]
    rfl
  · exact getElem?_eq_some_getD q2 j (by omega)

theorem sizeLoop_congr {q1 q2 : List Nat} (w p : Nat) (hlen : q1.length = q2.length)
    (n : Nat) :
    ∀ (s t : SizeState), sizeLoop q1 w p n s = some t →
      (∀ c ∈ t.visited, LowBitsAgree q1 q2 c) → sizeLoop q2 w p n s = some t := by
  induction n with
  | zero =>
    intro s t h _
    simp only [sizeLoop] at h ⊢
    exact h
  | succ n ih =>
    intro s t h ha
    rw [sizeLoop_succ] at h ⊢
    cases hcp : checkPadding s.dataIndex w p with
    | none => rw [hcp] at h; exact absurd h (by simp)
    | some c1 =>
      rw [hcp] at h
      simp only [Option.bind] at h ⊢
      cases hb : q1[c1 + BLUE]? with
      | none => rw [hb] at h; exact absurd h (by simp)
      | some b =>
        rw [hb] at h
        simp only [] at h
        cases hg : q1[c1 + GREEN]? with
        | none => rw [hg] at h; exact absurd h (by simp)
        | some g =>
          rw [hg] at h
          simp only [] at h
          cases hr : q1[c1 + RED]? with
          | none => rw [hr] at h; exact absurd h (by simp)
          | some r =>
            rw [hr] at h
            simp only [] at h
            have hmem : c1 ∈ t.visited :=
              sizeLoop_visited q1 w p n _ t h c1 (List.mem_append_right _ (by simp))
            obtain ⟨a0, a1, a2⟩ := ha c1 hmem
            obtain ⟨e0, f0⟩ := getElem?_low_bits hlen hb
            obtain ⟨e1, f1⟩ := getElem?_low_bits hlen hg
            obtain ⟨e2, f2⟩ := getElem?_low_bits hlen hr
            rw [f0]
            simp only []
            rw [f1]
            simp only []
            rw [f2]
            simp only []
            rw [← a0, ← a1, ← a2, e0, e1, e2]
            exact ih _ t h ha

theorem parseEncodedData_congr {q1 q2 : List Nat} {len p w : Nat} {r : ParseOut}
    (hlen : q1.length = q2.length) (h : parseEncodedData q1 len p w = some r)
    (ha : ∀ c ∈ r.visited, LowBitsAgree q1 q2 c) :
    parseEncodedData q2 len p w = some r := by
  by_cases hl : len < 65
  · rw [parseEncodedData_small q1 len p w hl] at h
    rw [parseEncodedData_small q2 len p w hl]
    exact h
  · unfold parseEncodedData at h
    rw [if_neg (by
      simp only [sizeofBitmapFileHeader, sizeofBitmapInfoHeader, DATA_SIZE, EXTENSION_SIZE]
      omega)] at h
    simp only [DATA_SIZE, EXTENSION_SIZE, bind, Option.bind] at h
    cases h1 : sizeLoop q1 w p 8 ⟨0, 0, 0, []⟩ with
    | none => rw [h1] at h; exact absurd h (by simp)
    | some s =>
      rw [h1] at h
      simp only [] at h
      cases h2 : byteLoop q1 w p 3 ⟨[], s.dataIndex, s.visited⟩ with
      | none => rw [h2] at h; exact absurd h (by simp)
      | some e =>
        rw [h2] at h
        have hr := Option.some.inj h
        rw [← hr] at ha ⊢
        simp only at ha
        have k2 := byteLoop_congr w p hlen 3 _ e h2 ha
        have k1 := sizeLoop_congr w p hlen 8 _ s h1
          (fun c hc => ha c (byteLoop_visited q1 w p 3 _ e h2 c hc))
        exact parseEncodedData_of_loops (by omega) k1 k2

/-! ## The claims -/

/-- C1 as amended (round trip).  For a geometry without row padding (row
stride `3 * width`), a carrier of `3 * width * height` bytes that is at least
65 bytes long, a 3-byte extension and a payload `P` of bytes with
`len(P) + 11 ≤ width * height` and `len(P) < 2 ^ 31`: the embedding loops of
`encodeDataFileContents` complete, `parseEncodedData` on their buffer returns
`success` with the extension and the length `len(P)`, and `decodeData`, run
with the length and start index it returned, yields exactly `P`. -/
theorem round_trip_no_padding (width height : Nat) (pData extension payload : List Nat)
    (hw : 1 ≤ width)
    (hsize : pData.length = width * 3 * height) (hmin : 65 ≤ pData.length)
    (hext : extension.length = 3) (hextb : ∀ b ∈ extension, b < 256)
    (hpay : ∀ b ∈ payload, b < 256)
    (hcap : payload.length + 11 ≤ width * height) (hL : payload.length < 2 ^ 31) :
    ∃ out r d,
      encodeDataFileContentsLoops extension pData payload width 0 = some out ∧
      parseEncodedData out.pData pData.length 0 width = some r ∧
      r.errRtn = tError.success ∧ r.extension = extension ∧
      r.encodedDataSize = payload.length ∧
      decodeData out.pData r.encodedDataSize r.startOfEncodedDataIndex width 0 = some d ∧
      d.decoded = payload := by
  have hfit : 3 * (payload.length + 11) ≤ pData.length := by
    have e : width * 3 * height = 3 * (width * height) := by ring
    rw [hsize, e]
    omega
  obtain ⟨s1, s2, out, h1, h2, h3, henc, i1, i2⟩ :=
    encodeLoops_segments width pData extension payload hw hext hfit
  have x2 := payloadLoop_extends _ _ _ _ _ h2
  have x3 := payloadLoop_extends _ _ _ _ _ h3
  have x23 := x2.trans x3
  obtain ⟨vis1, hs⟩ := sizeLoop_roundtrip width 0 _ _ _ out.pData 0 0 [] h1 x23.1 x23.2.2.1
  obtain ⟨vis2, he⟩ := byteLoop_roundtrip width 0 _ _ _ out.pData [] vis1 h2 x3.1 x3.2.2.1
  obtain ⟨vis3, hd⟩ := byteLoop_roundtrip width 0 _ _ _ out.pData [] [] h3 rfl (fun _ _ => rfl)
  simp only [lengthBytes_length, sizeFold_length _ hL] at hs
  simp only [hext, List.nil_append, map_mod_of_bytes _ hextb] at he
  simp only [List.nil_append, map_mod_of_bytes _ hpay] at hd
  have hl := (encodeLoops_extends henc).1
  simp only [] at hl
  have hguard : ¬ pData.length <
      sizeofBitmapFileHeader + sizeofBitmapInfoHeader + DATA_SIZE + EXTENSION_SIZE := by
    simp only [sizeofBitmapFileHeader, sizeofBitmapInfoHeader, DATA_SIZE, EXTENSION_SIZE]
    omega
  refine ⟨out, ⟨tError.success, s2.dataIndex, extension, payload.length, vis2⟩,
    ⟨payload, out.dataIndex, vis3⟩, henc, ?_, rfl, rfl, rfl, ?_, rfl⟩
  · unfold parseEncodedData
    rw [if_neg hguard]
    simp only [DATA_SIZE, EXTENSION_SIZE, bind, Option.bind, hs, he]
  · exact hd

/-- Witness of C1 as amended: a 4 x 6 carrier of 72 bytes `0xFF`, extension
`txt`, payload `0xAB 0xCD`. -/
theorem round_trip_no_padding_witness :
    1 ≤ 4 ∧ (whiteCarrier 72).length = 4 * 3 * 6 ∧ 65 ≤ (whiteCarrier 72).length ∧
    ([116, 120, 116] : List Nat).length = 3 ∧ (∀ b ∈ [116, 120, 116], b < 256) ∧
    (∀ b ∈ [0xAB, 0xCD], b < 256) ∧ ([0xAB, 0xCD] : List Nat).length + 11 ≤ 4 * 6 ∧
    ([0xAB, 0xCD] : List Nat).length < 2 ^ 31 ∧
    ∃ out r d,
      encodeDataFileContentsLoops [116, 120, 116] (whiteCarrier 72) [0xAB, 0xCD] 4 0
        = some out ∧
      parseEncodedData out.pData (whiteCarrier 72).length 0 4 = some r ∧
      r.errRtn = tError.success ∧ r.extension = [116, 120, 116] ∧
      r.encodedDataSize = ([0xAB, 0xCD] : List Nat).length ∧
      decodeData out.pData r.encodedDataSize r.startOfEncodedDataIndex 4 0 = some d ∧
      d.decoded = [0xAB, 0xCD] :=
  ⟨by decide, by decide, by decide, by decide, by decide, by decide, by decide, by decide,
    round_trip_no_padding 4 6 (whiteCarrier 72) [116, 120, 116] [0xAB, 0xCD]
      (by decide) (by decide) (by decide) (by decide) (by decide) (by decide) (by decide)
      (by decide)⟩

/-- Counterexample to C1 as stated: width 4, height 3 (12 pixels, 36 bytes, no
row padding), extension `txt`, the 1-byte payload `0xAB`, so that
`len(P) + 11 = 12` pixels are available.  The embedding loops complete, but
`parseEncodedData` rejects the 36-byte buffer with `errorSize` (it is shorter
than 14 + 40 + 8 + 3 = 65 bytes) and returns neither the extension nor the
length. -/
theorem round_trip_fails_below_65_bytes :
    1 ≤ 4 ∧ 1 ≤ 3 ∧ ([0xAB] : List Nat).length + 11 ≤ 4 * 3 ∧
    (whiteCarrier 36).length = 4 * 3 * 3 ∧
    encodeDataFileContentsLoops [116, 120, 116] (whiteCarrier 36) [0xAB] 4 0
      = some exampleEmbedded ∧
    parseEncodedData exampleEmbedded.pData 36 0 4
      = some ⟨tError.errorSize, 0, [0, 0, 0], 0, []⟩ := by
  decide

/-- C2 on a failing input: width 2, row padding 2 (row stride 8), a 72-byte
carrier, extension `txt`, payload length 1.  The embedding loops write at 10
offsets: the length loop leaves at cursor 24 after 6 pixels.  Extraction from
the embedded buffer reads 11 pixels in `parseEncodedData` (8 for the length)
and, for the same payload length 1, one more at offset 45 in `decodeData`. -/
theorem offsets_diverge_width_2 :
    (encodeDataFileContentsLoops [116, 120, 116, 0] (whiteCarrier 72) [0xAB] 2 2).map
      (fun s => s.visited) = some [0, 5, 8, 13, 16, 21, 24, 29, 32, 37] ∧
    ((encodeDataFileContentsLoops [116, 120, 116, 0] (whiteCarrier 72) [0xAB] 2 2).bind
      fun s => parseEncodedData s.pData 72 2 2).map
      (fun r => (r.visited, r.startOfEncodedDataIndex))
      = some ([0, 5, 8, 13, 16, 21, 24, 29, 32, 37, 40], 43) ∧
    ((encodeDataFileContentsLoops [116, 120, 116, 0] (whiteCarrier 72) [0xAB] 2 2).bind
      fun s => decodeData s.pData 1 43 2 2).map (fun d => d.visited) = some [45] := by
  decide

/-- C3 on its two witnesses.  Width 4, height 1 (12 bytes, 4 pixels), no
extension, payload `0xFF`: the capacity check of `encoding` does not reject
(12 - 0 - 3 - 8 = 1 is not below 1), and the embedding then leaves the
buffer.  Width 3, height 2 (24 bytes, padding 3, 6 pixels), the same payload:
24 - 6 - 3 - 8 = 7 is not below 1 either. -/
theorem capacity_check_admits_too_few_pixels :
    4 * 1 < 8 + 3 + ([0xFF] : List Nat).length ∧
    capacityExceeded 12 0 1 ([0xFF] : List Nat).length = false ∧
    encodingEmbedStep [0, 0, 0, 0] (whiteCarrier 12) [0xFF] 12 4 1 0 = none ∧
    3 * 2 < 8 + 3 + ([0xFF] : List Nat).length ∧
    capacityExceeded 24 3 2 ([0xFF] : List Nat).length = false ∧
    encodingEmbedStep [0, 0, 0, 0] (whiteCarrier 24) [0xFF] 24 3 2 3 = none := by
  decide

/-- C4 on a failing input: width 1, height 1 (pixelDataSize 4, padding 1) and a
1-byte payload.  In exact arithmetic 4 - 1 * 1 - 11 = -8 is below 1, but the
`uint64_t` difference wraps to 2 ^ 64 - 8, the check does not reject, and the
embedding leaves the 4-byte buffer. -/
theorem capacity_check_wraps_below_11 :
    (4 : Int) - 1 * 1 - 11 < 1 ∧
    sub64 (sub64 (sub64 4 (mul32 1 1)) EXTENSION_SIZE) DATA_SIZE = 2 ^ 64 - 8 ∧
    capacityExceeded 4 1 1 1 = false ∧
    encodingEmbedStep [0, 0, 0, 0] (whiteCarrier 4) [0xFF] 4 1 1 1 = none := by
  decide

/-- C5 on a failing input: width 4, height 4 (48 bytes, 16 pixels, no
padding).  The largest payload the capacity check admits has 37 bytes (38 are
rejected with `errorSize`), and embedding 37 bytes leaves the buffer: the 17th
pixel would lie at byte offset 48. -/
theorem capacity_boundary_overruns :
    capacityExceeded 48 0 4 37 = false ∧ capacityExceeded 48 0 4 38 = true ∧
    encodingEmbedStep [116, 120, 116, 0] (whiteCarrier 48) (List.replicate 37 0xAB) 48 4 4 0
      = none ∧
    (encodingEmbedStep [116, 120, 116, 0] (whiteCarrier 48) (List.replicate 38 0xAB) 48 4 4
      0).map (fun r => r.1) = some tError.errorSize := by
  decide

/-- C6 (bit isolation).  When the embedding loops of `encodeDataFileContents`
complete on a carrier of bytes, the buffer keeps its length and, for every
visited pixel offset `c`, the pixel lies in the buffer and each of its three
bytes keeps all bits outside its mask: `after & ~0x07 = before & ~0x07` for
the blue and the green byte, `after & ~0x03 = before & ~0x03` for the red
byte. -/
theorem bit_isolation (extension pData dataToEncode : List Nat) (width padding : Nat)
    (out : EncState) (hbytes : ∀ b ∈ pData, b < 256)
    (h : encodeDataFileContentsLoops extension pData dataToEncode width padding = some out) :
    out.pData.length = pData.length ∧
    ∀ c ∈ out.visited, c + RED < pData.length ∧
      out.pData.getD (c + BLUE) 0 &&& bitNot BLUE_BITMASK
        = pData.getD (c + BLUE) 0 &&& bitNot BLUE_BITMASK ∧
      out.pData.getD (c + GREEN) 0 &&& bitNot GREEN_BITMASK
        = pData.getD (c + GREEN) 0 &&& bitNot GREEN_BITMASK ∧
      out.pData.getD (c + RED) 0 &&& bitNot RED_BITMASK
        = pData.getD (c + RED) 0 &&& bitNot RED_BITMASK := by
  obtain ⟨hl, _, _, _, hb, offs, hv, hk⟩ := encodeLoops_extends h
  refine ⟨hl, ?_⟩
  intro c hc
  have hout := hb hbytes
  simp only [List.nil_append] at hv
  rw [hv] at hc
  obtain ⟨_, _, hlt, kb, kg, kr⟩ := hk c hc
  have e : GREEN_BITMASK = BLUE_BITMASK := rfl
  simp only [BLUE, GREEN, RED, Nat.add_zero, e]
  refine ⟨hlt, ?_, ?_, ?_⟩
  · rw [and_bitNot_blue_of_lt _ (getD_lt_of_bytes _ hout _),
      and_bitNot_blue_of_lt _ (getD_lt_of_bytes _ hbytes _)]
    exact kb
  · rw [and_bitNot_blue_of_lt _ (getD_lt_of_bytes _ hout _),
      and_bitNot_blue_of_lt _ (getD_lt_of_bytes _ hbytes _)]
    exact kg
  · rw [and_bitNot_red_of_lt _ (getD_lt_of_bytes _ hout _),
      and_bitNot_red_of_lt _ (getD_lt_of_bytes _ hbytes _)]
    exact kr

/-- Witness of C6: a 4 x 3 carrier of 36 bytes `0xFF`, extension `txt`,
payload `0xAB`. -/
theorem bit_isolation_witness :
    (∀ b ∈ (whiteCarrier 36), b < 256) ∧
    encodeDataFileContentsLoops [116, 120, 116, 0] (whiteCarrier 36) [0xAB] 4 0 =
      some exampleEmbedded ∧
    (exampleEmbedded.pData.length = (whiteCarrier 36).length ∧
    ∀ c ∈ exampleEmbedded.visited, c + RED < (whiteCarrier 36).length ∧
      exampleEmbedded.pData.getD (c + BLUE) 0 &&& bitNot BLUE_BITMASK
        = (whiteCarrier 36).getD (c + BLUE) 0 &&& bitNot BLUE_BITMASK ∧
      exampleEmbedded.pData.getD (c + GREEN) 0 &&& bitNot GREEN_BITMASK
        = (whiteCarrier 36).getD (c + GREEN) 0 &&& bitNot GREEN_BITMASK ∧
      exampleEmbedded.pData.getD (c + RED) 0 &&& bitNot RED_BITMASK
        = (whiteCarrier 36).getD (c + RED) 0 &&& bitNot RED_BITMASK) :=
  ⟨by decide, by decide,
    bit_isolation [116, 120, 116, 0] (whiteCarrier 36) [0xAB] 4 0 exampleEmbedded
      (by decide) (by decide)⟩

/-- C7 (bit layout).  After the payload loop of `encodeDataFileContents` has
run over the bytes `payload` from any state, it has visited one pixel per
byte, and the pixel visited for the `k`-th byte `D` holds, in the final
buffer, `D & 0x07` in the low 3 bits of blue, `(D >> 3) & 0x07` in the low
3 bits of green and `(D >> 6) & 0x03` in the low 2 bits of red. -/
theorem payload_bit_layout (width padding : Nat) (payload : List Nat) :
    ∀ (s t : EncState), payloadLoop width padding payload s = some t →
      t.visited.length = s.visited.length + payload.length ∧
      ∀ k, k < payload.length →
        HoldsByte t.pData (t.visited.getD (s.visited.length + k) 0) (payload.getD k 0) := by
  induction payload with
  | nil =>
    intro s t h
    simp only [payloadLoop] at h
    rw [← Option.some.inj h]
    exact ⟨rfl, fun k hk => absurd hk (by simp)⟩
  | cons d ds ih =>
    intro s t h
    rw [payloadLoop_cons] at h
    cases h1 : stepByte width padding s d with
    | none => rw [h1] at h; exact absurd h (by simp)
    | some s1 =>
      rw [h1] at h
      simp only [Option.bind] at h
      obtain ⟨c, _, hlt, rfl⟩ := stepByte_some h1
      obtain ⟨hlen, hidx⟩ := ih _ t h
      obtain ⟨_, _, lo, _, _, offs, hv, _⟩ := payloadLoop_extends _ _ _ _ _ h
      simp only [List.length_append, List.length_cons, List.length_nil, Nat.zero_add] at hlen hidx ⊢
      refine ⟨by omega, ?_⟩
      intro k hk
      cases k with
      | zero =>
        have hc : t.visited.getD (s.visited.length + 0) 0 = c := by
          rw [hv]
          simp only [List.getD_eq_getElem?_getD, Nat.add_zero, List.append_assoc]
          rw [List.getElem?_append_right (le_refl _)]
          simp
        rw [hc]
        exact (putPixel_holds s.pData c d hlt).congr (fun j hj => lo j hj)
      | succ k =>
        have := hidx k (by omega)
        have e : s.visited.length + 1 + k = s.visited.length + (k + 1) := by omega
        rw [e] at this
        simpa using this

/-- Witness of C7: the byte `0xAB` written to a white pixel. -/
theorem payload_bit_layout_witness :
    payloadLoop 4 0 [0xAB] ⟨[255, 255, 255], 0, []⟩ = some ⟨[251, 253, 254], 3, [0]⟩ ∧
    ([0].length = ([] : List Nat).length + [0xAB].length ∧
      ∀ k, k < [0xAB].length →
        HoldsByte [251, 253, 254] (([0] : List Nat).getD (([] : List Nat).length + k) 0)
          (([0xAB] : List Nat).getD k 0)) :=
  ⟨by decide, payload_bit_layout 4 0 [0xAB] ⟨[255, 255, 255], 0, []⟩ ⟨[251, 253, 254], 3, [0]⟩
    (by decide)⟩

/-- C8 on a failing input: width 3, row padding 3 (row stride 12), a 72-byte
carrier, extension `txt`, payload `0xAB`.  The cursor never jumps: the fourth
pixel written is at offset 9, on the three filler bytes 9, 10, 11 of the
first row, and `parseEncodedData` reads the same offsets. -/
theorem padding_bytes_visited_width_3 :
    (encodeDataFileContentsLoops [116, 120, 116, 0] (whiteCarrier 72) [0xAB] 3 3).map
      (fun s => s.visited) = some [0, 3, 6, 9, 12, 15, 18, 21, 24, 27, 30, 33] ∧
    (parseEncodedData (whiteCarrier 72) 72 3 3).map (fun r => r.visited)
      = some [0, 3, 6, 9, 12, 15, 18, 21, 24, 27, 30] ∧
    ¬ (9 % 12 + 3 ≤ 3 * 3) := by
  decide

/-- C9 on a failing input: width 1, row padding 1 (row stride 4), a 72-byte
carrier, extension `txt`, a 2-byte payload.  The embedding loops write 11
pixels, not 8 + 3 + 2 = 13: the length loop ends after 6 pixels, when the
cursor, which also counts the padding jumps, has reached 24. -/
theorem pixels_written_width_1 :
    (encodeDataFileContentsLoops [116, 120, 116, 0] (whiteCarrier 72) [0xAB, 0xCD] 1 1).map
      (fun s => s.visited) = some [1, 5, 9, 13, 17, 21, 25, 29, 33, 37, 41] ∧
    ([1, 5, 9, 13, 17, 21, 25, 29, 33, 37, 41] : List Nat).length = 6 + 3 + 2 := by
  decide

/-- C10 on a failing input: width 7, row padding 3 (row stride 24), a 72-byte
carrier, extension `txt`, payload length 1.  The length loop writes 7 pixels;
the eighth pixel reached by the cursor, at offset 24, carries the first
extension byte `t` (116), not the byte `(1 >> 56) & 0xFF = 0` of the length. -/
theorem length_field_width_7 :
    (encodeDataFileContentsLoops [116, 120, 116, 0] (whiteCarrier 72) [0xAB] 7 3).map
      (fun s => s.visited) = some [0, 3, 9, 12, 15, 18, 21, 24, 30, 33, 36] ∧
    ((encodeDataFileContentsLoops [116, 120, 116, 0] (whiteCarrier 72) [0xAB] 7 3).bind
      fun s => readPixel s.pData 24) = some 116 ∧
    (1 >>> (8 * 7)) &&& 0xFF = 0 := by
  decide

/-- C11 on a failing input: the 72-byte buffer `bit31Buffer` (width 4, no
padding), whose eight length pixels carry the bytes `0, 0, 0, 0x80, 0, 0, 0,
0`, the little-endian value `2 ^ 31`.  `parseEncodedData` accepts the buffer
and returns the size `2 ^ 64 - 2 ^ 31`: the fragment `(red & 3) << 30` is
formed in `int`, and the negative `int` is sign-extended by the `|=`. -/
theorem length_field_bit_31 :
    (byteLoop bit31Buffer 4 0 8 ⟨[], 0, []⟩).map
      (fun d => (d.decoded, littleEndianValue d.decoded))
      = some ([0, 0, 0, 128, 0, 0, 0, 0], 2 ^ 31) ∧
    (parseEncodedData bit31Buffer 72 0 4).map
      (fun r => (r.errRtn, r.encodedDataSize))
      = some (tError.success, 2 ^ 64 - 2 ^ 31) := by
  decide

/-- C12 as amended (no bounds check on extraction).  When `parseEncodedData`
has accepted a pixel buffer and the length `N` it returned exceeds the pixels
that remain after the header, `start + 3 * N > pixelDataSize`, `decodeData`
run with `N` and the returned start index does not end with a status: it
reads a pixel outside the buffer (`none`). -/
theorem extract_has_no_bounds_check (q : List Nat) (len w p : Nat) (r : ParseOut)
    (hp : parseEncodedData q len p w = some r) (hs : r.errRtn = tError.success)
    (hN : q.length < r.startOfEncodedDataIndex + 3 * r.encodedDataSize) :
    decodeData q r.encodedDataSize r.startOfEncodedDataIndex w p = none := by
  obtain ⟨_, s, e, _, h2, rfl⟩ := parseEncodedData_success hp hs
  obtain ⟨_, hb, _⟩ := byteLoop_bounds _ _ _ _ _ _ h2
  simp only [] at hN
  cases hd : decodeData q s.encodedDataSize e.index w p with
  | none => rfl
  | some d =>
    unfold decodeData at hd
    obtain ⟨h1, h3, _⟩ := byteLoop_bounds _ _ _ _ _ _ hd
    simp only [] at h1
    rcases hb with hb | hb
    · exact absurd hb (by decide)
    · rcases h3 with h3 | h3
      · rw [h3] at hN
        omega
      · omega

/-- Witness of C12 as amended: `length14Buffer`, 72 bytes, whose length field
is 14 while 13 pixels remain after the header. -/
theorem extract_has_no_bounds_check_witness :
    parseEncodedData length14Buffer 72 0 4
      = some ⟨tError.success, 33, [0, 0, 0], 14, [0, 3, 6, 9, 12, 15, 18, 21, 24, 27, 30]⟩ ∧
    length14Buffer.length < 33 + 3 * 14 ∧
    decodeData length14Buffer 14 33 4 0 = none :=
  ⟨by decide, by decide,
    extract_has_no_bounds_check length14Buffer 72 4 0
      ⟨tError.success, 33, [0, 0, 0], 14, [0, 3, 6, 9, 12, 15, 18, 21, 24, 27, 30]⟩
      (by decide) rfl (by decide)⟩

/-- Counterexample to C12 as stated: a 4 x 6 bitmap file whose pixel data is
`length14Buffer`.  The embedded length 14 exceeds the 13 pixels that remain
after the 11 header pixels; `parseEncodedData` returns `success`, and
`decoding` ends in `decodeData` with a read outside the buffer instead of
returning an error status. -/
theorem extract_reads_past_buffer :
    (72 - 33) / 3 < 14 ∧
    (parseEncodedData length14Buffer 72 0 4).map
      (fun r => (r.errRtn, r.encodedDataSize, r.startOfEncodedDataIndex))
      = some (tError.success, 14, 33) ∧
    decoding (exampleWorld (some (exampleHeader 66 77 126 4 6 24 ++ length14Buffer)) []
      none) = none := by
  decide

theorem parseEncodedData_large (q : List Nat) (w p : Nat) (hw : 1 ≤ w) (hp : p ≤ 3)
    (hwp : p = 3 → 2 ≤ w) (hlen : 65 ≤ q.length) :
    ∃ r, parseEncodedData q q.length p w = some r ∧ r.errRtn = tError.success ∧
      r.extension.length = 3 ∧ r.visited.length = 11 ∧
      r.startOfEncodedDataIndex ≤ q.length := by
  by_cases h3 : p = 3
  · subst h3
    have hw2 := hwp rfl
    have hc : checkPadding 0 w 3 = some 0 := by
      unfold checkPadding
      have h0 : w ≠ 0 := by omega
      have h1 : (0 + 1) % w ≠ 0 := by
        rw [Nat.mod_eq_of_lt (by omega)]
        omega
      rw [if_neg h0, if_neg h1]
    have g0 := getElem?_eq_some_getD q (0 + BLUE) (by simp only [BLUE]; omega)
    have g1 := getElem?_eq_some_getD q (0 + GREEN) (by simp only [GREEN]; omega)
    have g2 := getElem?_eq_some_getD q (0 + RED) (by simp only [RED]; omega)
    obtain ⟨s, hs, hi, hv⟩ := sizeLoop_succeeds q w 3 hw 7 ⟨0 + 3, 0 + 8,
      ((0 ||| shlInt (q.getD (0 + BLUE) 0 &&& BLUE_BITMASK) 0)
        ||| shlInt (q.getD (0 + GREEN) 0 &&& GREEN_BITMASK) (0 + 3))
        ||| shlInt (q.getD (0 + RED) 0 &&& RED_BITMASK) (0 + 6), [] ++ [0]⟩
      (by simp only []; omega)
    have hs8 : sizeLoop q w 3 8 ⟨0, 0, 0, []⟩ = some s := by
      rw [sizeLoop_succ, hc]
      simp only [Option.bind, g0, g1, g2]
      exact hs
    simp only [List.length_append, List.length_cons, List.length_nil] at hi hv
    obtain ⟨e, he, hei, hed, hev⟩ := byteLoop_succeeds q w 3 hw 3
      ⟨[], s.dataIndex, s.visited⟩ (by simp only []; omega)
    simp only [List.length_nil] at hei hed hev
    exact ⟨_, parseEncodedData_of_loops hlen hs8 he, rfl, by simp only []; omega,
      by simp only []; omega, by simp only []; omega⟩
  · have hp2 : p ≤ 2 := by omega
    have hroom : 11 * (3 + p) ≤ q.length := by omega
    obtain ⟨s, hs, hi, hv⟩ := sizeLoop_succeeds q w p hw 8 ⟨0, 0, 0, []⟩
      (by simp only []; omega)
    simp only [List.length_nil] at hi hv
    obtain ⟨e, he, hei, hed, hev⟩ := byteLoop_succeeds q w p hw 3
      ⟨[], s.dataIndex, s.visited⟩ (by simp only []; omega)
    simp only [List.length_nil] at hei hed hev
    exact ⟨_, parseEncodedData_of_loops hlen hs he, rfl, by simp only []; omega,
      by simp only []; omega, by simp only []; omega⟩

/-- C13 as amended (minimum size on extraction).  For a width of at least 1
and a row padding in 0..3 (padding 3 only with a width of at least 2, as for
every bitmap row), `parseEncodedData` on a buffer of `pixelDataSize` bytes
fails with `errorSize`, nothing decoded, exactly when `pixelDataSize` is below
65 = 14 + 40 + 8 + 3; otherwise it returns `success` after reading 11 pixels,
with the 3 extension bytes and a start index inside the buffer. -/
theorem extract_minimum_size (q : List Nat) (w p : Nat) (hw : 1 ≤ w) (hp : p ≤ 3)
    (hwp : p = 3 → 2 ≤ w) :
    ∃ r, parseEncodedData q q.length p w = some r ∧
      (r.errRtn = tError.errorSize ↔
        q.length < sizeofBitmapFileHeader + sizeofBitmapInfoHeader + DATA_SIZE
          + EXTENSION_SIZE) ∧
      (q.length < 65 → r = ⟨tError.errorSize, 0, [0, 0, 0], 0, []⟩) ∧
      (65 ≤ q.length → r.errRtn = tError.success ∧ r.extension.length = 3 ∧
        r.visited.length = 11 ∧ r.startOfEncodedDataIndex ≤ q.length) := by
  have e65 : sizeofBitmapFileHeader + sizeofBitmapInfoHeader + DATA_SIZE + EXTENSION_SIZE
      = 65 := rfl
  rw [e65]
  by_cases hlen : q.length < 65
  · refine ⟨_, parseEncodedData_small q q.length p w hlen, ?_, fun _ => rfl, ?_⟩
    · exact ⟨fun _ => hlen, fun _ => rfl⟩
    · intro h
      omega
  · obtain ⟨r, hr, hs, h3, h11, hi⟩ := parseEncodedData_large q w p hw hp hwp (by omega)
    refine ⟨r, hr, ?_, ?_, fun _ => ⟨hs, h3, h11, hi⟩⟩
    · constructor
      · intro h
        rw [hs] at h
        exact absurd h (by decide)
      · intro h
        exact absurd h hlen
    · intro h
      exact absurd h hlen

/-- Witness of C13 as amended: a 72-byte buffer, width 4, no padding. -/
theorem extract_minimum_size_witness :
    1 ≤ 4 ∧ 0 ≤ 3 ∧ ((0 : Nat) = 3 → 2 ≤ 4) ∧
    ∃ r, parseEncodedData (whiteCarrier 72) (whiteCarrier 72).length 0 4 = some r ∧
      (r.errRtn = tError.errorSize ↔
        (whiteCarrier 72).length < sizeofBitmapFileHeader + sizeofBitmapInfoHeader
          + DATA_SIZE + EXTENSION_SIZE) ∧
      ((whiteCarrier 72).length < 65 → r = ⟨tError.errorSize, 0, [0, 0, 0], 0, []⟩) ∧
      (65 ≤ (whiteCarrier 72).length → r.errRtn = tError.success ∧ r.extension.length = 3 ∧
        r.visited.length = 11 ∧ r.startOfEncodedDataIndex ≤ (whiteCarrier 72).length) :=
  ⟨by decide, by decide, by decide,
    extract_minimum_size (whiteCarrier 72) 4 0 (by decide) (by decide) (by decide)⟩

/-- Counterexample to C13 as stated: a buffer of 48 bytes (16 pixels, width 4,
no padding) is not smaller than the 33 bytes of 11 pixels, and
`parseEncodedData` fails with `errorSize`. -/
theorem extract_rejects_48_bytes :
    ¬ ((whiteCarrier 48).length < 11 * 3) ∧
    parseEncodedData (whiteCarrier 48) (whiteCarrier 48).length 0 4
      = some ⟨tError.errorSize, 0, [0, 0, 0], 0, []⟩ := by
  decide

/-- C14 as amended (row geometry).  For every width the row padding computed
by `parseBitmap` lies in [0,3]; for every width whose rounded row size
`roundUpTo4(width * 3)` fits in 32 bits (width at most 1431655764) the row
stride `widthBytes` is the smallest multiple of 4 that is at least
`width * 3`, and the padding is `stride - width * 3`. -/
theorem row_geometry (width : Nat) :
    rowPadding width ≤ 3 ∧
    (roundUpTo4 (width * 3) < 2 ^ 32 →
      widthBytes width = roundUpTo4 (width * 3) ∧
      4 ∣ widthBytes width ∧ width * 3 ≤ widthBytes width ∧
      (∀ m, 4 ∣ m → width * 3 ≤ m → widthBytes width ≤ m) ∧
      rowPadding width = widthBytes width - width * 3) := by
  refine ⟨rowPadding_le width, ?_⟩
  intro h
  obtain ⟨hm, hw⟩ := widthBytes_eq_roundUpTo4 width h
  have hlt := widthBytes_lt width
  refine ⟨hw, ?_, ?_, ?_, ?_⟩
  · rw [hw]
    unfold roundUpTo4
    exact Dvd.intro_left _ rfl
  · rw [hw]
    unfold roundUpTo4
    omega
  · intro m hm4 hle
    rw [hw]
    unfold roundUpTo4
    omega
  · unfold rowPadding
    simp only [BYTES_IN_PIXEL]
    rw [wrap_sub _ _ (mul32_lt width 3) hlt, hm, hw]
    unfold roundUpTo4
    rw [if_pos (by omega)]
    omega

/-- Witness of C14 as amended: width 3 gives stride 12 and padding 3 (and
width 4 gives stride 12 and padding 0). -/
theorem row_geometry_witness :
    roundUpTo4 (3 * 3) < 2 ^ 32 ∧ widthBytes 3 = 12 ∧ rowPadding 3 = 3 ∧
    widthBytes 4 = 12 ∧ rowPadding 4 = 0 ∧
    rowPadding 3 ≤ 3 ∧
    (widthBytes 3 = roundUpTo4 (3 * 3) ∧
      4 ∣ widthBytes 3 ∧ 3 * 3 ≤ widthBytes 3 ∧
      (∀ m, 4 ∣ m → 3 * 3 ≤ m → widthBytes 3 ≤ m) ∧
      rowPadding 3 = widthBytes 3 - 3 * 3) :=
  ⟨by decide, by decide, by decide, by decide, by decide, (row_geometry 3).1,
    (row_geometry 3).2 (by decide)⟩

/-- Counterexample to C14 as stated: the 32-bit width 1431655765.  The product
`width * 3 = 2 ^ 32 - 1` is rounded up in `uint32_t` and wraps: `parseBitmap`
computes the stride 0, which is not at least `width * 3`, with padding 1. -/
theorem row_stride_wraps :
    1431655765 < 2 ^ 32 ∧ widthBytes 1431655765 = 0 ∧ rowPadding 1431655765 = 1 ∧
    ¬ (1431655765 * 3 ≤ widthBytes 1431655765) := by
  decide

/-- C15 as amended (pixel data size).  `parseBitmap` forms
`widthBytes * height` in 32 bits: the size it returns is always below
`2 ^ 32`, and it equals the exact product `roundUpTo4(width * 3) * height`
whenever that product is below `2 ^ 32`. -/
theorem pixel_data_size (width height : Nat) :
    sizeOfData width height < 2 ^ 32 ∧
    (roundUpTo4 (width * 3) * height < 2 ^ 32 →
      sizeOfData width height = roundUpTo4 (width * 3) * height) := by
  refine ⟨mul32_lt _ _, ?_⟩
  intro h
  unfold sizeOfData
  by_cases h0 : height = 0
  · subst h0
    simp [mul32]
  · have hr : roundUpTo4 (width * 3) < 2 ^ 32 :=
      lt_of_le_of_lt (Nat.le_mul_of_pos_right _ (by omega)) h
    rw [(widthBytes_eq_roundUpTo4 width hr).2]
    exact Nat.mod_eq_of_lt h

/-- Witness of C15 as amended: a row of 3 pixels (stride 12) and 2 rows give
24 bytes. -/
theorem pixel_data_size_witness :
    roundUpTo4 (3 * 3) * 2 < 2 ^ 32 ∧ sizeOfData 3 2 = 24 ∧
    sizeOfData 3 2 < 2 ^ 32 ∧ sizeOfData 3 2 = roundUpTo4 (3 * 3) * 2 :=
  ⟨by decide, by decide, (pixel_data_size 3 2).1, (pixel_data_size 3 2).2 (by decide)⟩

/-- Counterexample to C15 as stated: width 40000 and height 40000.  The exact
product `roundUpTo4(120000) * 40000 = 4800000000` does not fit in 32 bits;
`parseBitmap` returns it reduced modulo `2 ^ 32`, 505032704. -/
theorem pixel_data_size_wraps :
    40000 < 2 ^ 32 ∧ roundUpTo4 (40000 * 3) * 40000 = 4800000000 ∧
    sizeOfData 40000 40000 = 505032704 := by
  decide

/-- C16 on failing inputs: the file names `a.g` (extension of 1 character) and
`a.` (extension of 0 characters).  The extension string is `g` plus its
terminator, respectively the terminator alone, and the extension loop reads
`extension[0..2]` whatever the string holds: the third, respectively the
second and third, byte read lies past the terminator (`none`), so what the
pixels receive there is not a NUL of the string.  The names `a.gz` and `a`
are stored as `g`, `z`, NUL and as three NULs and recovered as `gz` and as
the empty string. -/
theorem extension_read_past_terminator :
    extensionOf [97, 46, 103] = [103, 0] ∧
    encodeDataFileContents [0xAB] [97, 46, 103] (whiteCarrier 72) 72 4 0 true true = none ∧
    extensionOf [97, 46] = [0] ∧
    encodeDataFileContents [0xAB] [97, 46] (whiteCarrier 72) 72 4 0 true true = none ∧
    ((encodeDataFileContents [0xAB] [97, 46, 103, 122] (whiteCarrier 72) 72 4 0 true
      true).bind fun e => (parseEncodedData e.2 72 0 4).map
        fun r => (r.extension, cString r.extension)) = some ([103, 122, 0], [103, 122]) ∧
    ((encodeDataFileContents [0xAB] [97] (whiteCarrier 72) 72 4 0 true true).bind
      fun e => (parseEncodedData e.2 72 0 4).map
        fun r => (r.extension, cString r.extension)) = some ([0, 0, 0], []) := by
  decide

set_option maxRecDepth 100000 in
/-- C17 on failing inputs: `main` with three arguments (encoding).  For a
4 x 6 bitmap file with 32 bits per pixel the chain of `encoding` ends with
`errRtn = errorFileType`, and for a 24-bit one with a 100-byte data file it
ends with `errRtn = errorSize`; in both cases `encoding` returns `success`
and `main` returns 0.  With two arguments (decoding) the 32-bit file gives
the status 9, and any other argument count gives 1. -/
theorem main_returns_zero_on_failed_encoding :
    (encodingChain (exampleWorld (some (exampleBitmap 66 77 32)) [97, 46, 116, 120, 116]
      (some [0xAB]))).map (fun c => c.errRtn) = some tError.errorFileType ∧
    main 3 (exampleWorld (some (exampleBitmap 66 77 32)) [97, 46, 116, 120, 116]
      (some [0xAB])) = some 0 ∧
    (encodingChain (exampleWorld (some (exampleBitmap 66 77 24)) [97, 46, 116, 120, 116]
      (some (List.replicate 100 1)))).map (fun c => c.errRtn) = some tError.errorSize ∧
    main 3 (exampleWorld (some (exampleBitmap 66 77 24)) [97, 46, 116, 120, 116]
      (some (List.replicate 100 1))) = some 0 ∧
    main 2 (exampleWorld (some (exampleBitmap 66 77 32)) [] none) = some 9 ∧
    main 1 (exampleWorld none [] none) = some 1 ∧
    main 4 (exampleWorld none [] none) = some 1 := by
  decide

theorem parseBitmap_of_headers (file : List Nat) (h : 54 ≤ file.length) :
    parseBitmap file true = ⟨tError.success, le32 file 18, le32 file 22, le16 file 28,
      rowPadding (le32 file 18), sizeOfData (le32 file 18) (le32 file 22)⟩ := by
  unfold parseBitmap
  simp only [sizeofBitmapFileHeader, sizeofBitmapInfoHeader]
  rw [if_neg (by simp), if_neg (by omega), if_neg (by omega)]

/-- C18 as amended (format rejection).  A carrier whose first two bytes are
not `BM`, and a carrier that starts with `BM`, has its 54 header bytes read
and has `bitsPerPixel != 24`, are both rejected with the same status
`errorFileType`: the chain of `decoding` ends with `errRtn = errorFileType`
without calling `parseEncodedData` and without output, `decoding` returns
`errorFileType` when its `fclose` succeeds, and the chain of `encoding` (for
the bit depth: once the data file is open) ends with `errRtn = errorFileType`
without calling `encodeDataFileContents` and without output. -/
theorem format_rejection (w : World) (file : List Nat) (hf : w.bitmapFile = some file)
    (hbad : magicMismatch file = true ∨
      (magicMismatch file = false ∧ w.parseBitmapFseek = true ∧ 54 ≤ file.length ∧
        le16 file 28 ≠ 24 ∧ w.dataFile.isSome)) :
    (∃ c, decodingChain w = some c ∧ c.errRtn = tError.errorFileType ∧
      c.codecRan = false ∧ c.output = none) ∧
    (w.bitmapFclose = true → decoding w = some tError.errorFileType) ∧
    (∃ c, encodingChain w = some c ∧ c.errRtn = tError.errorFileType ∧
      c.codecRan = false ∧ c.output = none) := by
  have hd : decodingChain w = some ⟨tError.errorFileType, false, false, none⟩ := by
    unfold decodingChain
    rw [hf]
    rcases hbad with hm | ⟨hm, hs, hl, hb, _⟩
    · simp only [hm, if_true]
    · simp only [hm, hs, parseBitmap_of_headers file hl]
      simp [hb]
  refine ⟨⟨_, hd, rfl, rfl, rfl⟩, ?_, ?_⟩
  · intro hc
    unfold decoding
    rw [hd]
    simp [hc]
  · unfold encodingChain
    rw [hf]
    rcases hbad with hm | ⟨hm, hs, hl, hb, hdata⟩
    · exact ⟨⟨tError.errorFileType, false, false, none⟩, by simp only [hm, if_true],
        rfl, rfl, rfl⟩
    · obtain ⟨data, hdata⟩ := Option.isSome_iff_exists.1 hdata
      refine ⟨⟨tError.errorFileType, false, true, none⟩, ?_, rfl, rfl, rfl⟩
      simp only [hm, hs, hdata, parseBitmap_of_headers file hl]
      simp [hb]

set_option maxRecDepth 100000 in
/-- Witness of C18 as amended: a 4 x 6 bitmap file with 32 bits per pixel and
a 1-byte data file. -/
theorem format_rejection_witness :
    (exampleWorld (some (exampleBitmap 66 77 32)) [97, 46, 116, 120, 116]
      (some [0xAB])).bitmapFile = some (exampleBitmap 66 77 32) ∧
    (magicMismatch (exampleBitmap 66 77 32) = false ∧ 54 ≤ (exampleBitmap 66 77 32).length ∧
      le16 (exampleBitmap 66 77 32) 28 ≠ 24) ∧
    ((∃ c, decodingChain (exampleWorld (some (exampleBitmap 66 77 32))
        [97, 46, 116, 120, 116] (some [0xAB])) = some c ∧
      c.errRtn = tError.errorFileType ∧ c.codecRan = false ∧ c.output = none) ∧
    ((exampleWorld (some (exampleBitmap 66 77 32)) [97, 46, 116, 120, 116]
      (some [0xAB])).bitmapFclose = true →
      decoding (exampleWorld (some (exampleBitmap 66 77 32)) [97, 46, 116, 120, 116]
        (some [0xAB])) = some tError.errorFileType) ∧
    (∃ c, encodingChain (exampleWorld (some (exampleBitmap 66 77 32))
        [97, 46, 116, 120, 116] (some [0xAB])) = some c ∧
      c.errRtn = tError.errorFileType ∧ c.codecRan = false ∧ c.output = none)) :=
  ⟨by decide, by decide,
    format_rejection (exampleWorld (some (exampleBitmap 66 77 32)) [97, 46, 116, 120, 116]
      (some [0xAB])) (exampleBitmap 66 77 32) (by decide) (Or.inr (by decide))⟩

set_option maxRecDepth 100000 in
/-- Counterexample to C18 as stated: `decoding` rejects a file that starts
with `PK` and a `BM` file with 32 bits per pixel with one and the same status,
`errorFileType` (9): the two error kinds are not distinct. -/
theorem format_errors_not_distinct :
    magicMismatch (exampleBitmap 80 75 24) = true ∧
    decoding (exampleWorld (some (exampleBitmap 80 75 24)) [] none)
      = some tError.errorFileType ∧
    magicMismatch (exampleBitmap 66 77 32) = false ∧
    le16 (exampleBitmap 66 77 32) 28 = 32 ∧
    decoding (exampleWorld (some (exampleBitmap 66 77 32)) [] none)
      = some tError.errorFileType := by
  decide

/-- C19 (cursor monotonicity).  For every width and padding: the offsets
visited by a completed run of the embedding loops of `encodeDataFileContents`,
and the offsets visited by a completed `parseEncodedData` followed by a
completed `decodeData` from the start index it returned, are strictly
increasing, consecutive offsets differ by at least 3, and no offset occurs
twice. -/
theorem cursor_monotone (width padding : Nat) :
    (∀ (extension pData dataToEncode : List Nat) (out : EncState),
      encodeDataFileContentsLoops extension pData dataToEncode width padding = some out →
      out.visited.Pairwise (· < ·) ∧ out.visited.Chain' (fun a b => a + 3 ≤ b) ∧
        out.visited.Nodup) ∧
    (∀ (q : List Nat) (len n : Nat) (r : ParseOut) (d : DecState),
      parseEncodedData q len padding width = some r →
      decodeData q n r.startOfEncodedDataIndex width padding = some d →
      (r.visited ++ d.visited).Pairwise (· < ·) ∧
        (r.visited ++ d.visited).Chain' (fun a b => a + 3 ≤ b) ∧
        (r.visited ++ d.visited).Nodup) := by
  constructor
  · intro extension pData dataToEncode out h
    exact (encodeLoops_invariant (fun s => CursorOrdered s.visited s.dataIndex) width padding
      (stepByte_ordered width padding) h ⟨List.Pairwise.nil, by simp⟩).facts
  · intro q len n r d hp hd
    unfold decodeData at hd
    exact (byteLoop_ordered q width padding r.visited _ _ _ hd
      (by simpa using parseEncodedData_ordered hp)).facts

/-- Witness of C19: width 2 with row padding 2, a 72-byte carrier, extension
`txt`, payload `0xAB`; extraction of one payload byte from the same carrier. -/
theorem cursor_monotone_witness :
    (encodeDataFileContentsLoops [116, 120, 116, 0] (whiteCarrier 72) [0xAB] 2 2).map
      (fun s => s.visited) = some [0, 5, 8, 13, 16, 21, 24, 29, 32, 37] ∧
    ([0, 5, 8, 13, 16, 21, 24, 29, 32, 37] : List Nat).Pairwise (· < ·) ∧
    (parseEncodedData (whiteCarrier 72) 72 2 2).map
      (fun r => (r.visited, r.startOfEncodedDataIndex))
      = some ([0, 5, 8, 13, 16, 21, 24, 29, 32, 37, 40], 43) ∧
    (decodeData (whiteCarrier 72) 1 43 2 2).map (fun d => d.visited) = some [45] ∧
    (([0, 5, 8, 13, 16, 21, 24, 29, 32, 37, 40] : List Nat) ++ [45]).Nodup := by
  have hE : encodeDataFileContentsLoops [116, 120, 116, 0] (whiteCarrier 72) [0xAB] 2 2
      = some ⟨[249, 248, 252, 255, 255, 248, 248, 252, 248, 248, 252, 255, 255, 248, 248,
        252, 248, 248, 252, 255, 255, 248, 248, 252, 252, 254, 253, 255, 255, 248, 255,
        253, 252, 254, 253, 255, 255, 251, 253, 254, 255, 255, 255, 255, 255, 255, 255,
        255, 255, 255, 255, 255, 255, 255, 255, 255, 255, 255, 255, 255, 255, 255, 255,
        255, 255, 255, 255, 255, 255, 255, 255, 255],
        40, [0, 5, 8, 13, 16, 21, 24, 29, 32, 37]⟩ := by decide
  have hP : parseEncodedData (whiteCarrier 72) 72 2 2
      = some ⟨tError.success, 43, [255, 255, 255], 18446744073709551615,
        [0, 5, 8, 13, 16, 21, 24, 29, 32, 37, 40]⟩ := by decide
  have hD : decodeData (whiteCarrier 72) 1 43 2 2 = some ⟨[255], 48, [45]⟩ := by decide
  refine ⟨by rw [hE]; rfl, ((cursor_monotone 2 2).1 _ _ _ _ hE).1, by rw [hP]; rfl,
    by rw [hD]; rfl, ((cursor_monotone 2 2).2 _ 72 1 _ _ hP hD).2.2⟩

/-- C20 (decoded file name).  For every extension buffer whose string has at
most 3 characters, `createOutputFile` names the file `decoded.` followed by
the string when it is not empty and `decoded` when it is empty, and the name
with its terminator fits the buffer of `OUTPUT_NAME_SIZE` = 15 bytes, so that
`snprintf` does not truncate it. -/
theorem output_file_name (extension : List Nat) (h : (cString extension).length ≤ 3) :
    outputFileName extension =
      (if cString extension = [] then decodedName
        else decodedName ++ [46] ++ cString extension) ∧
    (decodedName ++ [46] ++ cString extension).length + 1 ≤ OUTPUT_NAME_SIZE ∧
    (outputFileName extension).length + 1 ≤ OUTPUT_NAME_SIZE := by
  have hl : (decodedName ++ [46] ++ cString extension).length ≤ 11 := by
    simp only [List.length_append, decodedName, List.length_cons, List.length_nil]
    omega
  have hname : outputFileName extension =
      (if cString extension = [] then decodedName
        else decodedName ++ [46] ++ cString extension) := by
    unfold outputFileName
    by_cases he : cString extension = []
    · simp [he]
    · have hne : (cString extension).length ≠ 0 := by
        intro h0
        exact he (List.length_eq_zero.1 h0)
      rw [if_pos hne, if_neg he]
      exact List.take_of_length_le (by simp only [OUTPUT_NAME_SIZE]; omega)
  refine ⟨hname, by simp only [OUTPUT_NAME_SIZE]; omega, ?_⟩
  rw [hname]
  split
  · decide
  · simp only [OUTPUT_NAME_SIZE]
    omega

/-- Witness of C20: the extension buffer `g`, `z`, NUL gives `decoded.gz`. -/
theorem output_file_name_witness :
    (cString [103, 122, 0]).length ≤ 3 ∧
    outputFileName [103, 122, 0] = [100, 101, 99, 111, 100, 101, 100, 46, 103, 122] ∧
    outputFileName [0, 0, 0] = decodedName ∧
    (outputFileName [103, 122, 0] =
      (if cString [103, 122, 0] = [] then decodedName
        else decodedName ++ [46] ++ cString [103, 122, 0]) ∧
    (decodedName ++ [46] ++ cString [103, 122, 0]).length + 1 ≤ OUTPUT_NAME_SIZE ∧
    (outputFileName [103, 122, 0]).length + 1 ≤ OUTPUT_NAME_SIZE) :=
  ⟨by decide, by decide, by decide, output_file_name [103, 122, 0] (by decide)⟩

/-- C21 (per-pixel inverse).  For every byte `D`, every buffer and every
pixel offset `c` inside it, whatever the three bytes of the pixel were: the
encoder's clear-then-OR write of `D` (`zeroPixel`, then `orPixel` with the
three fragments of `D`) completes, and the decoder's recombination
`(blue & 0x07) | ((green & 0x07) << 3) | ((red & 0x03) << 6)`, kept to 8 bits,
of the pixel it produced is exactly `D`. -/
theorem per_pixel_inverse (pData : List Nat) (c D : Nat) (hD : D < 256)
    (hc : c + 2 < pData.length) :
    ∃ q, (zeroPixel pData c).bind (fun z =>
        orPixel z c (D &&& BLUE_BITMASK) ((D >>> BLUE_BITS) &&& GREEN_BITMASK)
          ((D >>> (BLUE_BITS + GREEN_BITS)) &&& RED_BITMASK)) = some q ∧
      readPixel q c = some D := by
  refine ⟨putPixel pData c D, writeByte_of_lt pData c D hc, ?_⟩
  have h := readPixel_of_holds (putPixel pData c D) c D
    (by rw [putPixel_length]; exact hc) (putPixel_holds pData c D hc)
  rw [Nat.mod_eq_of_lt hD] at h
  exact h

/-- Witness of C21: the byte `0xAB` written to and read from a white pixel. -/
theorem per_pixel_inverse_witness :
    0xAB < 256 ∧ 0 + 2 < ([255, 255, 255] : List Nat).length ∧
    ∃ q, (zeroPixel [255, 255, 255] 0).bind (fun z =>
        orPixel z 0 (0xAB &&& BLUE_BITMASK) ((0xAB >>> BLUE_BITS) &&& GREEN_BITMASK)
          ((0xAB >>> (BLUE_BITS + GREEN_BITS)) &&& RED_BITMASK)) = some q ∧
      readPixel q 0 = some 0xAB :=
  ⟨by decide, by decide, per_pixel_inverse [255, 255, 255] 0 0xAB (by decide) (by decide)⟩

/-- C22 (round trip without padding).  For every width that is a non-zero
multiple of 4, `parseBitmap` gives the row padding 0, and for every carrier of
at least 65 bytes, every payload `P` of bytes with
`3 * (11 + len(P)) ≤ pixelDataSize` and `len(P) < 2 ^ 31`, and every extension
of at most 3 non-NUL characters, held NUL-padded in the 3 bytes that the
extension loop reads: the embedding loops complete, `parseEncodedData` returns
`success` with the size `len(P)`, the extension (its 3 bytes, whose string is
the characters) and the start index 33, and `decodeData` from that index
returns exactly `P`. -/
theorem round_trip_width_multiple_of_4 (width : Nat) (pData chars payload : List Nat)
    (hw0 : width ≠ 0) (hw4 : width % 4 = 0) (hmin : 65 ≤ pData.length)
    (hchars : chars.length ≤ 3) (hnul : ∀ b ∈ chars, b ≠ 0) (hcb : ∀ b ∈ chars, b < 256)
    (hpay : ∀ b ∈ payload, b < 256)
    (hfit : 3 * (11 + payload.length) ≤ pData.length) (hL : payload.length < 2 ^ 31) :
    rowPadding width = 0 ∧
    ∃ out r d,
      encodeDataFileContentsLoops (chars ++ List.replicate (3 - chars.length) 0) pData
        payload width (rowPadding width) = some out ∧
      parseEncodedData out.pData pData.length (rowPadding width) width = some r ∧
      r.errRtn = tError.success ∧ r.encodedDataSize = payload.length ∧
      r.extension = chars ++ List.replicate (3 - chars.length) 0 ∧
      cString r.extension = chars ∧ r.startOfEncodedDataIndex = 33 ∧
      decodeData out.pData r.encodedDataSize 33 width (rowPadding width) = some d ∧
      d.decoded = payload := by
  have hp := rowPadding_of_multiple_of_4 width hw4
  refine ⟨hp, ?_⟩
  rw [hp]
  have hlen : (chars ++ List.replicate (3 - chars.length) 0).length = 3 := by
    simp only [List.length_append, List.length_replicate]
    omega
  have hb : ∀ b ∈ chars ++ List.replicate (3 - chars.length) 0, b < 256 := by
    intro b hb
    rcases List.mem_append.1 hb with hb | hb
    · exact hcb b hb
    · rw [(List.mem_replicate.1 hb).2]
      norm_num
  obtain ⟨out, r, d, he, hpr, hs, hx, hn, hi, hd, hdd⟩ :=
    round_trip_fit width pData _ payload (by omega) hmin hlen hb hpay (by omega) hL
  refine ⟨out, r, d, he, hpr, hs, hn, hx, ?_, hi, ?_, hdd⟩
  · rw [hx]
    exact cString_append_zeros chars _ hnul
  · rw [hi] at hd
    exact hd

/-- Witness of C22: width 4, a 72-byte carrier, extension `gz`, payload
`0xAB 0xCD`. -/
theorem round_trip_width_multiple_of_4_witness :
    (4 : Nat) ≠ 0 ∧ 4 % 4 = 0 ∧ 65 ≤ (whiteCarrier 72).length ∧
    ([103, 122] : List Nat).length ≤ 3 ∧ (∀ b ∈ [103, 122], b ≠ 0) ∧
    (∀ b ∈ [103, 122], b < 256) ∧ (∀ b ∈ [0xAB, 0xCD], b < 256) ∧
    3 * (11 + ([0xAB, 0xCD] : List Nat).length) ≤ (whiteCarrier 72).length ∧
    ([0xAB, 0xCD] : List Nat).length < 2 ^ 31 ∧
    (rowPadding 4 = 0 ∧
    ∃ out r d,
      encodeDataFileContentsLoops ([103, 122] ++ List.replicate (3 - [103, 122].length) 0)
        (whiteCarrier 72) [0xAB, 0xCD] 4 (rowPadding 4) = some out ∧
      parseEncodedData out.pData (whiteCarrier 72).length (rowPadding 4) 4 = some r ∧
      r.errRtn = tError.success ∧ r.encodedDataSize = ([0xAB, 0xCD] : List Nat).length ∧
      r.extension = [103, 122] ++ List.replicate (3 - [103, 122].length) 0 ∧
      cString r.extension = [103, 122] ∧ r.startOfEncodedDataIndex = 33 ∧
      decodeData out.pData r.encodedDataSize 33 4 (rowPadding 4) = some d ∧
      d.decoded = [0xAB, 0xCD]) :=
  ⟨by decide, by decide, by decide, by decide, by decide, by decide, by decide, by decide,
    by decide,
    round_trip_width_multiple_of_4 4 (whiteCarrier 72) [103, 122] [0xAB, 0xCD] (by decide)
      (by decide) (by decide) (by decide) (by decide) (by decide) (by decide) (by decide)
      (by decide)⟩

/-- C23 (frame of embed).  Whenever `encodeDataFileContents` returns (no access
outside the buffers), the pixel buffer keeps its length, and either the status
is an error and the buffer is untouched, or the status is `success`, the
embedding loops completed, and every byte that is not the blue, green or red
byte of a pixel offset visited by the cursor is the same before and after;
every visited pixel lies below the final cursor, so this includes every byte
from the final cursor on. -/
theorem embed_frame (dataToEncode dataFileName pData : List Nat)
    (dataSize width padding : Nat) (fseekOk mallocOk : Bool) (e : tError) (q : List Nat)
    (h : encodeDataFileContents dataToEncode dataFileName pData dataSize width padding
      fseekOk mallocOk = some (e, q)) :
    q.length = pData.length ∧
    ((e ≠ tError.success ∧ q = pData) ∨
     (e = tError.success ∧ ∃ out,
        encodeDataFileContentsLoops (extensionOf dataFileName) pData dataToEncode
          width padding = some out ∧
        q = out.pData ∧
        (∀ j, (∀ c ∈ out.visited, j < c ∨ c + 3 ≤ j) → q[j]? = pData[j]?) ∧
        (∀ c ∈ out.visited, c + 3 ≤ out.dataIndex) ∧
        (∀ j, out.dataIndex ≤ j → q[j]? = pData[j]?))) := by
  unfold encodeDataFileContents at h
  split at h
  · simp only [Option.some.injEq, Prod.mk.injEq] at h
    obtain ⟨rfl, rfl⟩ := h
    exact ⟨rfl, Or.inl ⟨by decide, rfl⟩⟩
  · split at h
    · simp only [Option.some.injEq, Prod.mk.injEq] at h
      obtain ⟨rfl, rfl⟩ := h
      exact ⟨rfl, Or.inl ⟨by decide, rfl⟩⟩
    · split at h
      · exact absurd h (by simp)
      · cases hl : encodeDataFileContentsLoops (extensionOf dataFileName) pData dataToEncode
          width padding with
        | none => rw [hl] at h; exact absurd h (by simp [bind])
        | some out =>
          rw [hl] at h
          simp only [bind, Option.bind, Option.some.injEq, Prod.mk.injEq] at h
          obtain ⟨rfl, rfl⟩ := h
          obtain ⟨h1, h2, h3, h4⟩ := encodeLoops_frame hl
          exact ⟨h1, Or.inr ⟨rfl, out, rfl, rfl, h2, h3, h4⟩⟩

/-- Witness of C23: the 48-byte carrier of bytes `0xFF`, 2 pixels wide with 2
bytes of row padding, the file `a.txt` holding `0xAB 0xCD`. -/
theorem embed_frame_witness :
    encodeDataFileContents [0xAB, 0xCD] [97, 46, 116, 120, 116] (whiteCarrier 48) 2 2 2
      true true = some (tError.success, examplePaddedEmbedded) ∧
    (examplePaddedEmbedded.length = (whiteCarrier 48).length ∧
    ((tError.success ≠ tError.success ∧ examplePaddedEmbedded = whiteCarrier 48) ∨
     (tError.success = tError.success ∧ ∃ out,
        encodeDataFileContentsLoops (extensionOf [97, 46, 116, 120, 116]) (whiteCarrier 48)
          [0xAB, 0xCD] 2 2 = some out ∧
        examplePaddedEmbedded = out.pData ∧
        (∀ j, (∀ c ∈ out.visited, j < c ∨ c + 3 ≤ j) →
          examplePaddedEmbedded[j]? = (whiteCarrier 48)[j]?) ∧
        (∀ c ∈ out.visited, c + 3 ≤ out.dataIndex) ∧
        (∀ j, out.dataIndex ≤ j → examplePaddedEmbedded[j]? = (whiteCarrier 48)[j]?)))) :=
  ⟨by decide,
    embed_frame [0xAB, 0xCD] [97, 46, 116, 120, 116] (whiteCarrier 48) 2 2 2 true true
      tError.success examplePaddedEmbedded (by decide)⟩

/-- C24 as amended (file size validation).  `validateSizes` returns `success`
exactly when `bitmapFileSizeBytes` equals `pixelSizeBytes +
filePaddingSizeBytes + 54` reduced modulo `2 ^ 64`, and `errorSize` otherwise;
when the sum is below `2 ^ 64` this is equality with the sum itself.  In
`encoding`, a carrier whose file size is not `54 + (width * height * 3) +
(padding * height)`, both products taken in 32 bits, is rejected with an error
before `encodeDataFileContents` is called and nothing is written; when
`width * height * 3 < 2 ^ 32` the two products are exact. -/
theorem file_size_validation (bitmapFileSizeBytes pixelSizeBytes filePaddingSizeBytes : Nat)
    (w : World) (file : List Nat) (hfile : w.bitmapFile = some file) :
    (validateSizes bitmapFileSizeBytes pixelSizeBytes filePaddingSizeBytes = tError.success ↔
      bitmapFileSizeBytes = (pixelSizeBytes + filePaddingSizeBytes + 54) % 2 ^ 64) ∧
    (validateSizes bitmapFileSizeBytes pixelSizeBytes filePaddingSizeBytes = tError.success ∨
      validateSizes bitmapFileSizeBytes pixelSizeBytes filePaddingSizeBytes
        = tError.errorSize) ∧
    (pixelSizeBytes + filePaddingSizeBytes + 54 < 2 ^ 64 →
      (validateSizes bitmapFileSizeBytes pixelSizeBytes filePaddingSizeBytes = tError.success ↔
        bitmapFileSizeBytes = pixelSizeBytes + filePaddingSizeBytes + 54)) ∧
    ((∃ ch, encodingChain w = some ch ∧ ch.codecRan = false ∧
        ch.errRtn ≠ tError.success ∧ ch.output = none) ∨
      file.length = 54 +
        mul32 (mul32 (parseBitmap file w.parseBitmapFseek).width
          (parseBitmap file w.parseBitmapFseek).height) 3 +
        mul32 (parseBitmap file w.parseBitmapFseek).padding
          (parseBitmap file w.parseBitmapFseek).height) ∧
    ((parseBitmap file w.parseBitmapFseek).width *
        (parseBitmap file w.parseBitmapFseek).height * 3 < 2 ^ 32 →
      ((∃ ch, encodingChain w = some ch ∧ ch.codecRan = false ∧
        ch.errRtn ≠ tError.success ∧ ch.output = none) ∨
      file.length = 54 +
        (parseBitmap file w.parseBitmapFseek).width *
          (parseBitmap file w.parseBitmapFseek).height * 3 +
        (parseBitmap file w.parseBitmapFseek).padding *
          (parseBitmap file w.parseBitmapFseek).height)) := by
  have hchain : (∃ ch, encodingChain w = some ch ∧ ch.codecRan = false ∧
        ch.errRtn ≠ tError.success ∧ ch.output = none) ∨
      file.length = 54 +
        mul32 (mul32 (parseBitmap file w.parseBitmapFseek).width
          (parseBitmap file w.parseBitmapFseek).height) 3 +
        mul32 (parseBitmap file w.parseBitmapFseek).padding
          (parseBitmap file w.parseBitmapFseek).height := by
    by_cases hv : validateSizes file.length
        (mul32 (mul32 (parseBitmap file w.parseBitmapFseek).width
          (parseBitmap file w.parseBitmapFseek).height) 3)
        (mul32 (parseBitmap file w.parseBitmapFseek).padding
          (parseBitmap file w.parseBitmapFseek).height) = tError.success
    · right
      have h1 := mul32_lt (mul32 (parseBitmap file w.parseBitmapFseek).width
        (parseBitmap file w.parseBitmapFseek).height) 3
      have h2 := mul32_lt (parseBitmap file w.parseBitmapFseek).padding
        (parseBitmap file w.parseBitmapFseek).height
      rw [validateSizes_success_iff, Nat.mod_eq_of_lt (by omega)] at hv
      omega
    · exact Or.inl (encodingChain_rejects_size w file hfile hv)
  refine ⟨validateSizes_success_iff _ _ _, ?_, ?_, hchain, ?_⟩
  · rw [validateSizes_eq]
    by_cases h : bitmapFileSizeBytes = (pixelSizeBytes + filePaddingSizeBytes + 54) % 2 ^ 64
    · left; rw [if_neg (not_not.mpr h)]
    · right; rw [if_pos h]
  · intro hlt
    rw [validateSizes_success_iff, Nat.mod_eq_of_lt hlt]
  · intro hfit
    obtain ⟨e1, e2⟩ := geometry_products_exact _ _ hfit
    rw [← parseBitmap_padding] at e2
    rw [e1, e2] at hchain
    exact hchain

set_option maxRecDepth 100000 in
/-- Witness of C24 as amended: the well-formed 4 x 6 bitmap of 126 bytes. -/
theorem file_size_validation_witness :
    (exampleWorld (some (exampleBitmap 66 77 24)) [97, 46, 116, 120, 116]
      (some [0xAB])).bitmapFile = some (exampleBitmap 66 77 24) ∧
    72 + 0 + 54 < 2 ^ 64 ∧
    (validateSizes 126 72 0 = tError.success ↔ 126 = 72 + 0 + 54) ∧
    (parseBitmap (exampleBitmap 66 77 24) true).width *
      (parseBitmap (exampleBitmap 66 77 24) true).height * 3 < 2 ^ 32 ∧
    ((∃ ch, encodingChain (exampleWorld (some (exampleBitmap 66 77 24))
          [97, 46, 116, 120, 116] (some [0xAB])) = some ch ∧ ch.codecRan = false ∧
        ch.errRtn ≠ tError.success ∧ ch.output = none) ∨
      (exampleBitmap 66 77 24).length = 54 +
        (parseBitmap (exampleBitmap 66 77 24) true).width *
          (parseBitmap (exampleBitmap 66 77 24) true).height * 3 +
        (parseBitmap (exampleBitmap 66 77 24) true).padding *
          (parseBitmap (exampleBitmap 66 77 24) true).height) :=
  ⟨rfl, by decide,
    (file_size_validation 126 72 0
      (exampleWorld (some (exampleBitmap 66 77 24)) [97, 46, 116, 120, 116] (some [0xAB]))
      (exampleBitmap 66 77 24) rfl).2.2.1 (by decide),
    by decide,
    (file_size_validation 126 72 0
      (exampleWorld (some (exampleBitmap 66 77 24)) [97, 46, 116, 120, 116] (some [0xAB]))
      (exampleBitmap 66 77 24) rfl).2.2.2.2 (by decide)⟩

set_option maxRecDepth 100000 in
/-- Counterexample to C24 as stated.  The sum of `validateSizes` wraps: for the
64-bit arguments `0`, `2 ^ 64 - 54`, `0` it returns `success` although
`0 ≠ (2 ^ 64 - 54) + 0 + 54`.  As called from `encoding`: a 54-byte file whose
header gives width 65536 and height 65536 (padding 0) passes `validateSizes`,
because `width * height * 3` is `0` in 32 bits, although its size is not
`54 + width * height * 3 + padding * height`; the chain goes on into
`encodeDataFileContents`, which writes outside the empty pixel buffer
(`none`). -/
theorem file_size_validation_wraps :
    2 ^ 64 - 54 < 2 ^ 64 ∧ validateSizes 0 (2 ^ 64 - 54) 0 = tError.success ∧
    0 ≠ (2 ^ 64 - 54) + 0 + 54 ∧
    (parseBitmap (exampleHeader 66 77 54 65536 65536 24) true).errRtn = tError.success ∧
    (parseBitmap (exampleHeader 66 77 54 65536 65536 24) true).width = 65536 ∧
    (parseBitmap (exampleHeader 66 77 54 65536 65536 24) true).height = 65536 ∧
    (parseBitmap (exampleHeader 66 77 54 65536 65536 24) true).padding = 0 ∧
    (exampleHeader 66 77 54 65536 65536 24).length = 54 ∧
    validateSizes (exampleHeader 66 77 54 65536 65536 24).length
      (mul32 (mul32 65536 65536) 3) (mul32 0 65536) = tError.success ∧
    (exampleHeader 66 77 54 65536 65536 24).length ≠ 54 + 65536 * 65536 * 3 + 0 * 65536 ∧
    encodingChain (exampleWorld (some (exampleHeader 66 77 54 65536 65536 24))
      [97, 46, 116, 120, 116] (some [])) = none := by
  decide

/-- C25 as amended (width at the cursor, in `decoding`).  For every bitmap file
given to `decoding` whose header has width 0 or height 0, the pixel data size
computed by `parseBitmap` is 0; `parseEncodedData`, whatever the buffer,
returns `errorSize` from its size guard without visiting a pixel, so that
`checkPadding` is not called and no modulus by the width is taken; and the
chain of `decoding` ends with an error status and writes no output. -/
theorem decoding_rejects_zero_geometry (w : World) (file : List Nat)
    (hfile : w.bitmapFile = some file)
    (hz : (parseBitmap file w.parseBitmapFseek).width = 0 ∨
      (parseBitmap file w.parseBitmapFseek).height = 0) :
    (parseBitmap file w.parseBitmapFseek).sizeOfData = 0 ∧
    (∀ q, parseEncodedData q (parseBitmap file w.parseBitmapFseek).sizeOfData
        (parseBitmap file w.parseBitmapFseek).padding
        (parseBitmap file w.parseBitmapFseek).width
      = some ⟨tError.errorSize, 0, [0, 0, 0], 0, []⟩) ∧
    ∃ c, decodingChain w = some c ∧ c.errRtn ≠ tError.success ∧ c.output = none := by
  have h0 : (parseBitmap file w.parseBitmapFseek).sizeOfData = 0 := by
    rw [parseBitmap_sizeOfData]
    exact sizeOfData_zero _ _ hz
  have hp : ∀ q, parseEncodedData q (parseBitmap file w.parseBitmapFseek).sizeOfData
        (parseBitmap file w.parseBitmapFseek).padding
        (parseBitmap file w.parseBitmapFseek).width
      = some ⟨tError.errorSize, 0, [0, 0, 0], 0, []⟩ := by
    intro q
    rw [h0]
    exact parseEncodedData_small q 0 _ _ (by norm_num)
  refine ⟨h0, hp, ?_⟩
  unfold decodingChain
  rw [hfile]
  simp only []
  split
  · exact ⟨_, rfl, by decide, rfl⟩
  · split
    · rename_i hb
      exact ⟨_, rfl, hb, rfl⟩
    · split
      · exact ⟨_, rfl, by decide, rfl⟩
      · split
        · rename_i err hcopy
          exact ⟨_, rfl, copyBitmapData_none hcopy, rfl⟩
        · rw [hp]
          exact ⟨_, rfl, by decide, rfl⟩

set_option maxRecDepth 100000 in
/-- Witness of C25 as amended: `decoding` of a 54-byte bitmap file whose header
gives width 0 and height 0. -/
theorem decoding_rejects_zero_geometry_witness :
    (exampleWorld (some (exampleHeader 66 77 54 0 0 24)) [] none).bitmapFile
      = some (exampleHeader 66 77 54 0 0 24) ∧
    (parseBitmap (exampleHeader 66 77 54 0 0 24) true).width = 0 ∧
    ((parseBitmap (exampleHeader 66 77 54 0 0 24)
        (exampleWorld (some (exampleHeader 66 77 54 0 0 24)) [] none).parseBitmapFseek).sizeOfData
      = 0 ∧
    (∀ q, parseEncodedData q
        (parseBitmap (exampleHeader 66 77 54 0 0 24)
          (exampleWorld (some (exampleHeader 66 77 54 0 0 24)) [] none).parseBitmapFseek).sizeOfData
        (parseBitmap (exampleHeader 66 77 54 0 0 24)
          (exampleWorld (some (exampleHeader 66 77 54 0 0 24)) [] none).parseBitmapFseek).padding
        (parseBitmap (exampleHeader 66 77 54 0 0 24)
          (exampleWorld (some (exampleHeader 66 77 54 0 0 24)) [] none).parseBitmapFseek).width
      = some ⟨tError.errorSize, 0, [0, 0, 0], 0, []⟩) ∧
    ∃ c, decodingChain (exampleWorld (some (exampleHeader 66 77 54 0 0 24)) [] none) = some c ∧
      c.errRtn ≠ tError.success ∧ c.output = none) :=
  ⟨rfl, by decide,
    decoding_rejects_zero_geometry (exampleWorld (some (exampleHeader 66 77 54 0 0 24)) [] none)
      (exampleHeader 66 77 54 0 0 24) rfl (Or.inl (by decide))⟩

set_option maxRecDepth 100000 in
/-- Counterexample to C25 as stated, in `encoding`.  A 54-byte bitmap file
whose header gives width 0 and height 0 at 24 bits per pixel, with an empty
data file `a.txt`: `parseBitmap` succeeds with pixel data size 0,
`validateSizes` accepts (54 = 0 + 0 + 54), the capacity check wraps below zero
and accepts, and `encodeDataFileContents` is called with width 0; its first
`checkPadding` takes `(0 + 1) % 0` (`none`).  A header with width 4 and
height 0 is not rejected either: the embedding runs on the empty pixel buffer
and writes outside it (`none`). -/
theorem encoding_cursor_width_zero :
    (parseBitmap (exampleHeader 66 77 54 0 0 24) true).errRtn = tError.success ∧
    (parseBitmap (exampleHeader 66 77 54 0 0 24) true).width = 0 ∧
    (parseBitmap (exampleHeader 66 77 54 0 0 24) true).bitsPerPixel = 24 ∧
    (parseBitmap (exampleHeader 66 77 54 0 0 24) true).sizeOfData = 0 ∧
    validateSizes (exampleHeader 66 77 54 0 0 24).length (mul32 (mul32 0 0) 3) (mul32 0 0)
      = tError.success ∧
    capacityExceeded 0 0 0 0 = false ∧
    checkPadding 0 0 0 = none ∧
    encodeDataFileContents [] [97, 46, 116, 120, 116] [] 0 0 0 true true = none ∧
    encodingChain (exampleWorld (some (exampleHeader 66 77 54 0 0 24))
      [97, 46, 116, 120, 116] (some [])) = none ∧
    encoding (exampleWorld (some (exampleHeader 66 77 54 0 0 24))
      [97, 46, 116, 120, 116] (some [])) = none ∧
    (parseBitmap (exampleHeader 66 77 54 4 0 24) true).height = 0 ∧
    checkPadding 0 4 0 = some 0 ∧
    encodingChain (exampleWorld (some (exampleHeader 66 77 54 4 0 24))
      [97, 46, 116, 120, 116] (some [])) = none := by
  decide

/-- C26 (embed is idempotent).  Whenever `encodeDataFileContents` returns with
the pixel buffer `q` (no access outside the buffers), a second call with the
same data file, file name and geometry on `q` returns the same status and
leaves `q` as it is; and unless the status is an error (the loops did not
run), the embedding loops, run again on the buffer `q` they produced, complete
and give `q` again, with the cursor at the same final offset. -/
theorem embed_idempotent (dataToEncode dataFileName pData : List Nat)
    (dataSize width padding : Nat) (fseekOk mallocOk : Bool) (e : tError) (q : List Nat)
    (h : encodeDataFileContents dataToEncode dataFileName pData dataSize width padding
      fseekOk mallocOk = some (e, q)) :
    encodeDataFileContents dataToEncode dataFileName q dataSize width padding
      fseekOk mallocOk = some (e, q) ∧
    ((e ≠ tError.success ∧ q = pData) ∨
      ∃ out out2, encodeDataFileContentsLoops (extensionOf dataFileName) pData dataToEncode
          width padding = some out ∧ out.pData = q ∧
        encodeDataFileContentsLoops (extensionOf dataFileName) q dataToEncode
          width padding = some out2 ∧
        out2.pData = q ∧ out2.dataIndex = out.dataIndex) := by
  unfold encodeDataFileContents at h ⊢
  by_cases h1 : ¬ fseekOk
  · rw [if_pos h1] at h ⊢
    simp only [Option.some.injEq, Prod.mk.injEq] at h
    rw [← h.1, ← h.2]
    exact ⟨rfl, Or.inl ⟨by decide, rfl⟩⟩
  · rw [if_neg h1] at h ⊢
    by_cases h2 : ¬ mallocOk
    · rw [if_pos h2] at h ⊢
      simp only [Option.some.injEq, Prod.mk.injEq] at h
      rw [← h.1, ← h.2]
      exact ⟨rfl, Or.inl ⟨by decide, rfl⟩⟩
    · rw [if_neg h2] at h ⊢
      by_cases h3 : dataSize < dataToEncode.length
      · rw [if_pos h3] at h
        exact absurd h (by simp)
      · rw [if_neg h3] at h ⊢
        cases hl : encodeDataFileContentsLoops (extensionOf dataFileName) pData dataToEncode
          width padding with
        | none => rw [hl] at h; exact absurd h (by simp [bind])
        | some out =>
          rw [hl] at h
          simp only [bind, Option.bind, Option.some.injEq, Prod.mk.injEq] at h
          obtain ⟨v, hr⟩ := encodeLoops_replay hl
          rw [← h.1, ← h.2, hr]
          exact ⟨rfl, Or.inr ⟨out, _, rfl, rfl, rfl, rfl, rfl⟩⟩

/-- Witness of C26: the 48-byte carrier of bytes `0xFF`, 2 pixels wide with 2
bytes of row padding, the file `a.txt` holding `0xAB 0xCD`. -/
theorem embed_idempotent_witness :
    encodeDataFileContents [0xAB, 0xCD] [97, 46, 116, 120, 116] (whiteCarrier 48) 2 2 2
      true true = some (tError.success, examplePaddedEmbedded) ∧
    (encodeDataFileContents [0xAB, 0xCD] [97, 46, 116, 120, 116] examplePaddedEmbedded 2 2 2
      true true = some (tError.success, examplePaddedEmbedded) ∧
    ((tError.success ≠ tError.success ∧ examplePaddedEmbedded = whiteCarrier 48) ∨
      ∃ out out2, encodeDataFileContentsLoops (extensionOf [97, 46, 116, 120, 116])
          (whiteCarrier 48) [0xAB, 0xCD] 2 2 = some out ∧ out.pData = examplePaddedEmbedded ∧
        encodeDataFileContentsLoops (extensionOf [97, 46, 116, 120, 116])
          examplePaddedEmbedded [0xAB, 0xCD] 2 2 = some out2 ∧
        out2.pData = examplePaddedEmbedded ∧ out2.dataIndex = out.dataIndex)) :=
  ⟨by decide,
    embed_idempotent [0xAB, 0xCD] [97, 46, 116, 120, 116] (whiteCarrier 48) 2 2 2 true true
      tError.success examplePaddedEmbedded (by decide)⟩

/-- C27 (extraction depends only on the masked low bits).  Let `q1` and `q2`
be pixel buffers of the same length, read with the same geometry, and let
`parseEncodedData` and then `decodeData` return on `q1`.  If the two buffers
agree on `byte & 0x07` at the blue and green byte and on `byte & 0x03` at the
red byte of every pixel the cursor visited on `q1`, then on `q2` both functions
return the same results: the same status, start index, extension and length,
and the same payload. -/
theorem extraction_depends_on_low_bits (q1 q2 : List Nat) (imageDataSize padding width : Nat)
    (r : ParseOut) (d : DecState) (hlen : q1.length = q2.length)
    (hp : parseEncodedData q1 imageDataSize padding width = some r)
    (hd : decodeData q1 r.encodedDataSize r.startOfEncodedDataIndex width padding = some d)
    (hagree : ∀ c ∈ r.visited ++ d.visited, LowBitsAgree q1 q2 c) :
    parseEncodedData q2 imageDataSize padding width = some r ∧
    decodeData q2 r.encodedDataSize r.startOfEncodedDataIndex width padding = some d :=
  ⟨parseEncodedData_congr hlen hp (fun c hc => hagree c (List.mem_append_left _ hc)),
    byteLoop_congr width padding hlen _ _ d hd
      (fun c hc => hagree c (List.mem_append_right _ hc))⟩

/-- Witness of C27: the embedded 72-byte buffer of a 4 x 6 carrier and a
buffer that keeps only its data bits. -/
theorem extraction_depends_on_low_bits_witness :
    exampleEmbedded72.length = exampleDataBits72.length ∧
    parseEncodedData exampleEmbedded72 72 0 4 =
      some ⟨tError.success, 33, [116, 120, 116], 2, [0, 3, 6, 9, 12, 15, 18, 21, 24, 27, 30]⟩ ∧
    decodeData exampleEmbedded72 2 33 4 0 = some ⟨[0xAB, 0xCD], 39, [33, 36]⟩ ∧
    (∀ c ∈ [0, 3, 6, 9, 12, 15, 18, 21, 24, 27, 30] ++ [33, 36],
      LowBitsAgree exampleEmbedded72 exampleDataBits72 c) ∧
    (parseEncodedData exampleDataBits72 72 0 4 =
      some ⟨tError.success, 33, [116, 120, 116], 2, [0, 3, 6, 9, 12, 15, 18, 21, 24, 27, 30]⟩ ∧
    decodeData exampleDataBits72 2 33 4 0 = some ⟨[0xAB, 0xCD], 39, [33, 36]⟩) :=
  ⟨by decide, by decide, by decide, by decide,
    extraction_depends_on_low_bits exampleEmbedded72 exampleDataBits72 72 0 4
      ⟨tError.success, 33, [116, 120, 116], 2, [0, 3, 6, 9, 12, 15, 18, 21, 24, 27, 30]⟩
      ⟨[0xAB, 0xCD], 39, [33, 36]⟩ (by decide) (by decide) (by decide) (by decide)⟩

end BitmapSteganography
